import Mathlib

/-!
Verification of the M4K chess engine core against its specification.

This file shallowly embeds the Rust sources of the engine (bitboard layer,
position transitions, move generation, legality filter, transposition table,
alpha-beta search and the UCI driver logic) as executable Lean definitions and
proves or refutes the specified properties about them.

Conventions of the embedding:
- A 64-bit word (u64) is a natural number whose set bits lie below 64; bitwise
  operations mirror the Rust operators, with the u64 complement written as a
  xor against the 64-bit all-ones mask.
- Squares are natural numbers 0..63 (rank*8 + file), as in the Rust sources.
- Code paths that panic in Rust (expect/unwrap on None) are modelled with
  Option, where none marks the panic.
- Iteration over the set bits of a bitboard (pop-lsb loops) visits the set
  bits in ascending order; it is embedded as the ascending list of set bits.
-/

namespace M4K

/-- Mask of the 64 low bits: the all-ones u64 word. -/
def mask64 : Nat := 2 ^ 64 - 1

/-- Mask of the 8 low bits: the all-ones u8 word. -/
def mask8 : Nat := 2 ^ 8 - 1

/-- Cast of a signed machine integer to u8 (two's complement wrap), as the
Rust expression `x as u8` on an i32. -/
def u8cast (x : Int) : Nat := (x % 256).toNat

/-- Bitboard: a 64-bit occupancy word (types.rs, `struct Bitboard(pub u64)`). -/
abbrev Bitboard := Nat

namespace Bitboard

/-- Empty bitboard (`Bitboard::EMPTY`). -/
def emptyBB : Bitboard := 0

/-- Test a square (`Bitboard::is_occupied`): `(self.0 & (1u64 << sq)) != 0`. -/
def isOccupied (b : Bitboard) (sq : Nat) : Bool := b &&& (1 <<< sq) != 0

/-- Set a square (`Bitboard::set`): `self.0 |= 1u64 << sq`. -/
def setBit (b : Bitboard) (sq : Nat) : Bitboard := b ||| (1 <<< sq)

/-- Clear a square (`Bitboard::clear`): `self.0 &= !(1u64 << sq)`; the u64
complement of the single-bit word is its xor against the all-ones mask. -/
def clearBit (b : Bitboard) (sq : Nat) : Bitboard := b &&& (mask64 ^^^ (1 <<< sq))

/-- Ascending list of the set bits below 64: the order in which the pop-lsb
iterator (`Bitboard::iter` / `pop_lsb`) visits the squares of a u64 word. -/
def squares (b : Bitboard) : List Nat :=
  (List.range 64).filter (fun i => b.testBit i)

/-- Least significant set bit of a u64 word (`Bitboard::lsb` via
`bitscan_forward`, i.e. trailing-zero count); `none` when the board is empty. -/
def lsb (b : Bitboard) : Option Nat := (squares b).head?

end Bitboard

/-- Piece kind (types.rs `enum Piece`), ordinals 0..5. -/
inductive Piece where
  | Pawn | Knight | Bishop | Rook | Queen | King
deriving DecidableEq, Repr

/-- Ordinal of a piece kind, as `Piece as usize`. -/
def Piece.toNat : Piece → Nat
  | .Pawn => 0 | .Knight => 1 | .Bishop => 2 | .Rook => 3 | .Queen => 4 | .King => 5

/-- Conversion from an ordinal (`Piece::from_u8`). -/
def Piece.fromNat : Nat → Option Piece
  | 0 => some .Pawn | 1 => some .Knight | 2 => some .Bishop
  | 3 => some .Rook | 4 => some .Queen | 5 => some .King
  | _ => none

/-- The six piece kinds in ordinal order, as iterated by `for piece in 0..6`. -/
def pieceList : List Piece := [.Pawn, .Knight, .Bishop, .Rook, .Queen, .King]

/-- Color (types.rs `enum Color`), ordinals 0..1. -/
inductive Color where
  | White | Black
deriving DecidableEq, Repr

/-- Opposite color (`Color::opposite`). -/
def Color.opposite : Color → Color
  | .White => .Black
  | .Black => .White

/-- The two colors in ordinal order. -/
def colorList : List Color := [.White, .Black]

instance : Fintype Piece :=
  ⟨⟨{.Pawn, .Knight, .Bishop, .Rook, .Queen, .King}, by decide⟩, fun p => by cases p <;> decide⟩

instance : Fintype Color :=
  ⟨⟨{.White, .Black}, by decide⟩, fun c => by cases c <;> decide⟩

/-- Castle-rights flag values (types.rs `CastleRights` constants). -/
def WHITE_KING : Nat := 1
def WHITE_QUEEN : Nat := 2
def BLACK_KING : Nat := 4
def BLACK_QUEEN : Nat := 8
def ALL_RIGHTS : Nat := 15

/-- Test for a castle right (`CastleRights::has`): `(self.0 & rights.0) != 0`. -/
def crHas (r m : Nat) : Bool := r &&& m != 0

/-- Add a castle right (`CastleRights::add`): `self.0 |= rights.0`. -/
def crAdd (r m : Nat) : Nat := r ||| m

/-- Remove a castle right (`CastleRights::remove`): `self.0 &= !rights.0` on u8. -/
def crRemove (r m : Nat) : Nat := r &&& (mask8 ^^^ m)

/-! ### Attack tables (attacks.rs, magic.rs)

Knight, king and pawn attacks are pure functions of the origin square,
precomputed from delta lists in attacks.rs. Sliding attacks are answered from
the magic tables that `init_magics` populates with the values of the ray-walk
functions `generate_bishop_attacks_slow` / `generate_rook_attacks_slow`
(magic.rs); the embedding uses those defining ray walks directly. -/

/-- Attack set from a list of (rank delta, file delta) steps with board-edge
bounds checks, as the `while` loops of `generate_knight_attacks` and
`generate_king_attacks`. -/
def attacksFromDeltas (sq : Nat) (deltas : List (Int × Int)) : Bitboard :=
  deltas.foldl
    (fun acc d =>
      let nr : Int := (sq / 8 : Nat) + d.1
      let nf : Int := (sq % 8 : Nat) + d.2
      if 0 ≤ nr ∧ nr < 8 ∧ 0 ≤ nf ∧ nf < 8 then
        acc ||| (1 <<< (nr * 8 + nf).toNat)
      else acc)
    0

/-- Knight attack table entry (`knight_attacks`). -/
def knightAttacks (sq : Nat) : Bitboard :=
  attacksFromDeltas sq [(-2, -1), (-2, 1), (-1, -2), (-1, 2), (1, -2), (1, 2), (2, -1), (2, 1)]

/-- King attack table entry (`king_attacks`). -/
def kingAttacks (sq : Nat) : Bitboard :=
  attacksFromDeltas sq [(-1, -1), (-1, 0), (-1, 1), (0, -1), (0, 1), (1, -1), (1, 0), (1, 1)]

/-- Pawn attack table entry (`pawn_attacks`): up-left/up-right for white,
down-left/down-right for black, guarded by the file edges; the black targets
use a wrapping subtraction whose out-of-range wrap is filtered by the
`target < 64` check, so they exist exactly when the origin is at least 9 (or
7) squares up the board. -/
def pawnAttacks (sq : Nat) (c : Color) : Bitboard :=
  match c with
  | .White =>
    let b1 : Bitboard := if sq % 8 > 0 ∧ sq + 7 < 64 then 1 <<< (sq + 7) else 0
    let b2 : Bitboard := if sq % 8 < 7 ∧ sq + 9 < 64 then 1 <<< (sq + 9) else 0
    b1 ||| b2
  | .Black =>
    let b1 : Bitboard := if sq % 8 > 0 ∧ 9 ≤ sq ∧ sq - 9 < 64 then 1 <<< (sq - 9) else 0
    let b2 : Bitboard := if sq % 8 < 7 ∧ 7 ≤ sq ∧ sq - 7 < 64 then 1 <<< (sq - 7) else 0
    b1 ||| b2

/-- Single ray walk of a sliding piece: starting one step from the origin,
add each in-bounds square and stop after the first occupied one
(`generate_bishop_attacks_slow` / `generate_rook_attacks_slow` inner loop).
The fuel bounds the walk length; 8 steps always suffice on an 8x8 board. -/
def rayWalk (occ : Bitboard) (dr df : Int) : Nat → Int → Int → Bitboard
  | 0, _, _ => 0
  | fuel + 1, r, f =>
    if 0 ≤ r ∧ r < 8 ∧ 0 ≤ f ∧ f < 8 then
      let t := (r * 8 + f).toNat
      let rest := if Bitboard.isOccupied occ t then 0 else rayWalk occ dr df fuel (r + dr) (f + df)
      Bitboard.setBit rest t
    else 0

/-- Ray walk of a full direction from a square. -/
def rayFrom (sq : Nat) (occ : Bitboard) (d : Int × Int) : Bitboard :=
  rayWalk occ d.1 d.2 8 ((sq / 8 : Nat) + d.1) ((sq % 8 : Nat) + d.2)

/-- Bishop attack lookup (`bishop_attacks`), with the defining ray-walk
semantics of the magic table contents. -/
def bishopAttacks (sq : Nat) (occ : Bitboard) : Bitboard :=
  [((-1 : Int), (-1 : Int)), (-1, 1), (1, -1), (1, 1)].foldl
    (fun acc d => acc ||| rayFrom sq occ d) 0

/-- Rook attack lookup (`rook_attacks`), with the defining ray-walk semantics
of the magic table contents. -/
def rookAttacks (sq : Nat) (occ : Bitboard) : Bitboard :=
  [((-1 : Int), (0 : Int)), (1, 0), (0, -1), (0, 1)].foldl
    (fun acc d => acc ||| rayFrom sq occ d) 0

/-- Queen attack lookup (`queen_attacks`): bishop rays or rook rays. -/
def queenAttacks (sq : Nat) (occ : Bitboard) : Bitboard :=
  bishopAttacks sq occ ||| rookAttacks sq occ

/-! ### Moves (generator.rs `Move`) -/

/-- Move type tag (generator.rs `enum MoveType`), the 2-bit kind field. -/
inductive MoveType where
  | Normal | Promotion | EnPassant | Castling
deriving DecidableEq, Repr

/-- A move: the 16-bit packed value of generator.rs, unpacked into its from
square (6 bits), to square (6 bits), kind tag (2 bits) and promotion piece
(2 bits, `Queen` when the field is zero). Equality of the packed words is
equality of the four fields. -/
structure Move where
  fromSq : Nat
  toSq : Nat
  moveType : MoveType
  promoPiece : Piece
deriving DecidableEq, Repr

/-- Promotion-piece encoding (`Move::promotion` `promo_bits` match): pieces
other than queen/rook/bishop/knight encode as 0, i.e. queen. -/
def promoEncode (p : Piece) : Piece :=
  match p with
  | .Queen => .Queen | .Rook => .Rook | .Bishop => .Bishop | .Knight => .Knight
  | _ => .Queen

/-- Normal move constructor (`Move::new`): kind and promotion bits zero. -/
def Move.newMove (f t : Nat) : Move := ⟨f, t, .Normal, .Queen⟩

/-- Promotion move constructor (`Move::promotion`). -/
def Move.promotionMove (f t : Nat) (p : Piece) : Move := ⟨f, t, .Promotion, promoEncode p⟩

/-- En-passant move constructor (`Move::en_passant`). -/
def Move.enPassantMove (f t : Nat) : Move := ⟨f, t, .EnPassant, .Queen⟩

/-- Castling move constructor (`Move::castling`). -/
def Move.castlingMove (f t : Nat) : Move := ⟨f, t, .Castling, .Queen⟩

/-! ### Position (position.rs) -/

/-- Full board state (position.rs `struct Position`): the 6x2 array of piece
bitboards, side to move, castle rights (u8 flag set), optional en-passant
target square, halfmove clock and fullmove number. -/
structure Position where
  pieces : Piece → Color → Bitboard
  sideToMove : Color
  castlingRights : Nat
  enPassant : Option Nat
  halfmoveClock : Nat
  fullmoveNumber : Nat

instance : DecidableEq Position := fun a b =>
  decidable_of_iff
    (a.pieces = b.pieces ∧ a.sideToMove = b.sideToMove ∧
      a.castlingRights = b.castlingRights ∧ a.enPassant = b.enPassant ∧
      a.halfmoveClock = b.halfmoveClock ∧ a.fullmoveNumber = b.fullmoveNumber)
    (by cases a; cases b; simp)

/-- Pointwise update of one layer of the piece array. -/
def updateBB (ps : Piece → Color → Bitboard) (p : Piece) (c : Color) (b : Bitboard) :
    Piece → Color → Bitboard :=
  fun q d => if q = p ∧ d = c then b else ps q d

namespace Position

/-- Empty position (`Position::empty`). -/
def empty : Position :=
  { pieces := fun _ _ => 0, sideToMove := Color.White, castlingRights := 0,
    enPassant := none, halfmoveClock := 0, fullmoveNumber := 1 }

/-- Place a piece (`Position::set_piece`). -/
def setPiece (pos : Position) (p : Piece) (c : Color) (sq : Nat) : Position :=
  { pos with pieces := updateBB pos.pieces p c ((pos.pieces p c).setBit sq) }

/-- Layer accessor (`Position::piece_bb`). -/
def pieceBB (pos : Position) (p : Piece) (c : Color) : Bitboard := pos.pieces p c

/-- First piece layer of a color occupying a square, in ordinal order: the
`for piece in 0..6` scan used by `make_move` and `unmake_move`. -/
def findPieceAt (pos : Position) (c : Color) (sq : Nat) : Option Piece :=
  pieceList.find? (fun p => (pos.pieces p c).isOccupied sq)

/-- The standard starting position: the result of `Position::set_startpos`. -/
def startpos : Position :=
  { pieces := fun p c =>
      match p, c with
      | .Pawn, .White => 0xFF00
      | .Pawn, .Black => 0x00FF000000000000
      | .Knight, .White => 0x42
      | .Knight, .Black => 0x4200000000000000
      | .Bishop, .White => 0x24
      | .Bishop, .Black => 0x2400000000000000
      | .Rook, .White => 0x81
      | .Rook, .Black => 0x8100000000000000
      | .Queen, .White => 0x8
      | .Queen, .Black => 0x0800000000000000
      | .King, .White => 0x10
      | .King, .Black => 0x1000000000000000,
    sideToMove := Color.White, castlingRights := ALL_RIGHTS, enPassant := none,
    halfmoveClock := 0, fullmoveNumber := 1 }

end Position

/-- Undo record (position.rs `struct Undo`). -/
structure Undo where
  mv : Move
  captured : Option Piece
  prevCastling : Nat
  prevEnPassant : Option Nat
  prevHalfmove : Nat
deriving DecidableEq, Repr

/-- Apply a move (`Position::make_move`), returning the new position and the
undo record; `none` models the panic when no own piece sits on the from
square (`expect("No moving piece found on from square")`). -/
def makeMove (pos : Position) (mv : Move) : Option (Position × Undo) :=
  let f := mv.fromSq
  let t := mv.toSq
  let color := pos.sideToMove
  match pos.findPieceAt color f with
  | none => none
  | some movingPiece =>
    -- capture scan: the first opposite-color layer occupied on `to` is cleared
    let capturedN := pos.findPieceAt color.opposite t
    let pieces0 :=
      match capturedN with
      | some cp => updateBB pos.pieces cp color.opposite ((pos.pieces cp color.opposite).clearBit t)
      | none => pos.pieces
    -- remove moving piece from the source square
    let pieces1 := updateBB pieces0 movingPiece color ((pieces0 movingPiece color).clearBit f)
    -- move-type dispatch
    let step :=
      match mv.moveType with
      | .Normal =>
        (updateBB pieces1 movingPiece color ((pieces1 movingPiece color).setBit t), capturedN)
      | .Promotion =>
        let promo := mv.promoPiece
        let pa := updateBB pieces1 Piece.Pawn color ((pieces1 Piece.Pawn color).clearBit f)
        (updateBB pa promo color ((pa promo color).setBit t), capturedN)
      | .EnPassant =>
        let pk := updateBB pieces1 movingPiece color ((pieces1 movingPiece color).setBit t)
        let epRank := if color = Color.White then t / 8 - 1 else t / 8 + 1
        let epSq := epRank * 8 + t % 8
        (updateBB pk Piece.Pawn color.opposite ((pk Piece.Pawn color.opposite).clearBit epSq),
          some Piece.Pawn)
      | .Castling =>
        let pk := updateBB pieces1 movingPiece color ((pieces1 movingPiece color).setBit t)
        let pr :=
          if f = 4 ∧ t = 6 then
            let a := updateBB pk Piece.Rook Color.White ((pk Piece.Rook Color.White).clearBit 7)
            updateBB a Piece.Rook Color.White ((a Piece.Rook Color.White).setBit 5)
          else if f = 4 ∧ t = 2 then
            let a := updateBB pk Piece.Rook Color.White ((pk Piece.Rook Color.White).clearBit 0)
            updateBB a Piece.Rook Color.White ((a Piece.Rook Color.White).setBit 3)
          else if f = 60 ∧ t = 62 then
            let a := updateBB pk Piece.Rook Color.Black ((pk Piece.Rook Color.Black).clearBit 63)
            updateBB a Piece.Rook Color.Black ((a Piece.Rook Color.Black).setBit 61)
          else if f = 60 ∧ t = 58 then
            let a := updateBB pk Piece.Rook Color.Black ((pk Piece.Rook Color.Black).clearBit 56)
            updateBB a Piece.Rook Color.Black ((a Piece.Rook Color.Black).setBit 59)
          else pk
        (pr, capturedN)
    let pieces2 := step.1
    let captured := step.2
    -- castle-rights update from the from-square, then the to-square
    let cr1 :=
      if f = 4 then crRemove (crRemove pos.castlingRights WHITE_KING) WHITE_QUEEN
      else if f = 60 then crRemove (crRemove pos.castlingRights BLACK_KING) BLACK_QUEEN
      else if f = 0 then crRemove pos.castlingRights WHITE_QUEEN
      else if f = 7 then crRemove pos.castlingRights WHITE_KING
      else if f = 56 then crRemove pos.castlingRights BLACK_QUEEN
      else if f = 63 then crRemove pos.castlingRights BLACK_KING
      else pos.castlingRights
    let cr2 :=
      if t = 0 then crRemove cr1 WHITE_QUEEN
      else if t = 7 then crRemove cr1 WHITE_KING
      else if t = 56 then crRemove cr1 BLACK_QUEEN
      else if t = 63 then crRemove cr1 BLACK_KING
      else cr1
    -- en-passant target: midpoint of a two-rank pawn move, cleared otherwise
    let ep :=
      if movingPiece = Piece.Pawn ∧ ((f / 8 : Int) - (t / 8 : Int)).natAbs = 2 then
        some (((f / 8 + t / 8) / 2) * 8 + f % 8)
      else none
    let half := if movingPiece = Piece.Pawn ∨ captured.isSome then 0 else pos.halfmoveClock + 1
    let full := if color = Color.Black then pos.fullmoveNumber + 1 else pos.fullmoveNumber
    some
      ({ pieces := pieces2, sideToMove := color.opposite, castlingRights := cr2,
         enPassant := ep, halfmoveClock := half, fullmoveNumber := full },
       { mv := mv, captured := captured, prevCastling := pos.castlingRights,
         prevEnPassant := pos.enPassant, prevHalfmove := pos.halfmoveClock })

/-- The piece-array update of `make_move` in isolation: the capture clear,
the from-square clear and the move-type dispatch (`pieces0`, `pieces1` and
`step` of the source), as a function of the scanned moving piece and captured
piece; `makeMove` produces exactly this array (theorem `makeMove_pieces`). -/
def moveStep (ps : Piece → Color → Bitboard) (mv : Move) (c : Color)
    (movingPiece : Piece) (capturedN : Option Piece) :
    (Piece → Color → Bitboard) × Option Piece :=
  let f := mv.fromSq
  let t := mv.toSq
  let pieces0 :=
    match capturedN with
    | some cp => updateBB ps cp c.opposite ((ps cp c.opposite).clearBit t)
    | none => ps
  let pieces1 := updateBB pieces0 movingPiece c ((pieces0 movingPiece c).clearBit f)
  match mv.moveType with
  | .Normal =>
    (updateBB pieces1 movingPiece c ((pieces1 movingPiece c).setBit t), capturedN)
  | .Promotion =>
    let promo := mv.promoPiece
    let pa := updateBB pieces1 Piece.Pawn c ((pieces1 Piece.Pawn c).clearBit f)
    (updateBB pa promo c ((pa promo c).setBit t), capturedN)
  | .EnPassant =>
    let pk := updateBB pieces1 movingPiece c ((pieces1 movingPiece c).setBit t)
    let epRank := if c = Color.White then t / 8 - 1 else t / 8 + 1
    let epSq := epRank * 8 + t % 8
    (updateBB pk Piece.Pawn c.opposite ((pk Piece.Pawn c.opposite).clearBit epSq),
      some Piece.Pawn)
  | .Castling =>
    let pk := updateBB pieces1 movingPiece c ((pieces1 movingPiece c).setBit t)
    let pr :=
      if f = 4 ∧ t = 6 then
        let a := updateBB pk Piece.Rook Color.White ((pk Piece.Rook Color.White).clearBit 7)
        updateBB a Piece.Rook Color.White ((a Piece.Rook Color.White).setBit 5)
      else if f = 4 ∧ t = 2 then
        let a := updateBB pk Piece.Rook Color.White ((pk Piece.Rook Color.White).clearBit 0)
        updateBB a Piece.Rook Color.White ((a Piece.Rook Color.White).setBit 3)
      else if f = 60 ∧ t = 62 then
        let a := updateBB pk Piece.Rook Color.Black ((pk Piece.Rook Color.Black).clearBit 63)
        updateBB a Piece.Rook Color.Black ((a Piece.Rook Color.Black).setBit 61)
      else if f = 60 ∧ t = 58 then
        let a := updateBB pk Piece.Rook Color.Black ((pk Piece.Rook Color.Black).clearBit 56)
        updateBB a Piece.Rook Color.Black ((a Piece.Rook Color.Black).setBit 59)
      else pk
    (pr, capturedN)

/-- Undo a move (`Position::unmake_move`); `none` models the panic when no
piece of the mover sits on the destination square. -/
def unmakeMove (pos : Position) (undo : Undo) : Option Position :=
  let f := undo.mv.fromSq
  let t := undo.mv.toSq
  let color := pos.sideToMove.opposite
  let full := if color = Color.Black then pos.fullmoveNumber - 1 else pos.fullmoveNumber
  match pos.findPieceAt color t with
  | none => none
  | some movingPiece =>
    -- remove the moved piece from the destination
    let pieces0 := updateBB pos.pieces movingPiece color ((pos.pieces movingPiece color).clearBit t)
    -- restore a captured piece on the destination square, when present
    let pieces1 :=
      match undo.captured with
      | some cp => updateBB pieces0 cp color.opposite ((pieces0 cp color.opposite).setBit t)
      | none => pieces0
    -- restore the moving piece to the source square, per move type
    let pieces2 :=
      match undo.mv.moveType with
      | .Normal => updateBB pieces1 movingPiece color ((pieces1 movingPiece color).setBit f)
      | .Promotion =>
        let a := updateBB pieces1 movingPiece color ((pieces1 movingPiece color).clearBit t)
        updateBB a Piece.Pawn color ((a Piece.Pawn color).setBit f)
      | .EnPassant =>
        let a := updateBB pieces1 movingPiece color ((pieces1 movingPiece color).setBit f)
        let epRank := if color = Color.White then t / 8 - 1 else t / 8 + 1
        let epSq := epRank * 8 + t % 8
        updateBB a Piece.Pawn color.opposite ((a Piece.Pawn color.opposite).setBit epSq)
      | .Castling =>
        let a := updateBB pieces1 movingPiece color ((pieces1 movingPiece color).setBit f)
        if f = 4 ∧ t = 6 then
          let x := updateBB a Piece.Rook Color.White ((a Piece.Rook Color.White).clearBit 5)
          updateBB x Piece.Rook Color.White ((x Piece.Rook Color.White).setBit 7)
        else if f = 4 ∧ t = 2 then
          let x := updateBB a Piece.Rook Color.White ((a Piece.Rook Color.White).clearBit 3)
          updateBB x Piece.Rook Color.White ((x Piece.Rook Color.White).setBit 0)
        else if f = 60 ∧ t = 62 then
          let x := updateBB a Piece.Rook Color.Black ((a Piece.Rook Color.Black).clearBit 61)
          updateBB x Piece.Rook Color.Black ((x Piece.Rook Color.Black).setBit 63)
        else if f = 60 ∧ t = 58 then
          let x := updateBB a Piece.Rook Color.Black ((a Piece.Rook Color.Black).clearBit 59)
          updateBB x Piece.Rook Color.Black ((x Piece.Rook Color.Black).setBit 56)
        else a
    some { pieces := pieces2, sideToMove := color, castlingRights := undo.prevCastling,
           enPassant := undo.prevEnPassant, halfmoveClock := undo.prevHalfmove,
           fullmoveNumber := full }

/-! ### Move generation (generator.rs) -/

/-- Complement of a u64 word (`!bb` on u64). -/
def Bitboard.compl (b : Bitboard) : Bitboard := mask64 ^^^ b

/-- Pseudo-legal pawn moves (`generate_pawn_moves`): single pushes (with the
four promotions on the promotion rank), double pushes from the start rank,
diagonal captures (with promotions) and the en-passant capture. Push targets
are computed as `(sq as i32 + direction) as u8`, hence through a u8 wrap. -/
def generatePawnMoves (pawns occupied enemies : Bitboard) (color : Color)
    (enPassant : Option Nat) : List Move :=
  let dir : Int := if color = Color.White then 8 else -8
  let startRank : Nat := if color = Color.White then 1 else 6
  let promoRank : Nat := if color = Color.White then 6 else 1
  (Bitboard.squares pawns).flatMap fun pawnSq =>
    let pawnRank := pawnSq / 8
    let target := u8cast ((pawnSq : Int) + dir)
    let pushes :=
      if !occupied.isOccupied target then
        (if pawnRank = promoRank then
          [Move.promotionMove pawnSq target .Queen, Move.promotionMove pawnSq target .Rook,
           Move.promotionMove pawnSq target .Bishop, Move.promotionMove pawnSq target .Knight]
        else [Move.newMove pawnSq target]) ++
        (if pawnRank = startRank then
          let dtarget := u8cast ((pawnSq : Int) + 2 * dir)
          if !occupied.isOccupied dtarget then [Move.newMove pawnSq dtarget] else []
        else [])
      else []
    let caps :=
      (Bitboard.squares (pawnAttacks pawnSq color &&& enemies)).flatMap fun capSq =>
        if pawnRank = promoRank then
          [Move.promotionMove pawnSq capSq .Queen, Move.promotionMove pawnSq capSq .Rook,
           Move.promotionMove pawnSq capSq .Bishop, Move.promotionMove pawnSq capSq .Knight]
        else [Move.newMove pawnSq capSq]
    let eps :=
      match enPassant with
      | some epSq =>
        if (pawnAttacks pawnSq color).isOccupied epSq then [Move.enPassantMove pawnSq epSq]
        else []
      | none => []
    pushes ++ caps ++ eps

/-- Pseudo-legal knight moves (`generate_knight_moves`): quiet targets on
empty squares, then captures on enemy squares. -/
def generateKnightMoves (knights occupied enemies : Bitboard) : List Move :=
  (Bitboard.squares knights).flatMap fun s =>
    (Bitboard.squares (knightAttacks s &&& Bitboard.compl occupied)).map (Move.newMove s) ++
    (Bitboard.squares (knightAttacks s &&& enemies)).map (Move.newMove s)

/-- Pseudo-legal bishop moves (`generate_bishop_moves`): slider lookup minus
friendly squares. -/
def generateBishopMoves (bishops occupied enemies : Bitboard) : List Move :=
  let friends := occupied &&& Bitboard.compl enemies
  (Bitboard.squares bishops).flatMap fun s =>
    (Bitboard.squares (bishopAttacks s occupied &&& Bitboard.compl friends)).map (Move.newMove s)

/-- Pseudo-legal rook moves (`generate_rook_moves`). -/
def generateRookMoves (rooks occupied enemies : Bitboard) : List Move :=
  let friends := occupied &&& Bitboard.compl enemies
  (Bitboard.squares rooks).flatMap fun s =>
    (Bitboard.squares (rookAttacks s occupied &&& Bitboard.compl friends)).map (Move.newMove s)

/-- Pseudo-legal queen moves (`generate_queen_moves`). -/
def generateQueenMoves (queens occupied enemies : Bitboard) : List Move :=
  let friends := occupied &&& Bitboard.compl enemies
  (Bitboard.squares queens).flatMap fun s =>
    (Bitboard.squares (queenAttacks s occupied &&& Bitboard.compl friends)).map (Move.newMove s)

/-- Pseudo-legal king moves (`generate_king_moves`): quiet targets on empty
squares, then captures. -/
def generateKingMoves (kingSq : Nat) (occupied enemies : Bitboard) : List Move :=
  (Bitboard.squares (kingAttacks kingSq &&& Bitboard.compl occupied)).map (Move.newMove kingSq) ++
  (Bitboard.squares (kingAttacks kingSq &&& enemies)).map (Move.newMove kingSq)

/-- Castling moves (`generate_castling_moves`): gated by the matching castle
right and the emptiness of the squares between king and rook. -/
def generateCastlingMoves (kingSq : Nat) (castleRights : Nat) (occupied : Bitboard)
    (color : Color) : List Move :=
  match color with
  | .White =>
    (if crHas castleRights WHITE_KING ∧ !occupied.isOccupied 5 ∧ !occupied.isOccupied 6 then
      [Move.castlingMove kingSq 6]
    else []) ++
    (if crHas castleRights WHITE_QUEEN ∧ !occupied.isOccupied 1 ∧ !occupied.isOccupied 2 ∧
        !occupied.isOccupied 3 then
      [Move.castlingMove kingSq 2]
    else [])
  | .Black =>
    (if crHas castleRights BLACK_KING ∧ !occupied.isOccupied 61 ∧ !occupied.isOccupied 62 then
      [Move.castlingMove kingSq 62]
    else []) ++
    (if crHas castleRights BLACK_QUEEN ∧ !occupied.isOccupied 57 ∧ !occupied.isOccupied 58 ∧
        !occupied.isOccupied 59 then
      [Move.castlingMove kingSq 58]
    else [])

/-- Occupancy of all twelve layers: the `(0..6).fold` union over both colors
used by the search, the legality filter and the driver. -/
def occupiedBB (pos : Position) : Bitboard :=
  pieceList.foldl (fun acc p => acc ||| pos.pieces p .White ||| pos.pieces p .Black) 0

/-- Occupancy of the layers of the opposite color (the `enemies` fold). -/
def enemiesBB (pos : Position) (color : Color) : Bitboard :=
  pieceList.foldl (fun acc p => acc ||| pos.pieces p color.opposite) 0

/-! ### Legality filter (legal.rs) -/

/-- Attack set of every piece of one color on the full occupancy
(`compute_enemy_attacks`, duplicated verbatim in legal.rs and alphabeta.rs). -/
def computeEnemyAttacks (pos : Position) (enemyColor : Color) : Bitboard :=
  let occupied := occupiedBB pos
  let pawnA := (Bitboard.squares (pos.pieces .Pawn enemyColor)).foldl
    (fun acc s => acc ||| pawnAttacks s enemyColor) 0
  let knightA := (Bitboard.squares (pos.pieces .Knight enemyColor)).foldl
    (fun acc s => acc ||| knightAttacks s) pawnA
  let bishopA := (Bitboard.squares (pos.pieces .Bishop enemyColor)).foldl
    (fun acc s => acc ||| bishopAttacks s occupied) knightA
  let rookA := (Bitboard.squares (pos.pieces .Rook enemyColor)).foldl
    (fun acc s => acc ||| rookAttacks s occupied) bishopA
  let queenA := (Bitboard.squares (pos.pieces .Queen enemyColor)).foldl
    (fun acc s => acc ||| queenAttacks s occupied) rookA
  (Bitboard.squares (pos.pieces .King enemyColor)).foldl
    (fun acc s => acc ||| kingAttacks s) queenA

/-- Simulation check (`simulate_move_and_check_king`): apply the move on a
clone, recompute the enemy attack set on the new occupancy, and test that the
mover king square is not attacked; `none` models the panics of `make_move`
and of the king-square unwrap. -/
def simulateMoveAndCheckKing (mv : Move) (pos : Position) (color : Color) : Option Bool :=
  match makeMove pos mv with
  | none => none
  | some (newPos, _) =>
    let enemyAttacks := computeEnemyAttacks newPos color.opposite
    match Bitboard.lsb (newPos.pieces .King color) with
    | none => none
    | some kingSq => some (!enemyAttacks.isOccupied kingSq)

/-- Castling legality (`is_legal_castling`): the king must not be in check,
and the two squares it crosses to must not be attacked, all on the current
occupancy; any from/to pair other than the four standard ones is illegal. -/
def isLegalCastling (mv : Move) (pos : Position) (color : Color) : Option Bool :=
  match Bitboard.lsb (pos.pieces .King color) with
  | none => none
  | some kingSq =>
    let ea := computeEnemyAttacks pos color.opposite
    if ea.isOccupied kingSq then some false
    else some (
      if mv.fromSq = 4 ∧ mv.toSq = 6 then !ea.isOccupied 5 && !ea.isOccupied 6
      else if mv.fromSq = 4 ∧ mv.toSq = 2 then !ea.isOccupied 3 && !ea.isOccupied 2
      else if mv.fromSq = 60 ∧ mv.toSq = 62 then !ea.isOccupied 61 && !ea.isOccupied 62
      else if mv.fromSq = 60 ∧ mv.toSq = 58 then !ea.isOccupied 59 && !ea.isOccupied 58
      else false)

/-- Legality of a pseudo-legal move (`is_legal_move`). -/
def isLegalMove (mv : Move) (pos : Position) (color : Color) : Option Bool :=
  match mv.moveType with
  | .Castling => isLegalCastling mv pos color
  | _ => simulateMoveAndCheckKing mv pos color

/-- Filter of a pseudo-legal move list down to the legal ones
(`filter_legal_moves`), in order; `none` when a legality check panics. -/
def filterLegalMoves (l : List Move) (pos : Position) (color : Color) : Option (List Move) :=
  match l with
  | [] => some []
  | m :: rest => do
    let b ← isLegalMove m pos color
    let r ← filterLegalMoves rest pos color
    pure (if b then m :: r else r)

/-- Check detection (`is_in_check`). -/
def isInCheck (kingSq : Nat) (enemyAttacks : Bitboard) : Bool :=
  enemyAttacks.isOccupied kingSq

/-- Move list built inside `alpha_beta_search` (and identically in
`generate_fallback_move` and `generate_emergency_move`): the pawn, knight,
bishop, rook, queen and king generators in that order; note that
`generate_castling_moves` is not invoked here. -/
def searchMoveList (pos : Position) (color : Color) : List Move :=
  let occupied := occupiedBB pos
  let enemies := enemiesBB pos color
  generatePawnMoves (pos.pieces .Pawn color) occupied enemies color pos.enPassant ++
  generateKnightMoves (pos.pieces .Knight color) occupied enemies ++
  generateBishopMoves (pos.pieces .Bishop color) occupied enemies ++
  generateRookMoves (pos.pieces .Rook color) occupied enemies ++
  generateQueenMoves (pos.pieces .Queen color) occupied enemies ++
  (match Bitboard.lsb (pos.pieces .King color) with
   | some k => generateKingMoves k occupied enemies
   | none => [])

/-- Full pseudo-legal enumeration of the move-generation module: the seven
generators of generator.rs, castling included, with the king square taken as
the least bit of the king layer as at every generator call site. -/
def pseudoLegalMoves (pos : Position) (color : Color) : List Move :=
  searchMoveList pos color ++
  (match Bitboard.lsb (pos.pieces .King color) with
   | some k => generateCastlingMoves k pos.castlingRights (occupiedBB pos) color
   | none => [])

/-! ### Spec-side legality (spec §4.4, §8)

These definitions follow the wording of the specification, to be compared
with the legality filter embedded above. -/

/-- Spec wording: after applying the move, the enemy attack set computed on
the post-move occupancy does not contain the mover king square. -/
def specPostMoveKingSafe (mv : Move) (pos : Position) (color : Color) : Option Bool :=
  match makeMove pos mv with
  | none => none
  | some (newPos, _) =>
    (Bitboard.lsb (newPos.pieces .King color)).map fun kingSq =>
      !(computeEnemyAttacks newPos color.opposite).isOccupied kingSq

/-- Spec wording: for a castling move the king must be unattacked on its
origin, transit and destination squares on the current (pre-move) occupancy.
The spec defines castling only at the four standard king from/to pairs. -/
def specCastlePathSafe (mv : Move) (pos : Position) (color : Color) : Bool :=
  let ea := computeEnemyAttacks pos color.opposite
  if mv.fromSq = 4 ∧ mv.toSq = 6 then
    !ea.isOccupied 4 && !ea.isOccupied 5 && !ea.isOccupied 6
  else if mv.fromSq = 4 ∧ mv.toSq = 2 then
    !ea.isOccupied 4 && !ea.isOccupied 3 && !ea.isOccupied 2
  else if mv.fromSq = 60 ∧ mv.toSq = 62 then
    !ea.isOccupied 60 && !ea.isOccupied 61 && !ea.isOccupied 62
  else if mv.fromSq = 60 ∧ mv.toSq = 58 then
    !ea.isOccupied 60 && !ea.isOccupied 59 && !ea.isOccupied 58
  else false

/-- Spec wording of legality: the post-move enemy attack set misses the mover
king square, and a castling move additionally passes the path-safety check. -/
def specLegalMove (mv : Move) (pos : Position) (color : Color) : Option Bool :=
  (specPostMoveKingSafe mv pos color).map fun safe =>
    safe && (if mv.moveType = .Castling then specCastlePathSafe mv pos color else true)

/-! ### Zobrist fingerprint (zobrist.rs, position.rs `zobrist_hash`)

The key tables are drawn at process start from a random generator; the
embedding abstracts them as a parameter. -/

/-- The Zobrist key tables: per (piece, color, square) keys, the
black-to-move key, per castle-state keys and per en-passant-file keys. -/
structure ZKeys where
  pieceSquare : Piece → Color → Nat → Nat
  blackToMove : Nat
  castle : Nat → Nat
  enPassantFile : Nat → Nat

/-- Position fingerprint (`Position::zobrist_hash`): xor of the keys of every
occupied (piece, color, square), the side key for black, the castle-state key
and the en-passant file key. -/
def zobristHash (k : ZKeys) (pos : Position) : Nat :=
  let h0 := pieceList.foldl
    (fun acc p => colorList.foldl
      (fun acc2 c => (Bitboard.squares (pos.pieces p c)).foldl
        (fun h sq => h ^^^ k.pieceSquare p c sq) acc2)
      acc)
    0
  let h1 := if pos.sideToMove = Color.Black then h0 ^^^ k.blackToMove else h0
  let h2 := h1 ^^^ k.castle pos.castlingRights
  match pos.enPassant with
  | some ep => h2 ^^^ k.enPassantFile (ep % 8)
  | none => h2

/-! ### Transposition table (transposition.rs) -/

/-- Bound kind of a stored entry (`enum NodeType`). -/
inductive NodeType where
  | Exact | Lower | Upper
deriving DecidableEq, Repr

/-- Stored entry (`struct TTEntry`): score, best move, searched depth and
bound kind. The entry stores no fingerprint. -/
structure TTEntry where
  score : Int
  bestMove : Move
  depth : Int
  nodeType : NodeType
deriving DecidableEq, Repr

/-- Direct-mapped table (`struct TranspositionTable`): a vector of optional
entries and its length. The constructors size the vector from a byte budget
and the entry size; the embedding takes the resulting entry count as a
parameter. -/
structure TranspositionTable where
  table : Nat → Option TTEntry
  size : Nat

namespace TranspositionTable

/-- Fresh table of a given entry count (`vec![None; num_entries]`). -/
def mkEmpty (n : Nat) : TranspositionTable := ⟨fun _ => none, n⟩

/-- Slot index of a fingerprint (`hash_index`): `hash % size`. -/
def hashIndex (tt : TranspositionTable) (hash : Nat) : Nat := hash % tt.size

/-- Probe (`probe`): return the slot contents, occupied or not; no
fingerprint comparison is performed. -/
def probe (tt : TranspositionTable) (hash : Nat) : Option TTEntry :=
  tt.table (tt.hashIndex hash)

/-- Store (`store`): overwrite the slot unconditionally. -/
def store (tt : TranspositionTable) (hash : Nat) (e : TTEntry) : TranspositionTable :=
  { tt with table := fun i => if i = tt.hashIndex hash then some e else tt.table i }

end TranspositionTable

/-! ### Search (quiescence.rs, alphabeta.rs)

The static evaluator enters the search only through the `&Evaluator`
parameter; the embedding abstracts it as a score function on positions. The
shared stop flag and the wall-clock deadline tests are abstracted as boolean
parameters (`stopFlag`, `timeUp`); a run in which neither fires corresponds
to both being false. -/

/-- Search result (`struct SearchResult`). -/
structure SearchResult where
  bestMove : Option Move
  score : Int
  nodesSearched : Nat
deriving DecidableEq, Repr

/-- The literal `i32::MIN` as an integer. -/
def i32MIN : Int := -2147483648

/-- The literal `i32::MIN / 2` (the full-window alpha of the driver). -/
def alphaFull : Int := -1073741824

/-- The literal `i32::MAX / 2` (the full-window beta of the driver). -/
def betaFull : Int := 1073741823

/-- Capture filter of the quiescence search: the destination square holds an
enemy piece, or the move is an en-passant capture. -/
def isCaptureMove (pos : Position) (color : Color) (mv : Move) : Bool :=
  pieceList.any (fun p => (pos.pieces p color.opposite).isOccupied mv.toSq) ||
    mv.moveType = MoveType.EnPassant

mutual

/-- Quiescence search (`quiescence_search`): stand pat on the static
evaluation (negated for black), beta cutoff, then an alpha-beta loop over the
capturing moves only, with no depth decrement. The Rust recursion terminates
because every recursive step captures a piece; the embedding carries a fuel
bounding the capture-chain length, and `none` marks fuel exhaustion (as well
as a panic of `make_move`/`unmake_move` below it). -/
def quiescenceSearch (evalFn : Position → Int) (fuel : Nat) (alpha beta : Int)
    (color : Color) (pos : Position) : Option Int :=
  match fuel with
  | 0 => none
  | fuel + 1 =>
    let standPatRaw := evalFn pos
    let standPat := if color = Color.White then standPatRaw else -standPatRaw
    if standPat ≥ beta then some beta
    else
      let alpha := max alpha standPat
      let captures := (searchMoveList pos color).filter (isCaptureMove pos color)
      qLoop evalFn fuel beta color pos captures alpha

/-- Loop of the quiescence search over the capture list, with the early beta
return. -/
def qLoop (evalFn : Position → Int) (fuel : Nat) (beta : Int) (color : Color)
    (pos : Position) (l : List Move) (alpha : Int) : Option Int :=
  match l with
  | [] => some alpha
  | mv :: rest =>
    match makeMove pos mv with
    | none => none
    | some (childPos, undo) =>
      match quiescenceSearch evalFn fuel (-beta) (-alpha) color.opposite childPos with
      | none => none
      | some s =>
        match unmakeMove childPos undo with
        | none => none
        | some _ =>
          let score := -s
          if score ≥ beta then some beta
          else qLoop evalFn fuel beta color pos rest (max alpha score)

end

/-- Outcome of the move loop of `alpha_beta_search`: best score, best move,
bound kind, node count and the threaded transposition table. -/
structure ABLoopState where
  bestScore : Int
  bestMove : Option Move
  nodeType : NodeType
  nodes : Nat
  tt : TranspositionTable

/-- Move loop of `alpha_beta_search`: for each legal move, clone, apply,
recurse through `child` (the search at the next depth) with the negated
window, undo, negate the score, track the best, raise alpha and cut on beta.
The stop flag and the deadline test break the loop before each child. -/
def abLoop (stopFlag timeUp : Bool)
    (child : Int → Int → Color → TranspositionTable → Position →
      Option (SearchResult × TranspositionTable))
    (beta : Int) (color : Color) (pos : Position) :
    List Move → Int → ABLoopState → Option ABLoopState :=
  fun l alpha st =>
    match l with
    | [] => some st
    | mv :: rest =>
      if stopFlag then some st
      else if timeUp then some st
      else
        match makeMove pos mv with
        | none => none
        | some (childPos, undo) =>
          match child (-beta) (-alpha) color.opposite st.tt childPos with
          | none => none
          | some (childResult, tt2) =>
            match unmakeMove childPos undo with
            | none => none
            | some _ =>
              let score := -childResult.score
              let nodes := st.nodes + childResult.nodesSearched
              let st2 :=
                if score > st.bestScore then
                  { st with bestScore := score, bestMove := some mv, nodes := nodes, tt := tt2 }
                else { st with nodes := nodes, tt := tt2 }
              let alpha2 := max alpha score
              if alpha2 ≥ beta then some { st2 with nodeType := NodeType.Lower }
              else abLoop stopFlag timeUp child beta color pos rest alpha2 st2

/-- Body of `alpha_beta_search` at a given depth, with the recursion at depth
minus one supplied as `child` (unused when depth is zero): probe the
transposition table and act on depth-sufficient hits, drop to quiescence at
depth zero, otherwise generate and filter the moves, run the loop, and store
the result when a best move exists. `none` models a panic below. -/
def alphaBetaStep (keys : ZKeys) (evalFn : Position → Int) (qfuel : Nat)
    (stopFlag timeUp : Bool) (depth : Nat)
    (child : Int → Int → Color → TranspositionTable → Position →
      Option (SearchResult × TranspositionTable))
    (alpha beta : Int) (color : Color) (tt : TranspositionTable) (pos : Position) :
    Option (SearchResult × TranspositionTable) :=
  let posHash := zobristHash keys pos
  let probed := tt.probe posHash
  let ttStep : Option (Int × Int) ⊕ SearchResult :=
    match probed with
    | some e =>
      if e.depth ≥ (depth : Int) then
        match e.nodeType with
        | .Exact => Sum.inr { bestMove := some e.bestMove, score := e.score, nodesSearched := 1 }
        | .Lower =>
          let alpha2 := max alpha e.score
          if alpha2 ≥ beta then
            Sum.inr { bestMove := some e.bestMove, score := e.score, nodesSearched := 1 }
          else Sum.inl (some (alpha2, beta))
        | .Upper =>
          let beta2 := min beta e.score
          if alpha ≥ beta2 then
            Sum.inr { bestMove := some e.bestMove, score := e.score, nodesSearched := 1 }
          else Sum.inl (some (alpha, beta2))
      else Sum.inl none
    | none => Sum.inl none
  match ttStep with
  | Sum.inr r => some (r, tt)
  | Sum.inl adjusted =>
    let alpha := (adjusted.map Prod.fst).getD alpha
    let beta := (adjusted.map Prod.snd).getD beta
    if depth = 0 then
      match quiescenceSearch evalFn qfuel alpha beta color pos with
      | none => none
      | some q => some ({ bestMove := none, score := q, nodesSearched := 1 }, tt)
    else
      let moves := searchMoveList pos color
      match filterLegalMoves moves pos color with
      | none => none
      | some legalMoves =>
        let st0 : ABLoopState :=
          { bestScore := i32MIN, bestMove := none, nodeType := NodeType.Upper,
            nodes := 1, tt := tt }
        match abLoop stopFlag timeUp child beta color pos legalMoves alpha st0 with
        | none => none
        | some st =>
          let result : SearchResult :=
            { bestMove := st.bestMove, score := st.bestScore, nodesSearched := st.nodes }
          match st.bestMove with
          | some mv =>
            some (result, st.tt.store posHash
              { score := st.bestScore, bestMove := mv, depth := (depth : Int),
                nodeType := st.nodeType })
          | none => some (result, st.tt)

/-- Alpha-beta search (`alpha_beta_search`), by recursion on the remaining
depth. -/
def alphaBeta (keys : ZKeys) (evalFn : Position → Int) (qfuel : Nat)
    (stopFlag timeUp : Bool) :
    Nat → Int → Int → Color → TranspositionTable → Position →
      Option (SearchResult × TranspositionTable)
  | 0 => alphaBetaStep keys evalFn qfuel stopFlag timeUp 0 (fun _ _ _ _ _ => none)
  | d + 1 => alphaBetaStep keys evalFn qfuel stopFlag timeUp (d + 1)
      (alphaBeta keys evalFn qfuel stopFlag timeUp d)

/-- First legal move of a position (`generate_fallback_move`, and identically
`generate_emergency_move` in the driver): head of the filtered list built
from the castling-free aggregation. -/
def generateFallbackMove (pos : Position) (color : Color) : Option (Option Move) :=
  (filterLegalMoves (searchMoveList pos color) pos color).map List.head?

/-! ### UCI command parsing (commands.rs) -/

/-- Time control record (`struct TimeControl`). Times are in milliseconds. -/
structure TimeControl where
  wtime : Option Nat
  btime : Option Nat
  winc : Option Nat
  binc : Option Nat
  movestogo : Option Nat
  depth : Option Nat
  nodes : Option Nat
  movetime : Option Nat
  infinite : Bool
deriving DecidableEq, Repr

/-- Default time control (`TimeControl::default`): depth 4, all else unset. -/
def TimeControl.dflt : TimeControl :=
  { wtime := none, btime := none, winc := none, binc := none, movestogo := none,
    depth := some 4, nodes := none, movetime := none, infinite := false }

/-- All-unset time control (the literal at the top of `parse_go_command`). -/
def TimeControl.unset : TimeControl :=
  { wtime := none, btime := none, winc := none, binc := none, movestogo := none,
    depth := none, nodes := none, movetime := none, infinite := false }

/-- Parsed UCI command (`enum UciCommand`). -/
inductive UciCommand where
  | Uci | IsReady | NewGame
  | Position (fen : String) (moves : List Move)
  | Go (timeControl : TimeControl)
  | Stop | Quit
deriving Repr

/-- Value of an ASCII decimal digit list, most significant first; `none` when
empty or a character is not a digit. -/
def parseDecDigits (cs : List Char) : Option Nat :=
  match cs with
  | [] => none
  | _ =>
    cs.foldl
      (fun acc c =>
        match acc with
        | none => none
        | some v => if '0' ≤ c ∧ c ≤ '9' then some (v * 10 + (c.toNat - 48)) else none)
      (some 0)

/-- Unsigned decimal parse bounded by a width (Rust `str::parse` for uN): an
optional leading plus sign, then digits; overflow fails. -/
def parseUnsigned (bound : Nat) (cs : List Char) : Option Nat :=
  match (match cs with
    | '+' :: rest => parseDecDigits rest
    | _ => parseDecDigits cs) with
  | some v => if v < bound then some v else none
  | none => none

/-- Rust `str::parse::<u64>().ok()` on a token. -/
def parseU64 (s : String) : Option Nat := parseUnsigned (2 ^ 64) s.toList

/-- Rust `str::parse::<u32>().ok()` on a token. -/
def parseU32 (s : String) : Option Nat := parseUnsigned (2 ^ 32) s.toList

/-- Checked subtraction of character codes, as `(c as u32).checked_sub(base)`. -/
def charSub (c base : Char) : Option Nat :=
  if base.toNat ≤ c.toNat then some (c.toNat - base.toNat) else none

/-- Move-token parse (`parse_uci_move`): four characters source file+rank and
destination file+rank, with bounds checks, and an optional fifth promotion
character; a four-character token builds `Move::new` (tag Normal) and a
five-character token builds `Move::promotion` (tag Promotion). Tokens longer
than five characters fall through to `Move::new` as in the source. -/
def parseUciMove (s : String) : Option Move :=
  let bytes := s.toList
  match bytes with
  | c0 :: c1 :: c2 :: c3 :: rest =>
    match charSub c0 'a', charSub c1 '1', charSub c2 'a', charSub c3 '1' with
    | some ff, some fr, some tf, some tr =>
      if ff > 7 ∨ fr > 7 ∨ tf > 7 ∨ tr > 7 then none
      else
        let fromSq := fr * 8 + ff
        let toSq := tr * 8 + tf
        if bytes.length = 5 then
          let pc := rest.headD ' '
          let lc := if 'A' ≤ pc ∧ pc ≤ 'Z' then Char.ofNat (pc.toNat + 32) else pc
          match lc with
          | 'q' => some (Move.promotionMove fromSq toSq .Queen)
          | 'r' => some (Move.promotionMove fromSq toSq .Rook)
          | 'b' => some (Move.promotionMove fromSq toSq .Bishop)
          | 'n' => some (Move.promotionMove fromSq toSq .Knight)
          | _ => none
        else some (Move.newMove fromSq toSq)
    | _, _, _, _ => none
  | _ => none

/-- Whitespace test of the tokenizer. -/
def isWs (c : Char) : Bool := c.isWhitespace

/-- Accumulating pass of the whitespace tokenizer. -/
def splitWsGo (acc : List Char) : List Char → List (List Char)
  | [] => if acc.isEmpty then [] else [acc.reverse]
  | c :: rest =>
    if isWs c then
      if acc.isEmpty then splitWsGo [] rest else acc.reverse :: splitWsGo [] rest
    else splitWsGo (c :: acc) rest

/-- Whitespace tokenization (`split_whitespace`): maximal nonempty runs of
non-whitespace characters. -/
def splitWs (cs : List Char) : List (List Char) := splitWsGo [] cs

/-- Whitespace tokenization of a string into strings. -/
def splitWsStr (s : String) : List String := (splitWs s.toList).map (fun l => String.mk l)

/-- Strip of leading and trailing whitespace (`str::trim`). -/
def trimChars (cs : List Char) : List Char :=
  (((cs.dropWhile isWs).reverse.dropWhile isWs).reverse)

/-- Strip of leading and trailing whitespace on a string. -/
def trimStr (s : String) : String := String.mk (trimChars s.toList)

/-- The FEN string literal substituted for `startpos`
(`parse_position_command`). -/
def startposFen : String := "rnbqkbnr/pppppppp/8/8/8/8/PPPPPPPP/RNBQKBNR w KQkq - 0 1"

/-- Position-command parse (`parse_position_command`): `startpos` substitutes
the standard FEN, `fen` collects fields up to `moves`, and the move tokens
after `moves` are parsed, silently dropping unparsable ones. -/
def parsePositionCommand (args : List String) : Option UciCommand :=
  match args with
  | [] => none
  | a0 :: restArgs =>
    let fenAndFlag : Option (String × Bool) :=
      if a0 = "startpos" then some (startposFen, true)
      else if a0 = "fen" then
        let fenParts := restArgs.takeWhile (fun a => a ≠ "moves")
        some (String.intercalate " " fenParts, restArgs.any (fun a => a = "moves"))
      else none
    match fenAndFlag with
    | none => none
    | some (fen, parsingMoves) =>
      let moves :=
        if parsingMoves then
          match (a0 :: restArgs).findIdx? (fun a => a = "moves") with
          | some idx => ((a0 :: restArgs).drop (idx + 1)).filterMap parseUciMove
          | none => []
        else []
      some (UciCommand.Position fen moves)

/-- Go-command parse (`parse_go_command`): keyword/value scan over the
arguments, unknown tokens skipped; a keyword in final place consumes only
itself. -/
def parseGoArgs : List String → TimeControl → TimeControl
  | [], tc => tc
  | "infinite" :: rest, tc => parseGoArgs rest { tc with infinite := true }
  | ["wtime"], tc => tc
  | "wtime" :: v :: rest, tc => parseGoArgs rest { tc with wtime := parseU64 v }
  | ["btime"], tc => tc
  | "btime" :: v :: rest, tc => parseGoArgs rest { tc with btime := parseU64 v }
  | ["winc"], tc => tc
  | "winc" :: v :: rest, tc => parseGoArgs rest { tc with winc := parseU64 v }
  | ["binc"], tc => tc
  | "binc" :: v :: rest, tc => parseGoArgs rest { tc with binc := parseU64 v }
  | ["movestogo"], tc => tc
  | "movestogo" :: v :: rest, tc => parseGoArgs rest { tc with movestogo := parseU32 v }
  | ["depth"], tc => tc
  | "depth" :: v :: rest, tc => parseGoArgs rest { tc with depth := parseU32 v }
  | ["nodes"], tc => tc
  | "nodes" :: v :: rest, tc => parseGoArgs rest { tc with nodes := parseU64 v }
  | ["movetime"], tc => tc
  | "movetime" :: v :: rest, tc => parseGoArgs rest { tc with movetime := parseU64 v }
  | _ :: rest, tc => parseGoArgs rest tc

/-- Command-line parse (`parse_command`): first token selects the verb. -/
def parseCommand (s : String) : Option UciCommand :=
  let parts := splitWsStr s
  match parts with
  | [] => none
  | v :: rest =>
    if v = "uci" then some UciCommand.Uci
    else if v = "isready" then some UciCommand.IsReady
    else if v = "ucinewgame" then some UciCommand.NewGame
    else if v = "position" then parsePositionCommand rest
    else if v = "go" then some (UciCommand.Go (parseGoArgs rest TimeControl.unset))
    else if v = "stop" then some UciCommand.Stop
    else if v = "quit" then some UciCommand.Quit
    else none

/-! ### FEN parse and emission (position.rs `set_fen` / `to_fen`) -/

/-- Piece and color of a placement character (the piece-char match arms of
`set_fen`). -/
def pieceOfChar (c : Char) : Option (Piece × Color) :=
  match c with
  | 'P' => some (.Pawn, .White) | 'p' => some (.Pawn, .Black)
  | 'N' => some (.Knight, .White) | 'n' => some (.Knight, .Black)
  | 'B' => some (.Bishop, .White) | 'b' => some (.Bishop, .Black)
  | 'R' => some (.Rook, .White) | 'r' => some (.Rook, .Black)
  | 'Q' => some (.Queen, .White) | 'q' => some (.Queen, .Black)
  | 'K' => some (.King, .White) | 'k' => some (.King, .Black)
  | _ => none

/-- Placement-field scan of `set_fen`: slashes advance the rank (requiring a
full file count), digits advance the file, piece characters place a piece at
`Square::new(file as u8, rank as u8)` (whose u8 arithmetic wraps mod 256)
after the `file > 7 || rank > 7` bound check. -/
def placeChars : List Char → Int → Nat → Position → Option (Int × Nat × Position)
  | [], rank, file, pos => some (rank, file, pos)
  | c :: rest, rank, file, pos =>
    if c = '/' then
      if file ≠ 8 then none
      else placeChars rest (rank - 1) 0 pos
    else if '1' ≤ c ∧ c ≤ '8' then
      placeChars rest rank (file + (c.toNat - 48)) pos
    else
      match pieceOfChar c with
      | some pc =>
        if file > 7 ∨ rank > 7 then none
        else
          placeChars rest rank (file + 1)
            (pos.setPiece pc.1 pc.2 ((u8cast rank * 8 + file) % 256))
      | none => none

/-- Castling-field scan of `set_fen`. -/
def parseCastleChars : List Char → Nat → Option Nat
  | [], r => some r
  | c :: rest, r =>
    match c with
    | 'K' => parseCastleChars rest (crAdd r WHITE_KING)
    | 'Q' => parseCastleChars rest (crAdd r WHITE_QUEEN)
    | 'k' => parseCastleChars rest (crAdd r BLACK_KING)
    | 'q' => parseCastleChars rest (crAdd r BLACK_QUEEN)
    | _ => none

/-- En-passant field parse of `set_fen`: a dash or a two-character algebraic
square with file a..h and rank 1..8. -/
def parseEpField (cs : List Char) : Option (Option Nat) :=
  if cs = ['-'] then some none
  else
    match cs with
    | [fc, rc] =>
      if 'a' ≤ fc ∧ fc ≤ 'h' then
        if '1' ≤ rc ∧ rc ≤ '8' then
          some (some ((rc.toNat - 49) * 8 + (fc.toNat - 97)))
        else none
      else none
    | _ => none

/-- FEN parse (`Position::set_fen`) on a character list: whitespace-tokenize
(the leading `trim` is subsumed), require at least four fields, scan the
placement from rank 7 and check it ends at rank 0 with a full last rank, then
the side, castling and en-passant fields; the halfmove and fullmove fields
default to 0 and 1 when absent or unparsable. -/
def setFenChars (cs : List Char) : Option Position :=
  match splitWs cs with
  | placement :: sideF :: castleF :: epF :: restFields =>
    match placeChars placement 7 0 Position.empty with
    | none => none
    | some (rank, file, pos) =>
      if rank ≠ 0 ∨ file ≠ 8 then none
      else
        match
          (match sideF with
            | ['w'] => some Color.White
            | ['b'] => some Color.Black
            | _ => none) with
        | none => none
        | some side =>
          match (if castleF = ['-'] then some 0 else parseCastleChars castleF 0) with
          | none => none
          | some rights =>
            match parseEpField epF with
            | none => none
            | some ep =>
              let halfmove :=
                match restFields.head? with
                | some h => (parseUnsigned (2 ^ 32) h).getD 0
                | none => 0
              let fullmove :=
                match (restFields.drop 1).head? with
                | some h => (parseUnsigned (2 ^ 32) h).getD 1
                | none => 1
              some { pos with
                      sideToMove := side, castlingRights := rights,
                      enPassant := ep, halfmoveClock := halfmove,
                      fullmoveNumber := fullmove }
  | _ => none

/-- FEN parse on a string. -/
def setFen (s : String) : Option Position := setFenChars s.toList

/-- Decimal digit character. -/
def digitCharOf (n : Nat) : Char := Char.ofNat (48 + n)

/-- Placement character of a piece and color (the symbol match of `to_fen`). -/
def symCharOf (p : Piece) (c : Color) : Char :=
  match p, c with
  | .Pawn, .White => 'P' | .Pawn, .Black => 'p'
  | .Knight, .White => 'N' | .Knight, .Black => 'n'
  | .Bishop, .White => 'B' | .Bishop, .Black => 'b'
  | .Rook, .White => 'R' | .Rook, .Black => 'r'
  | .Queen, .White => 'Q' | .Queen, .Black => 'q'
  | .King, .White => 'K' | .King, .Black => 'k'

/-- Characters emitted for one square by the nested piece/color scan of
`to_fen`: one symbol per layer occupying it (a single symbol on any position
whose layers are disjoint). -/
def symbolsAt (pos : Position) (sq : Nat) : List Char :=
  pieceList.flatMap fun p =>
    colorList.filterMap fun c =>
      if (pos.pieces p c).isOccupied sq then some (symCharOf p c) else none

/-- Rank emission of `to_fen`: walk the files accumulating a run of empty
squares, flushing it as a digit before each symbol and at the end. -/
def emitRowAux (pos : Position) (rank : Nat) : List Nat → Nat → List Char
  | [], empty => if empty > 0 then [digitCharOf empty] else []
  | f :: fs, empty =>
    let syms := symbolsAt pos (rank * 8 + f)
    if syms.isEmpty then emitRowAux pos rank fs (empty + 1)
    else (if empty > 0 then [digitCharOf empty] else []) ++ syms ++ emitRowAux pos rank fs 0

/-- Placement emission of `to_fen`: ranks 7 down to 0, a slash after every
rank except the last. -/
def emitRanksGo (pos : Position) : List Nat → List Char
  | [] => []
  | r :: rs =>
    emitRowAux pos r (List.range 8) 0 ++ (if r > 0 then ['/'] else []) ++ emitRanksGo pos rs

/-- Full placement field of `to_fen`. -/
def emitPlacement (pos : Position) : List Char :=
  emitRanksGo pos (List.range 8).reverse

/-- Castling field of `to_fen`: the held rights in KQkq order, or a dash. -/
def rightsChars (r : Nat) : List Char :=
  let rc :=
    (if crHas r WHITE_KING then ['K'] else []) ++
    (if crHas r WHITE_QUEEN then ['Q'] else []) ++
    (if crHas r BLACK_KING then ['k'] else []) ++
    (if crHas r BLACK_QUEEN then ['q'] else [])
  if rc.isEmpty then ['-'] else rc

/-- En-passant field of `to_fen`. -/
def epChars (ep : Option Nat) : List Char :=
  match ep with
  | some e => [Char.ofNat (97 + e % 8), Char.ofNat (49 + e / 8)]
  | none => ['-']

/-- Decimal representation of a counter (`u32::to_string`). -/
def natToChars (n : Nat) : List Char :=
  if n = 0 then ['0'] else (Nat.digits 10 n).reverse.map digitCharOf

/-- FEN emission (`Position::to_fen`) as a character list: placement, side,
castling, en passant, halfmove clock and fullmove number, space separated. -/
def toFenChars (pos : Position) : List Char :=
  emitPlacement pos ++
  [' ', (match pos.sideToMove with | .White => 'w' | .Black => 'b')] ++
  [' '] ++ rightsChars pos.castlingRights ++
  [' '] ++ epChars pos.enPassant ++
  [' '] ++ natToChars pos.halfmoveClock ++
  [' '] ++ natToChars pos.fullmoveNumber

/-- FEN emission as a string. -/
def toFen (pos : Position) : String := String.mk (toFenChars pos)

/-! ### Iterative deepening and the protocol driver (alphabeta.rs
`iterative_deepening`, protocol.rs)

The driver runs the search on a worker thread and observes it only through
the shared stop flag and a single-producer single-consumer channel. The
embedding runs the protocol loop as a state machine over the command lines;
each processed line carries a boolean of the schedule saying whether the
worker had completed (posted its result) by the time the polls of that line
run. The wall-clock tests inside the worker are abstracted by the `timeUp`
flag as in the search embedding. -/

/-- Depth loop of `iterative_deepening`: for each depth, break on the stop
flag, on the estimated-cost check before depths above one, on `should_stop`
after the window search and on the conservative check at depths of six and
above; every wall-clock test is abstracted by `timeUp`. -/
def idLoop (keys : ZKeys) (evalFn : Position → Int) (qfuel : Nat)
    (stopFlag timeUp : Bool) (color : Color) (pos : Position) :
    List Nat → SearchResult → TranspositionTable →
      Option (SearchResult × TranspositionTable)
  | [], result, tt => some (result, tt)
  | d :: rest, result, tt =>
    if stopFlag then some (result, tt)
    else if d > 1 ∧ timeUp then some (result, tt)
    else
      match alphaBeta keys evalFn qfuel stopFlag timeUp d alphaFull betaFull color tt pos with
      | none => none
      | some (wr, tt2) =>
        if timeUp then some (wr, tt2)
        else if d ≥ 6 ∧ timeUp then some (wr, tt2)
        else idLoop keys evalFn qfuel stopFlag timeUp color pos rest wr tt2

/-- Iterative deepening (`iterative_deepening`): depths one up to the
requested depth (default eight), with the fallback first legal move
substituted when no depth produced a best move. -/
def iterativeDeepening (keys : ZKeys) (evalFn : Position → Int) (qfuel : Nat)
    (tc : TimeControl) (color : Color) (tt : TranspositionTable) (pos : Position)
    (stopFlag timeUp : Bool) : Option SearchResult :=
  let maxDepth := tc.depth.getD 8
  match generateFallbackMove pos color with
  | none => none
  | some fallback =>
    match idLoop keys evalFn qfuel stopFlag timeUp color pos
      ((List.range maxDepth).map (· + 1)) { bestMove := none, score := 0, nodesSearched := 0 } tt with
    | none => none
    | some (result, _) =>
      if result.bestMove.isSome then some result
      else some { result with bestMove := fallback }

/-- Algebraic characters of a square, for the move Display format. -/
def squareChars (sq : Nat) : List Char :=
  [Char.ofNat (97 + sq % 8), Char.ofNat (49 + sq / 8)]

/-- Move formatting of the driver output (the Debug/Display impl of `Move`):
promotions append an equals sign and the Debug name of the piece, en passant
and castling append their annotations. -/
def fmtMove (m : Move) : String :=
  let base := squareChars m.fromSq ++ squareChars m.toSq
  let pieceName : List Char :=
    match m.promoPiece with
    | .Queen => "Queen".toList | .Rook => "Rook".toList
    | .Bishop => "Bishop".toList | .Knight => "Knight".toList
    | .Pawn => "Pawn".toList | .King => "King".toList
  match m.moveType with
  | .Normal => String.mk base
  | .Promotion => String.mk (base ++ '=' :: pieceName)
  | .EnPassant => String.mk (base ++ " e.p.".toList)
  | .Castling => String.mk (base ++ " castling".toList)

/-- Search configuration owned by the driver: the process-wide Zobrist keys,
the static evaluator, the quiescence fuel of the embedding, and the
transposition-table entry count of `TranspositionTable::new`. -/
structure EngineCfg where
  keys : ZKeys
  evalFn : Position → Int
  qfuel : Nat
  ttSize : Nat

/-- Driver state (`struct UciEngine`): the live position, the last `go`
parameters, the stop flag, whether a worker is in flight, the result it will
post on completion, and the channel contents. -/
structure UciEngine where
  position : Position
  timeControl : TimeControl
  stopFlag : Bool
  searchInFlight : Bool
  inFlight : Option (Option SearchResult)
  channel : Option SearchResult

/-- Initial driver state (`UciEngine::new`). -/
def UciEngine.init : UciEngine :=
  { position := Position.startpos, timeControl := TimeControl.dflt, stopFlag := false,
    searchInFlight := false, inFlight := none, channel := none }

/-- Worker completion: a finished worker posts its result to the channel (a
panicked worker, modelled by an inner `none`, posts nothing). -/
def deliverResult (st : UciEngine) : UciEngine :=
  match st.inFlight with
  | some r =>
    { st with
      inFlight := none,
      channel := (match r with | some res => some res | none => st.channel) }
  | none => st

/-- Channel poll (`try_recv`): takes the posted result, when present. -/
def tryRecv (st : UciEngine) : Option SearchResult × UciEngine :=
  (st.channel, { st with channel := none })

/-- Emergency move of the driver (`generate_emergency_move`): first legal
move of the live position; `none` outer marks a panic of the filter. -/
def emergencyMove (st : UciEngine) : Option (Option Move) :=
  generateFallbackMove st.position st.position.sideToMove

/-- Position-command handler (`handle_position`): `startpos` resets, a FEN is
parsed with a reset to the start position and an early return on failure, and
the listed moves are applied with `make_move`, whose panic (`none`) aborts
the process. This helper applies the move list in order. -/
def applyMoves : List Move → Position → Option Position
  | [], q => some q
  | m :: rest, q =>
    match makeMove q m with
    | none => none
    | some (q2, _) => applyMoves rest q2

/-- Position-command handler continuation: see `handlePosition`. -/
def handlePosition (st : UciEngine) (fen : String) (moves : List Move) :
    Option UciEngine :=
  let posOpt : Option Position ⊕ Position :=
    if fen = "startpos" then Sum.inr Position.startpos
    else
      match setFen fen with
      | none => Sum.inl (some Position.startpos)
      | some p => Sum.inr p
  match posOpt with
  | Sum.inl (some p) => some { st with position := p }
  | Sum.inl none => none
  | Sum.inr p0 =>
    match applyMoves moves p0 with
    | none => none
    | some q => some { st with position := q }

/-- Search start (`start_search`): clear the stop flag, clone the position,
build a fresh evaluator and transposition table, and run the worker; the
worker computes `iterative_deepening` and posts one result on completion. -/
def startSearch (cfg : EngineCfg) (st : UciEngine) (timeUp : Bool) : UciEngine :=
  let st := { st with stopFlag := false }
  let r := iterativeDeepening cfg.keys cfg.evalFn cfg.qfuel st.timeControl
    st.position.sideToMove (TranspositionTable.mkEmpty cfg.ttSize) st.position false timeUp
  { st with searchInFlight := true, inFlight := some r }

/-- Command handler (`handle_command`): returns the new state and the lines
it prints; `none` models a panic (the unguarded `make_move` of
`handle_position`). The `workerDone` flag of the schedule says whether the
worker result had been posted when the polls of this command run. -/
def handleCommand (cfg : EngineCfg) (st : UciEngine) (cmd : String)
    (workerDone timeUp : Bool) : Option (UciEngine × List String) :=
  match parseCommand cmd with
  | some UciCommand.Uci => some (st, ["uciok"])
  | some UciCommand.IsReady => some (st, ["readyok"])
  | some UciCommand.NewGame => some ({ st with position := Position.startpos }, ["readyok"])
  | some (UciCommand.Position fen moves) =>
    (handlePosition st fen moves).map (fun st2 => (st2, []))
  | some (UciCommand.Go tc) =>
    some (startSearch cfg { st with timeControl := tc } timeUp, [])
  | some UciCommand.Stop =>
    let st := { st with stopFlag := true }
    let st := if workerDone then deliverResult st else st
    let (r, st2) := tryRecv st
    match r with
    | some result =>
      match result.bestMove with
      | some mv => some (st2, ["bestmove " ++ fmtMove mv])
      | none =>
        match emergencyMove st2 with
        | none => none
        | some (some mv) => some (st2, ["bestmove " ++ fmtMove mv])
        | some none => some (st2, [])
    | none => some (st2, [])
  | some UciCommand.Quit =>
    -- the join of the worker handle forces completion before the poll
    let st := if st.searchInFlight then deliverResult { st with searchInFlight := false } else st
    let (r, st2) := tryRecv st
    match r with
    | some result =>
      match result.bestMove with
      | some mv => some (st2, ["bestmove " ++ fmtMove mv])
      | none =>
        match emergencyMove st2 with
        | none => none
        | some (some mv) => some (st2, ["bestmove " ++ fmtMove mv])
        | some none => some (st2, [])
    | none => some (st2, [])
  | none =>
    some (st, ["info string Unknown command: " ++ (splitWsStr cmd).headD ""])

/-- One iteration of the protocol loop (`UciEngine::run`): handle the
command, print its response, then poll the channel once and print the best
move (with the emergency and `0000` fallbacks) when a result is pending. -/
def runStep (cfg : EngineCfg) (st : UciEngine) (cmd : String)
    (workerDone timeUp : Bool) : Option (UciEngine × List String) :=
  let st := if workerDone then deliverResult st else st
  match handleCommand cfg st cmd workerDone timeUp with
  | none => none
  | some (st2, out1) =>
    let (r, st3) := tryRecv st2
    match r with
    | some result =>
      match result.bestMove with
      | some mv => some (st3, out1 ++ ["bestmove " ++ fmtMove mv])
      | none =>
        match emergencyMove st3 with
        | none => none
        | some (some mv) => some (st3, out1 ++ ["bestmove " ++ fmtMove mv])
        | some none => some (st3, out1 ++ ["bestmove 0000"])
    | none => some (st3, out1)

/-- Full protocol session (`UciEngine::run`): process the trimmed nonempty
lines in order, stopping after `quit`; each line carries the schedule flag of
the worker. The output is the full list of printed lines; `none` marks a
process abort (panic). -/
def runUci (cfg : EngineCfg) (st : UciEngine) :
    List (String × Bool) → Option (List String)
  | [] => some []
  | (line, workerDone) :: rest =>
    let cmd := trimStr line
    if cmd = "" then runUci cfg st rest
    else
      match runStep cfg st cmd workerDone false with
      | none => none
      | some (st2, outs) =>
        if cmd = "quit" then some outs
        else
          match runUci cfg st2 rest with
          | none => none
          | some outs2 => some (outs ++ outs2)

/-! ### Concrete inputs used by the analysis -/

/-- Zero Zobrist keys: one admissible draw of the random key tables. -/
def keys0 : ZKeys := ⟨fun _ _ _ => 0, 0, fun _ => 0, fun _ => 0⟩

/-- Keys that isolate the black-pawn layer at square f6, to discriminate
fingerprints that differ there. -/
def keysF6 : ZKeys :=
  ⟨fun p c sq => if p = Piece.Pawn ∧ c = Color.Black ∧ sq = 45 then 1 else 0,
   0, fun _ => 0, fun _ => 0⟩

/-- A zero evaluator: one admissible static evaluator (the searched claims
are independent of the evaluation values). -/
def evalZero : Position → Int := fun _ => 0

/-- Driver configuration with the zero keys and evaluator. -/
def cfg0 : EngineCfg := ⟨keys0, evalZero, 64, 1048576⟩

/-- The position of FEN `rnbqkbnr/ppp1p1pp/8/3pPp2/8/8/PPPP1PPP/RNBQKBNR w
KQkq f6 0 3`: white to move with the en-passant capture e5xf6 available. -/
def epPos : Position :=
  { pieces := fun p c =>
      match p, c with
      | .Pawn, .White => 0x100000EF00
      | .Pawn, .Black => 0x00D7002800000000
      | .Knight, .White => 0x42
      | .Knight, .Black => 0x4200000000000000
      | .Bishop, .White => 0x24
      | .Bishop, .Black => 0x2400000000000000
      | .Rook, .White => 0x81
      | .Rook, .Black => 0x8100000000000000
      | .Queen, .White => 0x8
      | .Queen, .Black => 0x0800000000000000
      | .King, .White => 0x10
      | .King, .Black => 0x1000000000000000,
    sideToMove := .White, castlingRights := 15, enPassant := some 45,
    halfmoveClock := 0, fullmoveNumber := 3 }

/-- The en-passant capture e5xf6 in that position. -/
def epMove : Move := Move.enPassantMove 36 45

/-- The stalemate position of FEN `7k/5Q2/6K1/8/8/8/8/8 b - - 0 1`: black to
move with no legal moves and the black king not in check. -/
def stalematePos : Position :=
  { pieces := fun p c =>
      match p, c with
      | .Queen, .White => 1 <<< 53
      | .King, .White => 1 <<< 46
      | .King, .Black => 1 <<< 63
      | _, _ => 0,
    sideToMove := .Black, castlingRights := 0, enPassant := none,
    halfmoveClock := 0, fullmoveNumber := 1 }

/-- The FEN line of the stalemate position. -/
def stalemateFen : String := "7k/5Q2/6K1/8/8/8/8/8 b - - 0 1"

/-- The position of FEN `r3k2r/8/8/8/8/8/8/R3K2R w KQkq - 0 1`: both sides
hold both castle rights with empty king paths. -/
def castlePos : Position :=
  { pieces := fun p c =>
      match p, c with
      | .Rook, .White => 0x81
      | .King, .White => 0x10
      | .Rook, .Black => 0x8100000000000000
      | .King, .Black => 0x1000000000000000
      | _, _ => 0,
    sideToMove := .White, castlingRights := 15, enPassant := none,
    halfmoveClock := 0, fullmoveNumber := 1 }

/-- A transposition-table entry used to exhibit index aliasing. -/
def aliasEntry : TTEntry :=
  { score := 777, bestMove := Move.newMove 12 28, depth := 9, nodeType := .Exact }

/-- The empty board with black to move: its fingerprint under `aliasKeys` is
4, aliasing slot 0 of a table of capacity 4 with fingerprint 0. -/
def emptyBlackPos : Position := { Position.empty with sideToMove := Color.Black }

/-- Keys making the fingerprint of `emptyBlackPos` equal to 4. -/
def aliasKeys : ZKeys := ⟨fun _ _ _ => 0, 4, fun _ => 0, fun _ => 0⟩

/-! ### Analysis helpers (not part of the embedding) -/

/-- Layers of a position occupying a square, in the scan order of the
sources (piece-major, then color). -/
def occupiersAt (pos : Position) (sq : Nat) : List (Piece × Color) :=
  pieceList.flatMap fun p =>
    colorList.filterMap fun c =>
      if (pos.pieces p c).isOccupied sq then some (p, c) else none

/-- Well-formedness of a position as the data model states it: every layer is
a u64 word, no square lies in two layers, the en-passant square (when set) is
on the board, the castle rights are a 4-bit set, and the counters are u32
values. -/
def WellFormed (pos : Position) : Prop :=
  (∀ p c, pos.pieces p c < 2 ^ 64) ∧
  (∀ sq < 64, (occupiersAt pos sq).length ≤ 1) ∧
  (pos.enPassant.all (fun e => e < 64) = true) ∧
  pos.castlingRights < 16 ∧
  pos.halfmoveClock < 2 ^ 32 ∧
  pos.fullmoveNumber < 2 ^ 32

instance (pos : Position) : Decidable (WellFormed pos) := by
  unfold WellFormed; infer_instance

/-- Descending rank list `[r, r-1, ..., 0]` of the placement emission. -/
def ranksList (r : Nat) : List Nat := (List.range (r + 1)).reverse

/-- The square reached from `s` after `m + 1` unit steps in direction `d`,
`none` when it leaves the board: the squares a slider ray visits. -/
def raySq (s : Nat) (d : Int × Int) (m : Nat) : Option Nat :=
  let r : Int := (s / 8 : Nat) + ((m : Int) + 1) * d.1
  let f : Int := (s % 8 : Nat) + ((m : Int) + 1) * d.2
  if 0 ≤ r ∧ r < 8 ∧ 0 ≤ f ∧ f < 8 then some ((r * 8 + f).toNat) else none

/-- All eight slider directions (the bishop and rook deltas together). -/
def allDirs : List (Int × Int) :=
  [((-1 : Int), (-1 : Int)), (-1, 1), (1, -1), (1, 1), (-1, 0), (1, 0), (0, -1), (0, 1)]

/-! ## Theorems for the claims -/

/-! ### Bit-level lemmas -/

theorem isOccupied_eq_testBit (b sq : Nat) : Bitboard.isOccupied b sq = b.testBit sq := by
  have h : b &&& (1 <<< sq) = (b.testBit sq).toNat * 2 ^ sq := by
    rw [Nat.one_shiftLeft, Nat.and_two_pow]
  rw [Bitboard.isOccupied, h]
  cases hb : b.testBit sq <;> simp [(Nat.pos_pow_of_pos sq (by norm_num) : 0 < 2 ^ sq).ne']

theorem testBit_setBit (b s i : Nat) :
    (Bitboard.setBit b s).testBit i = (b.testBit i || decide (s = i)) := by
  rw [Bitboard.setBit, Nat.testBit_or, Nat.one_shiftLeft, Nat.testBit_two_pow]

theorem testBit_clearBit (b s i : Nat) (hb : b < 2 ^ 64) :
    (Bitboard.clearBit b s).testBit i = (b.testBit i && !decide (s = i)) := by
  rw [Bitboard.clearBit, Nat.testBit_and, Nat.testBit_xor, Nat.one_shiftLeft,
    Nat.testBit_two_pow, mask64, Nat.testBit_two_pow_sub_one]
  by_cases hi : i < 64
  · simp [hi]
  · have hbi : b.testBit i = false :=
      Nat.testBit_lt_two_pow (lt_of_lt_of_le hb (Nat.pow_le_pow_right (by norm_num) (le_of_not_lt hi)))
    simp [hbi]

theorem mem_squares {b i : Nat} : i ∈ Bitboard.squares b ↔ i < 64 ∧ b.testBit i := by
  simp [Bitboard.squares, List.mem_filter, List.mem_range]

theorem squares_two_pow : ∀ k, k < 64 → Bitboard.squares (1 <<< k) = [k] := by decide

theorem lsb_two_pow : ∀ k, k < 64 → Bitboard.lsb (1 <<< k) = some k := by decide

theorem testBit_foldl_or {α : Type} (l : List α) (f : α → Nat) (init : Nat) (i : Nat) :
    (l.foldl (fun acc x => acc ||| f x) init).testBit i =
      (init.testBit i || l.any (fun x => (f x).testBit i)) := by
  induction l generalizing init with
  | nil => simp
  | cons x xs ih => simp [ih, Nat.testBit_or, Bool.or_assoc]

/-! ### Tokenizer lemmas -/

theorem splitWsGo_append_noWs (cs : List Char) (h : ∀ c ∈ cs, isWs c = false)
    (acc rest : List Char) :
    splitWsGo acc (cs ++ rest) = splitWsGo (cs.reverse ++ acc) rest := by
  induction cs generalizing acc with
  | nil => simp
  | cons c cs ih =>
    have hc : isWs c = false := h c (List.mem_cons_self c cs)
    have hcs : ∀ x ∈ cs, isWs x = false := fun x hx => h x (List.mem_cons_of_mem c hx)
    simp only [List.cons_append, splitWsGo, hc, Bool.false_eq_true, if_false, List.append_eq]
    rw [ih hcs (c :: acc)]
    simp

theorem splitWsGo_space (acc : List Char) (hacc : acc ≠ []) (rest : List Char) :
    splitWsGo acc (' ' :: rest) = acc.reverse :: splitWsGo [] rest := by
  have : isWs ' ' = true := by decide
  simp [splitWsGo, this, hacc, List.isEmpty_iff]

theorem splitWsGo_block_sep (b : List Char) (hb : b ≠ []) (h : ∀ c ∈ b, isWs c = false)
    (rest : List Char) :
    splitWsGo [] (b ++ ' ' :: rest) = b :: splitWsGo [] rest := by
  rw [splitWsGo_append_noWs b h [] (' ' :: rest), List.append_nil,
    splitWsGo_space _ (by simpa using hb), List.reverse_reverse]

theorem splitWsGo_block_last (b : List Char) (hb : b ≠ []) (h : ∀ c ∈ b, isWs c = false) :
    splitWsGo [] b = [b] := by
  have := splitWsGo_append_noWs b h [] []
  rw [List.append_nil] at this
  rw [this, List.append_nil, splitWsGo]
  simp [List.isEmpty_iff, hb]

/-! ### Field round-trip lemmas for the FEN claim -/

theorem rights_roundtrip :
    ∀ r, r < 16 →
      (if rightsChars r = ['-'] then some 0 else parseCastleChars (rightsChars r) 0) = some r := by
  decide

theorem ep_roundtrip : ∀ e, e < 64 → parseEpField (epChars (some e)) = some (some e) := by decide

theorem digitCharOf_facts :
    ∀ d, d < 10 →
      (('0' ≤ digitCharOf d ∧ digitCharOf d ≤ '9') ∧ (digitCharOf d).toNat - 48 = d ∧
        digitCharOf d ≠ '+' ∧ isWs (digitCharOf d) = false) := by
  decide

theorem foldl_dec_shift (l : List Nat) : ∀ (a b : Nat),
    l.foldl (fun a d => a * 10 + d) (a + b) =
      l.foldl (fun a d => a * 10 + d) a + b * 10 ^ l.length := by
  induction l with
  | nil => simp
  | cons e l ihl =>
    intro a b
    simp only [List.foldl_cons]
    have h1 : (a + b) * 10 + e = (a * 10 + e) + b * 10 := by ring
    rw [h1, ihl]
    simp [pow_succ]
    ring

theorem parseDec_fold (l : List Nat) (hl : ∀ d ∈ l, d < 10) (v : Nat) :
    (l.map digitCharOf).foldl
      (fun acc c =>
        match acc with
        | none => none
        | some w => if '0' ≤ c ∧ c ≤ '9' then some (w * 10 + (c.toNat - 48)) else none)
      (some v) = some (l.foldl (fun a d => a * 10 + d) 0 + v * 10 ^ l.length) := by
  induction l generalizing v with
  | nil => simp
  | cons d l ih =>
    have hd := digitCharOf_facts d (hl d (List.mem_cons_self d l))
    have hl2 : ∀ x ∈ l, x < 10 := fun x hx => hl x (List.mem_cons_of_mem d hx)
    simp only [List.map_cons, List.foldl_cons]
    rw [if_pos hd.1, hd.2.1, ih hl2 (v * 10 + d)]
    congr 1
    have h0 : (0 * 10 + d : Nat) = 0 + d := by ring
    rw [h0, foldl_dec_shift l 0 d]
    simp [List.length_cons, pow_succ]
    ring

theorem foldl_digits_reverse (n : Nat) :
    (Nat.digits 10 n).reverse.foldl (fun a d => a * 10 + d) 0 = n := by
  rw [List.foldl_reverse]
  have : ∀ l : List Nat, l.foldr (fun d a => a * 10 + d) 0 = Nat.ofDigits 10 l := by
    intro l
    induction l with
    | nil => simp [Nat.ofDigits]
    | cons d l ih =>
      rw [List.foldr_cons, ih, Nat.ofDigits_cons]
      ring
  have h2 := this (Nat.digits 10 n)
  have h3 := Nat.ofDigits_digits 10 n
  simp only [Nat.cast_id] at h3
  calc (Nat.digits 10 n).foldr (fun x y => (fun a d => a * 10 + d) y x) 0
      = (Nat.digits 10 n).foldr (fun d a => a * 10 + d) 0 := rfl
    _ = n := by rw [h2, h3]

theorem natToChars_not_ws : ∀ n, ∀ c ∈ natToChars n, isWs c = false := by
  intro n c hc
  rw [natToChars] at hc
  split at hc
  · rw [List.mem_singleton] at hc
    subst hc; decide
  · rcases List.mem_map.mp hc with ⟨d, hd, rfl⟩
    have : d < 10 :=
      Nat.digits_lt_base (by norm_num) (List.mem_reverse.mp hd)
    exact (digitCharOf_facts d this).2.2.2

theorem natToChars_ne_nil (n : Nat) : natToChars n ≠ [] := by
  rw [natToChars]
  split
  · simp
  · simp [Nat.digits_ne_nil_iff_ne_zero, *]

theorem natToChars_no_plus (n : Nat) : ∀ rest, natToChars n ≠ '+' :: rest := by
  intro rest hcon
  have hmem : '+' ∈ natToChars n := by rw [hcon]; exact List.mem_cons_self _ _
  rw [natToChars] at hmem
  split at hmem
  · revert hmem; decide
  · rcases List.mem_map.mp hmem with ⟨d, hd, hdc⟩
    have hd10 : d < 10 := Nat.digits_lt_base (by norm_num) (List.mem_reverse.mp hd)
    exact (digitCharOf_facts d hd10).2.2.1 hdc

theorem parseDecDigits_ne_nil (cs : List Char) (h : cs ≠ []) :
    parseDecDigits cs = cs.foldl
      (fun acc c =>
        match acc with
        | none => none
        | some v => if '0' ≤ c ∧ c ≤ '9' then some (v * 10 + (c.toNat - 48)) else none)
      (some 0) := by
  cases cs with
  | nil => exact absurd rfl h
  | cons c t => rfl

theorem parseUnsigned_no_plus (bound : Nat) (cs : List Char) (h : ∀ rest, cs ≠ '+' :: rest) :
    parseUnsigned bound cs =
      (match parseDecDigits cs with
        | some v => if v < bound then some v else none
        | none => none) := by
  unfold parseUnsigned
  congr 1
  rcases cs with _ | ⟨c, t⟩
  · rfl
  · split
    · rename_i rest heq
      exact absurd heq (h rest)
    · rfl

theorem filterMap_map_option {α β γ : Type} (l : List α) (sel : α → Option β) (h : β → γ) :
    l.filterMap (fun a => (sel a).map h) = (l.filterMap sel).map h := by
  induction l with
  | nil => rfl
  | cons x xs ih =>
    cases hx : sel x <;> simp [List.filterMap_cons, hx, ih]

theorem symbolsAt_eq (P : Position) (sq : Nat) :
    symbolsAt P sq = (occupiersAt P sq).map (fun x => symCharOf x.1 x.2) := by
  rw [symbolsAt, occupiersAt]
  have hcol : ∀ p : Piece,
      (colorList.filterMap fun c =>
        if (P.pieces p c).isOccupied sq then some (symCharOf p c) else none) =
      ((colorList.filterMap fun c =>
        if (P.pieces p c).isOccupied sq then some (p, c) else none)).map
          (fun x => symCharOf x.1 x.2) := by
    intro p
    rw [← filterMap_map_option]
    congr 1
    funext c
    split <;> rfl
  calc pieceList.flatMap (fun p => colorList.filterMap fun c =>
        if (P.pieces p c).isOccupied sq then some (symCharOf p c) else none)
      = pieceList.flatMap (fun p => ((colorList.filterMap fun c =>
          if (P.pieces p c).isOccupied sq then some (p, c) else none)).map
            (fun x => symCharOf x.1 x.2)) := by
        congr 1; funext p; exact hcol p
    _ = _ := by rw [List.map_flatMap]

theorem mem_occupiersAt {P : Position} {sq : Nat} {p : Piece} {c : Color} :
    (p, c) ∈ occupiersAt P sq ↔ (P.pieces p c).isOccupied sq = true := by
  rw [occupiersAt]
  simp only [List.mem_flatMap, List.mem_filterMap]
  constructor
  · rintro ⟨p2, _, c2, _, hif⟩
    split at hif
    · rcases Option.some.inj hif with h2
      cases h2
      assumption
    · exact Option.noConfusion hif
  · intro hocc
    refine ⟨p, ?_, c, ?_, ?_⟩
    · cases p <;> decide
    · cases c <;> decide
    · rw [if_pos hocc]

theorem occupiersAt_nil {P : Position} {sq : Nat} (h : occupiersAt P sq = []) :
    ∀ p c, (P.pieces p c).isOccupied sq = false := by
  intro p c
  by_contra hb
  have : (p, c) ∈ occupiersAt P sq := mem_occupiersAt.mpr (by revert hb; cases ((P.pieces p c).isOccupied sq) <;> simp)
  rw [h] at this
  cases this

theorem occupiersAt_singleton {P : Position} {sq : Nat} {x : Piece × Color}
    (h : occupiersAt P sq = [x]) :
    ∀ p c, (P.pieces p c).isOccupied sq = true ↔ (p, c) = x := by
  intro p c
  rw [← mem_occupiersAt, h, List.mem_singleton]

/-- Character facts about the flushed empty-run digits. -/
theorem digit_flush_facts :
    ∀ e, 1 ≤ e → e ≤ 8 →
      (digitCharOf e ≠ '/' ∧ ('1' ≤ digitCharOf e ∧ digitCharOf e ≤ '8') ∧
        (digitCharOf e).toNat - 48 = e ∧ isWs (digitCharOf e) = false) := by
  decide

/-- Character facts about the placement symbols. -/
theorem sym_char_facts :
    ∀ (p : Piece) (c : Color),
      (symCharOf p c ≠ '/' ∧ ¬('1' ≤ symCharOf p c ∧ symCharOf p c ≤ '8') ∧
        pieceOfChar (symCharOf p c) = some (p, c) ∧ isWs (symCharOf p c) = false) := by
  decide

theorem emitRowAux_ne_nil (P : Position) (rank : Nat) :
    ∀ (files : List Nat) (e : Nat), (files ≠ [] ∨ 0 < e) → emitRowAux P rank files e ≠ [] := by
  intro files
  induction files with
  | nil =>
    intro e he
    rcases he with h | h
    · exact absurd rfl h
    · rw [emitRowAux, if_pos h]
      simp
  | cons f fs ih =>
    intro e _
    rw [emitRowAux]
    split
    · exact ih (e + 1) (Or.inr (Nat.succ_pos e))
    · rename_i hsym
      intro hcon
      rcases List.append_eq_nil.mp hcon with ⟨h1, _⟩
      rcases List.append_eq_nil.mp h1 with ⟨_, h3⟩
      exact hsym (by rw [h3]; rfl)

theorem emitRowAux_not_ws (P : Position) (rank : Nat) :
    ∀ (files : List Nat) (e : Nat), e + files.length ≤ 8 →
      ∀ ch ∈ emitRowAux P rank files e, isWs ch = false := by
  intro files
  induction files with
  | nil =>
    intro e he ch hch
    rw [emitRowAux] at hch
    split at hch
    · rw [List.mem_singleton] at hch
      subst hch
      exact (digit_flush_facts e (by omega) (by simpa using he)).2.2.2
    · cases hch
  | cons f fs ih =>
    intro e he ch hch
    rw [emitRowAux] at hch
    split at hch
    · exact ih (e + 1) (by simp at he ⊢; omega) ch hch
    · rcases List.mem_append.mp hch with hch1 | hch2
      · rcases List.mem_append.mp hch1 with hd | hs
        · revert hd
          split
          · intro hd
            rw [List.mem_singleton] at hd
            subst hd
            exact (digit_flush_facts e (by omega) (by simp at he; omega)).2.2.2
          · intro hd; cases hd
        · rw [symbolsAt_eq] at hs
          rcases List.mem_map.mp hs with ⟨x, _, rfl⟩
          exact (sym_char_facts x.1 x.2).2.2.2
      · exact ih 0 (by simp at he ⊢; omega) ch hch2

theorem setPiece_testBit (acc : Position) (p₀ : Piece) (c₀ : Color) (sq₀ : Nat)
    (p : Piece) (c : Color) (i : Nat) :
    ((acc.setPiece p₀ c₀ sq₀).pieces p c).testBit i = true ↔
      ((acc.pieces p c).testBit i = true ∨ ((p, c) = (p₀, c₀) ∧ i = sq₀)) := by
  rw [Position.setPiece]
  show ((updateBB acc.pieces p₀ c₀ ((acc.pieces p₀ c₀).setBit sq₀)) p c).testBit i = true ↔ _
  rw [updateBB]
  by_cases hpc : p = p₀ ∧ c = c₀
  · rw [if_pos hpc, testBit_setBit]
    rcases hpc with ⟨rfl, rfl⟩
    simp [Prod.ext_iff]
    constructor
    · rintro (h | h)
      · exact Or.inl h
      · exact Or.inr h.symm
    · rintro (h | h)
      · exact Or.inl h
      · exact Or.inr h.symm
  · rw [if_neg hpc]
    simp [Prod.ext_iff]
    intro h1 h2
    exact absurd ⟨h1, h2⟩ hpc

theorem placeChars_row (P : Position)
    (hdisj : ∀ sq < 64, (occupiersAt P sq).length ≤ 1) (rank : Nat) (hr : rank ≤ 7) :
    ∀ (n f e : Nat), f + n = 8 → e ≤ f →
      (∀ p c j, f - e ≤ j → j < f → (P.pieces p c).isOccupied (rank * 8 + j) = false) →
      ∀ (rest : List Char) (acc : Position),
      ∃ acc2 : Position,
        placeChars (emitRowAux P rank (List.range' f n) e ++ rest) (rank : Int) (f - e) acc
          = placeChars rest (rank : Int) 8 acc2 ∧
        (∀ p c i, (acc2.pieces p c).testBit i = true ↔
          ((acc.pieces p c).testBit i = true ∨
            (f - e ≤ i % 8 ∧ i / 8 = rank ∧ (P.pieces p c).testBit i = true))) ∧
        acc2.sideToMove = acc.sideToMove ∧ acc2.castlingRights = acc.castlingRights ∧
        acc2.enPassant = acc.enPassant ∧ acc2.halfmoveClock = acc.halfmoveClock ∧
        acc2.fullmoveNumber = acc.fullmoveNumber := by
  intro n
  induction n with
  | zero =>
    intro f e hfn he hempt rest acc
    have hf : f = 8 := by omega
    subst hf
    refine ⟨acc, ?_, ?_, rfl, rfl, rfl, rfl, rfl⟩
    · show placeChars (emitRowAux P rank [] e ++ rest) (rank : Int) (8 - e) acc = _
      rw [emitRowAux]
      by_cases he0 : 0 < e
      · have hd := digit_flush_facts e (by omega) (by omega)
        rw [if_pos he0, List.singleton_append]
        simp only [placeChars]
        rw [if_neg (by exact fun hcon => hd.1 hcon), if_pos hd.2.1]
        have harith : 8 - e + ((digitCharOf e).toNat - 48) = 8 := by
          rw [hd.2.2.1]; omega
        rw [harith]
      · have he0' : e = 0 := by omega
        subst he0'
        rw [if_neg (by omega)]
        simp
    · intro p c i
      constructor
      · exact fun h => Or.inl h
      · rintro (h | ⟨h1, h2, h3⟩)
        · exact h
        · have hj : i = rank * 8 + i % 8 := by omega
          have hP := hempt p c (i % 8) h1 (by omega)
          rw [isOccupied_eq_testBit] at hP
          rw [hj] at h3
          rw [hP] at h3
          cases h3
  | succ n ih =>
    intro f e hfn he hempt rest acc
    have hf7 : f ≤ 7 := by omega
    have hsq64 : rank * 8 + f < 64 := by omega
    have hrange : List.range' f (n + 1) = f :: List.range' (f + 1) n := rfl
    rw [hrange]
    cases hOcc : occupiersAt P (rank * 8 + f) with
    | nil =>
      have hsym : symbolsAt P (rank * 8 + f) = [] := by rw [symbolsAt_eq, hOcc]; rfl
      have hstep : emitRowAux P rank (f :: List.range' (f + 1) n) e
          = emitRowAux P rank (List.range' (f + 1) n) (e + 1) := by
        rw [emitRowAux, hsym]
        rfl
      rw [hstep]
      have hempt2 : ∀ p c j, f + 1 - (e + 1) ≤ j → j < f + 1 →
          (P.pieces p c).isOccupied (rank * 8 + j) = false := by
        intro p c j h1 h2
        rcases Nat.lt_or_ge j f with hj | hj
        · exact hempt p c j (by omega) hj
        · have hjf : j = f := by omega
          subst hjf
          exact occupiersAt_nil hOcc p c
      obtain ⟨acc2, hpc, hbits, hfields⟩ := ih (f + 1) (e + 1) (by omega) (by omega) hempt2 rest acc
      have hcur : f + 1 - (e + 1) = f - e := by omega
      rw [hcur] at hpc hbits
      exact ⟨acc2, hpc, hbits, hfields⟩
    | cons x xs =>
      cases xs with
      | cons y ys =>
        have hlen := hdisj (rank * 8 + f) hsq64
        rw [hOcc] at hlen
        simp at hlen
      | nil =>
        obtain ⟨p₀, c₀⟩ := x
        have hsym : symbolsAt P (rank * 8 + f) = [symCharOf p₀ c₀] := by
          rw [symbolsAt_eq, hOcc]; rfl
        have hsing := occupiersAt_singleton hOcc
        have hstep : emitRowAux P rank (f :: List.range' (f + 1) n) e
            = (if e > 0 then [digitCharOf e] else []) ++ [symCharOf p₀ c₀] ++
              emitRowAux P rank (List.range' (f + 1) n) 0 := by
          rw [emitRowAux, hsym]
          rfl
        rw [hstep]
        have hflush : ∀ (rest2 : List Char) (acc3 : Position),
            placeChars ((if e > 0 then [digitCharOf e] else []) ++ rest2) (rank : Int)
              (f - e) acc3 = placeChars rest2 (rank : Int) f acc3 := by
          intro rest2 acc3
          by_cases he0 : 0 < e
          · have hd := digit_flush_facts e (by omega) (by omega)
            rw [if_pos he0, List.singleton_append]
            simp only [placeChars]
            rw [if_neg (by exact fun hcon => hd.1 hcon), if_pos hd.2.1]
            have harith : f - e + ((digitCharOf e).toNat - 48) = f := by
              rw [hd.2.2.1]; omega
            rw [harith]
          · have he0' : e = 0 := by omega
            subst he0'
            rw [if_neg (by omega), List.nil_append, Nat.sub_zero]
        have hsymstep : ∀ (rest2 : List Char) (acc3 : Position),
            placeChars (symCharOf p₀ c₀ :: rest2) (rank : Int) f acc3
              = placeChars rest2 (rank : Int) (f + 1) (acc3.setPiece p₀ c₀ (rank * 8 + f)) := by
          intro rest2 acc3
          have hs := sym_char_facts p₀ c₀
          simp only [placeChars]
          rw [if_neg (by exact fun hcon => hs.1 hcon), if_neg hs.2.1]
          rw [hs.2.2.1]
          show (if f > 7 ∨ (rank : Int) > 7 then (none : Option (Int × Nat × Position))
              else placeChars rest2 (rank : Int) (f + 1)
                (acc3.setPiece p₀ c₀ ((u8cast (rank : Int) * 8 + f) % 256)))
            = placeChars rest2 (rank : Int) (f + 1) (acc3.setPiece p₀ c₀ (rank * 8 + f))
          rw [if_neg (by
            push_neg
            constructor
            · omega
            · exact_mod_cast Nat.le_of_lt_succ (by omega : rank < 8))]
          have hsq : (u8cast (rank : Int) * 8 + f) % 256 = rank * 8 + f := by
            have : u8cast (rank : Int) = rank := by
              rw [u8cast]
              omega
            rw [this]
            omega
          rw [hsq]
        simp only [List.append_assoc]
        rw [hflush, List.singleton_append, hsymstep]
        obtain ⟨acc2, hpc, hbits, hfields⟩ :=
          ih (f + 1) 0 (by omega) (by omega)
            (by intro p c j h1 h2; omega) rest (acc.setPiece p₀ c₀ (rank * 8 + f))
        refine ⟨acc2, hpc, ?_, ?_⟩
        · intro p c i
          rw [hbits p c i, setPiece_testBit]
          constructor
          · rintro ((h | ⟨hpc2, hi⟩) | ⟨h1, h2, h3⟩)
            · exact Or.inl h
            · subst hi
              refine Or.inr ⟨by omega, by omega, ?_⟩
              rw [← isOccupied_eq_testBit]
              exact (hsing p c).mpr hpc2
            · exact Or.inr ⟨by omega, h2, h3⟩
          · rintro (h | ⟨h1, h2, h3⟩)
            · exact Or.inl (Or.inl h)
            · rcases Nat.lt_or_ge (i % 8) f with hif | hif
              · have hP := hempt p c (i % 8) h1 hif
                rw [isOccupied_eq_testBit] at hP
                have hj : i = rank * 8 + i % 8 := by omega
                rw [hj, hP] at h3
                cases h3
              · rcases Nat.eq_or_lt_of_le hif with hif2 | hif2
                · have hj : i = rank * 8 + f := by omega
                  refine Or.inl (Or.inr ⟨?_, hj⟩)
                  apply (hsing p c).mp
                  rw [isOccupied_eq_testBit, ← hj]
                  exact h3
                · exact Or.inr ⟨by omega, h2, h3⟩
        · have hfields2 : (acc.setPiece p₀ c₀ (rank * 8 + f)).sideToMove = acc.sideToMove ∧
              (acc.setPiece p₀ c₀ (rank * 8 + f)).castlingRights = acc.castlingRights ∧
              (acc.setPiece p₀ c₀ (rank * 8 + f)).enPassant = acc.enPassant ∧
              (acc.setPiece p₀ c₀ (rank * 8 + f)).halfmoveClock = acc.halfmoveClock ∧
              (acc.setPiece p₀ c₀ (rank * 8 + f)).fullmoveNumber = acc.fullmoveNumber :=
            ⟨rfl, rfl, rfl, rfl, rfl⟩
          exact ⟨hfields.1.trans hfields2.1,
            hfields.2.1.trans hfields2.2.1,
            hfields.2.2.1.trans hfields2.2.2.1,
            hfields.2.2.2.1.trans hfields2.2.2.2.1,
            hfields.2.2.2.2.trans hfields2.2.2.2.2⟩

theorem num_roundtrip (n : Nat) (h : n < 2 ^ 32) :
    parseUnsigned (2 ^ 32) (natToChars n) = some n := by
  have hbody : parseDecDigits (natToChars n) = some n := by
    rcases Nat.eq_zero_or_pos n with rfl | hn
    · decide
    · have hlt : ∀ d ∈ (Nat.digits 10 n).reverse, d < 10 := fun d hd =>
        Nat.digits_lt_base (by norm_num) (List.mem_reverse.mp hd)
      rw [parseDecDigits_ne_nil _ (natToChars_ne_nil n), natToChars, if_neg hn.ne',
        parseDec_fold (Nat.digits 10 n).reverse hlt 0, foldl_digits_reverse]
      simp
  rw [parseUnsigned_no_plus _ _ (natToChars_no_plus n), hbody]
  simpa using h

theorem rightsChars_facts :
    ∀ r, r < 16 → rightsChars r ≠ [] ∧ ∀ c ∈ rightsChars r, isWs c = false := by
  decide

theorem epChars_some_facts :
    ∀ e, e < 64 → epChars (some e) ≠ [] ∧ ∀ c ∈ epChars (some e), isWs c = false := by
  decide

theorem epChars_facts (ep : Option Nat) (h : ep.all (fun e => e < 64) = true) :
    epChars ep ≠ [] ∧ ∀ c ∈ epChars ep, isWs c = false := by
  cases ep with
  | none => exact ⟨by decide, by decide⟩
  | some e => exact epChars_some_facts e (by simpa using h)

theorem ep_roundtrip_opt (ep : Option Nat) (h : ep.all (fun e => e < 64) = true) :
    parseEpField (epChars ep) = some ep := by
  cases ep with
  | none => decide
  | some e => exact ep_roundtrip e (by simpa using h)

theorem emitRanksGo_not_ws (P : Position) :
    ∀ rs : List Nat, ∀ ch ∈ emitRanksGo P rs, isWs ch = false := by
  intro rs
  induction rs with
  | nil =>
    intro ch hch
    rw [emitRanksGo] at hch
    cases hch
  | cons r rs ih =>
    intro ch hch
    rw [emitRanksGo] at hch
    rcases List.mem_append.mp hch with h1 | h2
    · rcases List.mem_append.mp h1 with h3 | h4
      · exact emitRowAux_not_ws P r (List.range 8) 0 (by simp) ch h3
      · by_cases hr : r > 0
        · rw [if_pos hr, List.mem_singleton] at h4
          subst h4
          decide
        · rw [if_neg hr] at h4
          cases h4
    · exact ih ch h2

theorem emitPlacement_not_ws (P : Position) : ∀ ch ∈ emitPlacement P, isWs ch = false :=
  fun ch hch => emitRanksGo_not_ws P _ ch hch

theorem emitPlacement_ne_nil (P : Position) : emitPlacement P ≠ [] := by
  have h7 : (List.range 8).reverse = 7 :: (List.range 7).reverse := by decide
  rw [emitPlacement, h7, emitRanksGo]
  intro hcon
  rcases List.append_eq_nil.mp hcon with ⟨h1, _⟩
  rcases List.append_eq_nil.mp h1 with ⟨h2, _⟩
  exact emitRowAux_ne_nil P 7 (List.range 8) 0 (Or.inl (by decide)) h2

theorem splitWs_toFenChars (P : Position) (h : WellFormed P) :
    splitWs (toFenChars P) =
      [emitPlacement P,
       [(match P.sideToMove with | Color.White => 'w' | Color.Black => 'b')],
       rightsChars P.castlingRights,
       epChars P.enPassant,
       natToChars P.halfmoveClock,
       natToChars P.fullmoveNumber] := by
  obtain ⟨hbb, hdisj, hepb, hcr, hhm, hfm⟩ := h
  have hside : isWs (match P.sideToMove with | Color.White => 'w' | Color.Black => 'b')
      = false := by
    cases P.sideToMove <;> decide
  obtain ⟨hr1, hr2⟩ := rightsChars_facts P.castlingRights hcr
  obtain ⟨he1, he2⟩ := epChars_facts P.enPassant hepb
  simp only [toFenChars, splitWs, List.append_assoc, List.cons_append, List.nil_append]
  rw [splitWsGo_block_sep (emitPlacement P) (emitPlacement_ne_nil P) (emitPlacement_not_ws P)]
  have e2 := splitWsGo_block_sep
    [(match P.sideToMove with | Color.White => 'w' | Color.Black => 'b')]
    (by simp)
    (by intro c hc; rw [List.mem_singleton] at hc; subst hc; exact hside)
  simp only [List.singleton_append] at e2
  rw [e2]
  rw [splitWsGo_block_sep (rightsChars P.castlingRights) hr1 hr2]
  rw [splitWsGo_block_sep (epChars P.enPassant) he1 he2]
  rw [splitWsGo_block_sep (natToChars P.halfmoveClock) (natToChars_ne_nil P.halfmoveClock)
    (natToChars_not_ws P.halfmoveClock)]
  rw [splitWsGo_block_last (natToChars P.fullmoveNumber) (natToChars_ne_nil P.fullmoveNumber)
    (natToChars_not_ws P.fullmoveNumber)]

theorem Position.mk_eq_update (z P : Position) (hm fm : Nat) (h1 : z.pieces = P.pieces) :
    ({ z with
        sideToMove := P.sideToMove, castlingRights := P.castlingRights,
        enPassant := P.enPassant, halfmoveClock := hm, fullmoveNumber := fm } : Position)
      = { P with
          halfmoveClock := hm, fullmoveNumber := fm } := by
  cases P with
  | mk pp ss cc ee hh ff =>
    show Position.mk z.pieces ss cc ee hm fm = Position.mk pp ss cc ee hm fm
    rw [h1]

theorem placeChars_ranks (P : Position)
    (hdisj : ∀ sq < 64, (occupiersAt P sq).length ≤ 1) :
    ∀ r, r ≤ 7 → ∀ (rest : List Char) (acc : Position),
      ∃ acc2 : Position,
        placeChars (emitRanksGo P (ranksList r) ++ rest) (r : Int) 0 acc
          = placeChars rest (0 : Int) 8 acc2 ∧
        (∀ p c i, (acc2.pieces p c).testBit i = true ↔
          ((acc.pieces p c).testBit i = true ∨
            (i / 8 ≤ r ∧ (P.pieces p c).testBit i = true))) ∧
        acc2.sideToMove = acc.sideToMove ∧ acc2.castlingRights = acc.castlingRights ∧
        acc2.enPassant = acc.enPassant ∧ acc2.halfmoveClock = acc.halfmoveClock ∧
        acc2.fullmoveNumber = acc.fullmoveNumber := by
  intro r
  induction r with
  | zero =>
    intro _ rest acc
    have hrl : ranksList 0 = [0] := by decide
    rw [hrl, emitRanksGo, emitRanksGo, if_neg (by omega)]
    simp only [List.append_nil, List.nil_append]
    obtain ⟨acc2, hpc, hbits, hfields⟩ :=
      placeChars_row P hdisj 0 (by omega) 8 0 0 (by omega) (by omega)
        (by intro p c j h1 h2; omega) rest acc
    simp only [Nat.sub_zero] at hpc hbits
    rw [List.range_eq_range']
    refine ⟨acc2, hpc, ?_, hfields⟩
    intro p c i
    rw [hbits p c i]
    constructor
    · rintro (h | ⟨_, h2, h3⟩)
      · exact Or.inl h
      · exact Or.inr ⟨by omega, h3⟩
    · rintro (h | ⟨h2, h3⟩)
      · exact Or.inl h
      · exact Or.inr ⟨by omega, by omega, h3⟩
  | succ r ih =>
    intro hr7 rest acc
    have hrl : ranksList (r + 1) = (r + 1) :: ranksList r := by
      simp [ranksList, List.range_succ]
    rw [hrl, emitRanksGo, if_pos (by omega)]
    simp only [List.append_assoc, List.singleton_append, List.cons_append, List.nil_append]
    obtain ⟨acc1, hpc1, hbits1, hf1⟩ :=
      placeChars_row P hdisj (r + 1) (by omega) 8 0 0 (by omega) (by omega)
        (by intro p c j h1 h2; omega)
        ('/' :: (emitRanksGo P (ranksList r) ++ rest)) acc
    simp only [Nat.sub_zero] at hpc1 hbits1
    rw [List.range_eq_range', hpc1]
    have hslash :
        placeChars ('/' :: (emitRanksGo P (ranksList r) ++ rest)) ((r + 1 : Nat) : Int) 8 acc1
          = placeChars (emitRanksGo P (ranksList r) ++ rest) (r : Int) 0 acc1 := by
      simp only [placeChars]
      have hcast : ((r + 1 : Nat) : Int) - 1 = (r : Int) := by push_cast; ring
      simp [hcast]
    rw [hslash]
    obtain ⟨acc2, hpc2, hbits2, hf2⟩ := ih (by omega) rest acc1
    refine ⟨acc2, hpc2, ?_, hf2.1.trans hf1.1, (hf2.2.1).trans hf1.2.1,
      (hf2.2.2.1).trans hf1.2.2.1, (hf2.2.2.2.1).trans hf1.2.2.2.1,
      (hf2.2.2.2.2).trans hf1.2.2.2.2⟩
    intro p c i
    rw [hbits2 p c i, hbits1 p c i]
    constructor
    · rintro ((h | ⟨_, h2, h3⟩) | ⟨h4, h5⟩)
      · exact Or.inl h
      · exact Or.inr ⟨by omega, h3⟩
      · exact Or.inr ⟨by omega, h5⟩
    · rintro (h | ⟨h1, h2⟩)
      · exact Or.inl (Or.inl h)
      · rcases Nat.lt_or_ge (i / 8) (r + 1) with hc | hc
        · exact Or.inr ⟨by omega, h2⟩
        · exact Or.inl (Or.inr ⟨by omega, by omega, h2⟩)

/-- C8: FEN round-trip. For every well-formed position `P`, parsing the FEN
emitted for `P` (`set_fen(to_fen(P))`) succeeds and yields `P` exactly; and
parsing the four-field prefix alone (placement, side, castling, en passant)
also succeeds, with the halfmove clock defaulting to 0 and the fullmove
number defaulting to 1. -/
theorem C8_fen_roundtrip (P : Position) (h : WellFormed P) :
    setFen (toFen P) = some P ∧
    setFenChars (emitPlacement P ++
        [' ', (match P.sideToMove with | Color.White => 'w' | Color.Black => 'b')] ++
        [' '] ++ rightsChars P.castlingRights ++ [' '] ++ epChars P.enPassant)
      = some { P with
               halfmoveClock := 0, fullmoveNumber := 1 } := by
  obtain ⟨hbb, hdisj, hepb, hcr, hhm, hfm⟩ := h
  obtain ⟨Q, hQpc, hQbits, hQf⟩ := placeChars_ranks P hdisj 7 (by omega) [] Position.empty
  rw [List.append_nil] at hQpc
  have hQpc2 : placeChars (emitPlacement P) 7 0 Position.empty
      = some ((0 : Int), (8 : Nat), Q) := hQpc
  have hQeq : Q.pieces = P.pieces := by
    funext p c
    apply Nat.eq_of_testBit_eq
    intro i
    have hb := hQbits p c i
    have hemp : (Position.empty.pieces p c).testBit i = false := Nat.zero_testBit i
    cases hPb : (P.pieces p c).testBit i with
    | false =>
      rw [hPb] at hb
      have hn : ¬ (Q.pieces p c).testBit i = true := by
        rw [hb]
        rintro (hc | ⟨_, hc⟩)
        · rw [hemp] at hc; cases hc
        · cases hc
      exact Bool.eq_false_iff.mpr hn
    | true =>
      have hi : i < 64 := by
        by_contra hge
        have hlt : P.pieces p c < 2 ^ i :=
          lt_of_lt_of_le (hbb p c) (Nat.pow_le_pow_right (by norm_num) (by omega))
        rw [Nat.testBit_lt_two_pow hlt] at hPb
        cases hPb
      exact hb.mpr (Or.inr ⟨by omega, hPb⟩)
  have hsplit := splitWs_toFenChars P ⟨hbb, hdisj, hepb, hcr, hhm, hfm⟩
  constructor
  · show setFenChars (toFenChars P) = some P
    cases hsd : P.sideToMove with
    | White =>
      simp only [setFenChars, hsplit, hsd, hQpc2, rights_roundtrip P.castlingRights hcr,
        ep_roundtrip_opt P.enPassant hepb, num_roundtrip P.halfmoveClock hhm,
        num_roundtrip P.fullmoveNumber hfm, List.head?, List.drop, Option.getD]
      rw [← hsd]
      exact congrArg some ((Position.mk_eq_update Q P P.halfmoveClock P.fullmoveNumber
        hQeq).trans (by cases P; rfl))
    | Black =>
      simp only [setFenChars, hsplit, hsd, hQpc2, rights_roundtrip P.castlingRights hcr,
        ep_roundtrip_opt P.enPassant hepb, num_roundtrip P.halfmoveClock hhm,
        num_roundtrip P.fullmoveNumber hfm, List.head?, List.drop, Option.getD]
      rw [← hsd]
      exact congrArg some ((Position.mk_eq_update Q P P.halfmoveClock P.fullmoveNumber
        hQeq).trans (by cases P; rfl))
  · have hsplit4 : splitWs (emitPlacement P ++
        [' ', (match P.sideToMove with | Color.White => 'w' | Color.Black => 'b')] ++
        [' '] ++ rightsChars P.castlingRights ++ [' '] ++ epChars P.enPassant)
        = [emitPlacement P,
           [(match P.sideToMove with | Color.White => 'w' | Color.Black => 'b')],
           rightsChars P.castlingRights,
           epChars P.enPassant] := by
      have hside : isWs (match P.sideToMove with | Color.White => 'w' | Color.Black => 'b')
          = false := by
        cases P.sideToMove <;> decide
      obtain ⟨hr1, hr2⟩ := rightsChars_facts P.castlingRights hcr
      obtain ⟨he1, he2⟩ := epChars_facts P.enPassant hepb
      simp only [splitWs, List.append_assoc, List.cons_append, List.nil_append]
      rw [splitWsGo_block_sep (emitPlacement P) (emitPlacement_ne_nil P)
        (emitPlacement_not_ws P)]
      have e2 := splitWsGo_block_sep
        [(match P.sideToMove with | Color.White => 'w' | Color.Black => 'b')]
        (by simp)
        (by intro c hc; rw [List.mem_singleton] at hc; subst hc; exact hside)
      simp only [List.singleton_append] at e2
      rw [e2]
      rw [splitWsGo_block_sep (rightsChars P.castlingRights) hr1 hr2]
      rw [splitWsGo_block_last (epChars P.enPassant) he1 he2]
    cases hsd : P.sideToMove with
    | White =>
      simp only [hsd] at hsplit4
      simp only [setFenChars, hsplit4, hsd, hQpc2, rights_roundtrip P.castlingRights hcr,
        ep_roundtrip_opt P.enPassant hepb, List.head?, List.drop, Option.getD]
      rw [← hsd]
      exact congrArg some (Position.mk_eq_update Q P 0 1 hQeq)
    | Black =>
      simp only [hsd] at hsplit4
      simp only [setFenChars, hsplit4, hsd, hQpc2, rights_roundtrip P.castlingRights hcr,
        ep_roundtrip_opt P.enPassant hepb, List.head?, List.drop, Option.getD]
      rw [← hsd]
      exact congrArg some (Position.mk_eq_update Q P 0 1 hQeq)

/-- C8 witness: the round trip and the four-field defaults at the standard
starting position. -/
theorem C8_fen_roundtrip_witness :
    WellFormed Position.startpos ∧ setFen (toFen Position.startpos) = some Position.startpos :=
  ⟨by decide, (C8_fen_roundtrip Position.startpos (by decide)).1⟩

/-! ### Ray and attack-set lemmas for the legality claim -/

theorem cast_succ_shift (x d : Int) (j : Nat) :
    x + d + (j : Int) * d = x + ((j + 1 : Nat) : Int) * d := by
  push_cast
  ring

theorem rayWalk_testBit_iff (occ : Nat) (dr df : Int) :
    ∀ (fuel : Nat) (r f : Int) (t : Nat),
      (rayWalk occ dr df fuel r f).testBit t = true ↔
      ∃ k, k < fuel ∧
        (∀ j : Nat, j ≤ k →
          0 ≤ r + (j : Int) * dr ∧ r + (j : Int) * dr < 8 ∧
          0 ≤ f + (j : Int) * df ∧ f + (j : Int) * df < 8) ∧
        ((r + (k : Int) * dr) * 8 + (f + (k : Int) * df)).toNat = t ∧
        (∀ j : Nat, j < k →
          Bitboard.isOccupied occ (((r + (j : Int) * dr) * 8 + (f + (j : Int) * df)).toNat)
            = false) := by
  intro fuel
  induction fuel with
  | zero =>
    intro r f t
    rw [rayWalk]
    simp
  | succ fuel ih =>
    intro r f t
    by_cases hin : 0 ≤ r ∧ r < 8 ∧ 0 ≤ f ∧ f < 8
    · rw [show rayWalk occ dr df (fuel + 1) r f =
          Bitboard.setBit
            (if Bitboard.isOccupied occ ((r * 8 + f).toNat) then 0
             else rayWalk occ dr df fuel (r + dr) (f + df)) ((r * 8 + f).toNat) from by
        rw [rayWalk, if_pos hin]]
      rw [testBit_setBit]
      constructor
      · intro h
        rw [Bool.or_eq_true] at h
        rcases h with hrest | heq
        · cases hocc : Bitboard.isOccupied occ ((r * 8 + f).toNat) with
          | true =>
            rw [if_pos hocc] at hrest
            simp at hrest
          | false =>
            rw [if_neg (by rw [hocc]; exact Bool.false_ne_true)] at hrest
            obtain ⟨k, hk, hbnd, heq2, hfree⟩ := (ih (r + dr) (f + df) t).mp hrest
            refine ⟨k + 1, by omega, ?_, ?_, ?_⟩
            · intro j hj
              cases j with
              | zero => simpa using hin
              | succ j' =>
                have := hbnd j' (by omega)
                rw [cast_succ_shift r dr j', cast_succ_shift f df j'] at this
                exact this
            · rw [← cast_succ_shift r dr k, ← cast_succ_shift f df k]
              exact heq2
            · intro j hj
              cases j with
              | zero => simpa using hocc
              | succ j' =>
                have := hfree j' (by omega)
                rw [cast_succ_shift r dr j', cast_succ_shift f df j'] at this
                exact this
        · refine ⟨0, by omega, ?_, ?_, ?_⟩
          · intro j hj
            have hj0 : j = 0 := by omega
            subst hj0
            simpa using hin
          · have := of_decide_eq_true heq
            simpa using this
          · intro j hj
            omega
      · rintro ⟨k, hk, hbnd, heq2, hfree⟩
        cases k with
        | zero =>
          rw [Bool.or_eq_true]
          right
          simp only [Nat.cast_zero, zero_mul, add_zero] at heq2
          exact decide_eq_true heq2
        | succ k' =>
          rw [Bool.or_eq_true]
          left
          have hocc := hfree 0 (by omega)
          simp only [Nat.cast_zero, zero_mul, add_zero] at hocc
          rw [if_neg (by rw [hocc]; exact Bool.false_ne_true)]
          apply (ih (r + dr) (f + df) t).mpr
          refine ⟨k', by omega, ?_, ?_, ?_⟩
          · intro j hj
            rw [cast_succ_shift r dr j, cast_succ_shift f df j]
            exact hbnd (j + 1) (by omega)
          · rw [cast_succ_shift r dr k', cast_succ_shift f df k']
            exact heq2
          · intro j hj
            rw [cast_succ_shift r dr j, cast_succ_shift f df j]
            exact hfree (j + 1) (by omega)
    · rw [show rayWalk occ dr df (fuel + 1) r f = 0 from by rw [rayWalk, if_neg hin]]
      simp only [Nat.zero_testBit]
      constructor
      · intro h
        cases h
      · rintro ⟨k, hk, hbnd, _, _⟩
        exact absurd (by simpa using hbnd 0 (Nat.zero_le k)) hin

theorem rayFrom_testBit_iff (s : Nat) (occ : Nat) (d : Int × Int) (t : Nat) :
    (rayFrom s occ d).testBit t = true ↔
    ∃ k, k < 8 ∧ raySq s d k = some t ∧
      ∀ j, j < k → ∃ q, raySq s d j = some q ∧ Bitboard.isOccupied occ q = false := by
  rw [rayFrom, rayWalk_testBit_iff]
  have hco : ∀ (m : Nat) (x : Int) (dx : Int),
      x + dx + (m : Int) * dx = x + ((m : Int) + 1) * dx := by
    intro m x dx
    ring
  constructor
  · rintro ⟨k, hk, hbnd, heq, hfree⟩
    refine ⟨k, hk, ?_, ?_⟩
    · rw [raySq]
      have hb := hbnd k (le_refl k)
      rw [hco k _ d.1, hco k _ d.2] at hb heq
      rw [if_pos hb, heq]
    · intro j hj
      have hb := hbnd j (by omega)
      have hf := hfree j hj
      rw [hco j _ d.1, hco j _ d.2] at hb hf
      exact ⟨_, by rw [raySq, if_pos hb], hf⟩
  · rintro ⟨k, hk, hsq, hfree⟩
    have hstep : ∀ j, j ≤ k → (0 ≤ (s / 8 : Nat) + ((j : Int) + 1) * d.1 ∧
        (s / 8 : Nat) + ((j : Int) + 1) * d.1 < 8 ∧
        0 ≤ (s % 8 : Nat) + ((j : Int) + 1) * d.2 ∧
        (s % 8 : Nat) + ((j : Int) + 1) * d.2 < 8) := by
      intro j hj
      rcases Nat.lt_or_ge j k with hjk | hjk
      · obtain ⟨q, hq, _⟩ := hfree j hjk
        rw [raySq] at hq
        by_cases hb : 0 ≤ (s / 8 : Nat) + ((j : Int) + 1) * d.1 ∧
            (s / 8 : Nat) + ((j : Int) + 1) * d.1 < 8 ∧
            0 ≤ (s % 8 : Nat) + ((j : Int) + 1) * d.2 ∧
            (s % 8 : Nat) + ((j : Int) + 1) * d.2 < 8
        · exact hb
        · rw [if_neg hb] at hq
          cases hq
      · have hjk2 : j = k := by omega
        subst hjk2
        rw [raySq] at hsq
        by_cases hb : 0 ≤ (s / 8 : Nat) + ((j : Int) + 1) * d.1 ∧
            (s / 8 : Nat) + ((j : Int) + 1) * d.1 < 8 ∧
            0 ≤ (s % 8 : Nat) + ((j : Int) + 1) * d.2 ∧
            (s % 8 : Nat) + ((j : Int) + 1) * d.2 < 8
        · exact hb
        · rw [if_neg hb] at hsq
          cases hsq
    refine ⟨k, hk, ?_, ?_, ?_⟩
    · intro j hj
      have := hstep j hj
      rw [hco j _ d.1, hco j _ d.2]
      exact this
    · rw [hco k _ d.1, hco k _ d.2]
      rw [raySq, if_pos (hstep k (le_refl k))] at hsq
      exact (Option.some_inj.mp hsq)
    · intro j hj
      obtain ⟨q, hq, hf⟩ := hfree j hj
      rw [raySq, if_pos (hstep j (by omega))] at hq
      rw [hco j _ d.1, hco j _ d.2]
      rw [Option.some_inj.mp hq]
      exact hf

theorem rayFrom_transfer (occ occ2 : Nat) (s t0 g a b : Nat) (d : Int × Int)
    (hg : Bitboard.isOccupied occ2 g = true)
    (hmono : ∀ q, Bitboard.isOccupied occ q = true →
      Bitboard.isOccupied occ2 q = true ∨ q = a ∨ q = b)
    (hgeo : ∀ k, k < 8 → raySq s d k = some t0 → ∀ j, j < k →
      (raySq s d j = some a ∨ raySq s d j = some b) → ∃ i, i < k ∧ raySq s d i = some g)
    (h : (rayFrom s occ2 d).testBit t0 = true) :
    (rayFrom s occ d).testBit t0 = true := by
  obtain ⟨k, hk, hsq, hfree⟩ := (rayFrom_testBit_iff s occ2 d t0).mp h
  apply (rayFrom_testBit_iff s occ d t0).mpr
  refine ⟨k, hk, hsq, ?_⟩
  intro j hj
  obtain ⟨q, hq, hf2⟩ := hfree j hj
  refine ⟨q, hq, ?_⟩
  cases hocc : Bitboard.isOccupied occ q with
  | false => rfl
  | true =>
    rcases hmono q hocc with h2 | hab | hab
    · rw [h2] at hf2
      cases hf2
    · obtain ⟨i, hik, hgi⟩ := hgeo k hk hsq j hj (Or.inl (by rw [hq, hab]))
      obtain ⟨q', hq', hf2g⟩ := hfree i hik
      rw [hq'] at hgi
      rw [Option.some_inj.mp hgi] at hf2g
      rw [hg] at hf2g
      cases hf2g
    · obtain ⟨i, hik, hgi⟩ := hgeo k hk hsq j hj (Or.inr (by rw [hq, hab]))
      obtain ⟨q', hq', hf2g⟩ := hfree i hik
      rw [hq'] at hgi
      rw [Option.some_inj.mp hgi] at hf2g
      rw [hg] at hf2g
      cases hf2g

theorem castleGeomWK_bool :
    ((List.range 64).all fun s =>
      allDirs.all fun d =>
        (List.range 8).all fun k =>
          (!(raySq s d k == some 6)) ||
          ((List.range k).all fun j =>
            (!(raySq s d j == some 4 || raySq s d j == some 7)) ||
            ((List.range k).any fun i => raySq s d i == some 5))) = true := by
  decide

theorem castleGeomWK : ∀ s, s < 64 → ∀ d ∈ allDirs, ∀ k, k < 8 → raySq s d k = some 6 →
    ∀ j, j < k → (raySq s d j = some 4 ∨ raySq s d j = some 7) →
    ∃ i, i < k ∧ raySq s d i = some 5 := by
  intro s hs d hd k hk hsq j hj hor
  have h := castleGeomWK_bool
  simp only [List.all_eq_true, List.mem_range, Bool.or_eq_true, List.any_eq_true,
    Bool.not_eq_true', beq_iff_eq, beq_eq_false_iff_ne, Bool.or_eq_false_iff] at h
  rcases h s hs d hd k hk with hne | hall
  · exact absurd hsq hne
  · rcases hall j hj with ⟨hn1, hn2⟩ | ⟨i, hik, hieq⟩
    · rcases hor with ho | ho
      · exact absurd ho hn1
      · exact absurd ho hn2
    · exact ⟨i, hik, hieq⟩

theorem castleGeomWQ_bool :
    ((List.range 64).all fun s =>
      allDirs.all fun d =>
        (List.range 8).all fun k =>
          (!(raySq s d k == some 2)) ||
          ((List.range k).all fun j =>
            (!(raySq s d j == some 4 || raySq s d j == some 0)) ||
            ((List.range k).any fun i => raySq s d i == some 3))) = true := by
  decide

theorem castleGeomWQ : ∀ s, s < 64 → ∀ d ∈ allDirs, ∀ k, k < 8 → raySq s d k = some 2 →
    ∀ j, j < k → (raySq s d j = some 4 ∨ raySq s d j = some 0) →
    ∃ i, i < k ∧ raySq s d i = some 3 := by
  intro s hs d hd k hk hsq j hj hor
  have h := castleGeomWQ_bool
  simp only [List.all_eq_true, List.mem_range, Bool.or_eq_true, List.any_eq_true,
    Bool.not_eq_true', beq_iff_eq, beq_eq_false_iff_ne, Bool.or_eq_false_iff] at h
  rcases h s hs d hd k hk with hne | hall
  · exact absurd hsq hne
  · rcases hall j hj with ⟨hn1, hn2⟩ | ⟨i, hik, hieq⟩
    · rcases hor with ho | ho
      · exact absurd ho hn1
      · exact absurd ho hn2
    · exact ⟨i, hik, hieq⟩

theorem castleGeomBK_bool :
    ((List.range 64).all fun s =>
      allDirs.all fun d =>
        (List.range 8).all fun k =>
          (!(raySq s d k == some 62)) ||
          ((List.range k).all fun j =>
            (!(raySq s d j == some 60 || raySq s d j == some 63)) ||
            ((List.range k).any fun i => raySq s d i == some 61))) = true := by
  decide

theorem castleGeomBK : ∀ s, s < 64 → ∀ d ∈ allDirs, ∀ k, k < 8 → raySq s d k = some 62 →
    ∀ j, j < k → (raySq s d j = some 60 ∨ raySq s d j = some 63) →
    ∃ i, i < k ∧ raySq s d i = some 61 := by
  intro s hs d hd k hk hsq j hj hor
  have h := castleGeomBK_bool
  simp only [List.all_eq_true, List.mem_range, Bool.or_eq_true, List.any_eq_true,
    Bool.not_eq_true', beq_iff_eq, beq_eq_false_iff_ne, Bool.or_eq_false_iff] at h
  rcases h s hs d hd k hk with hne | hall
  · exact absurd hsq hne
  · rcases hall j hj with ⟨hn1, hn2⟩ | ⟨i, hik, hieq⟩
    · rcases hor with ho | ho
      · exact absurd ho hn1
      · exact absurd ho hn2
    · exact ⟨i, hik, hieq⟩

theorem castleGeomBQ_bool :
    ((List.range 64).all fun s =>
      allDirs.all fun d =>
        (List.range 8).all fun k =>
          (!(raySq s d k == some 58)) ||
          ((List.range k).all fun j =>
            (!(raySq s d j == some 60 || raySq s d j == some 56)) ||
            ((List.range k).any fun i => raySq s d i == some 59))) = true := by
  decide

theorem castleGeomBQ : ∀ s, s < 64 → ∀ d ∈ allDirs, ∀ k, k < 8 → raySq s d k = some 58 →
    ∀ j, j < k → (raySq s d j = some 60 ∨ raySq s d j = some 56) →
    ∃ i, i < k ∧ raySq s d i = some 59 := by
  intro s hs d hd k hk hsq j hj hor
  have h := castleGeomBQ_bool
  simp only [List.all_eq_true, List.mem_range, Bool.or_eq_true, List.any_eq_true,
    Bool.not_eq_true', beq_iff_eq, beq_eq_false_iff_ne, Bool.or_eq_false_iff] at h
  rcases h s hs d hd k hk with hne | hall
  · exact absurd hsq hne
  · rcases hall j hj with ⟨hn1, hn2⟩ | ⟨i, hik, hieq⟩
    · rcases hor with ho | ho
      · exact absurd ho hn1
      · exact absurd ho hn2
    · exact ⟨i, hik, hieq⟩

theorem updateBB_same (ps : Piece → Color → Bitboard) (p : Piece) (c : Color) (b : Bitboard) :
    updateBB ps p c b p c = b := by
  simp [updateBB]

theorem updateBB_other (ps : Piece → Color → Bitboard) (p : Piece) (c : Color) (b : Bitboard)
    (q : Piece) (d : Color) (h : ¬(q = p ∧ d = c)) : updateBB ps p c b q d = ps q d := by
  simp only [updateBB]
  rw [if_neg h]

theorem testBit_one_shiftLeft (k q : Nat) : (1 <<< k).testBit q = decide (k = q) := by
  rw [Nat.one_shiftLeft, Nat.testBit_two_pow]

theorem clearBit_one_shiftLeft_self (k : Nat) (hk : k < 64) :
    Bitboard.clearBit (1 <<< k) k = 0 := by
  apply Nat.eq_of_testBit_eq
  intro i
  rw [testBit_clearBit _ _ _ (by
    rw [Nat.one_shiftLeft]
    exact Nat.pow_lt_pow_right (by norm_num) hk)]
  rw [testBit_one_shiftLeft, Nat.zero_testBit]
  by_cases h : k = i <;> simp [h]

theorem setBit_zero (t : Nat) : Bitboard.setBit 0 t = 1 <<< t := by
  rw [Bitboard.setBit]
  simp

theorem bishopAttacks_testBit (s : Nat) (occ : Bitboard) (t : Nat) :
    (bishopAttacks s occ).testBit t =
      ([((-1 : Int), (-1 : Int)), (-1, 1), (1, -1), (1, 1)].any fun d =>
        (rayFrom s occ d).testBit t) := by
  rw [bishopAttacks, testBit_foldl_or]
  simp

theorem rookAttacks_testBit (s : Nat) (occ : Bitboard) (t : Nat) :
    (rookAttacks s occ).testBit t =
      ([((-1 : Int), (0 : Int)), (1, 0), (0, -1), (0, 1)].any fun d =>
        (rayFrom s occ d).testBit t) := by
  rw [rookAttacks, testBit_foldl_or]
  simp

theorem occupiedBB_free (pos : Position) (q : Nat)
    (h : (occupiedBB pos).isOccupied q = false) :
    ∀ p c, (pos.pieces p c).isOccupied q = false := by
  intro p c
  rw [isOccupied_eq_testBit] at h ⊢
  rw [occupiedBB] at h
  simp only [pieceList, List.foldl_cons, List.foldl_nil, Nat.testBit_or, Nat.zero_testBit,
    Bool.false_or, Bool.or_eq_false_iff] at h
  cases p <;> cases c <;> tauto

theorem occupiedBB_of_layer (pos : Position) (p : Piece) (c : Color) (q : Nat)
    (h : (pos.pieces p c).testBit q = true) : (occupiedBB pos).testBit q = true := by
  rw [occupiedBB]
  simp only [pieceList, List.foldl_cons, List.foldl_nil, Nat.testBit_or, Bool.or_eq_true]
  cases p <;> cases c <;> tauto

theorem computeEnemyAttacks_testBit (pos : Position) (ec : Color) (t : Nat) :
    (computeEnemyAttacks pos ec).testBit t =
      (((Bitboard.squares (pos.pieces .Pawn ec)).any fun s => (pawnAttacks s ec).testBit t) ||
       ((Bitboard.squares (pos.pieces .Knight ec)).any fun s => (knightAttacks s).testBit t) ||
       ((Bitboard.squares (pos.pieces .Bishop ec)).any fun s =>
         (bishopAttacks s (occupiedBB pos)).testBit t) ||
       ((Bitboard.squares (pos.pieces .Rook ec)).any fun s =>
         (rookAttacks s (occupiedBB pos)).testBit t) ||
       ((Bitboard.squares (pos.pieces .Queen ec)).any fun s =>
         (queenAttacks s (occupiedBB pos)).testBit t) ||
       ((Bitboard.squares (pos.pieces .King ec)).any fun s => (kingAttacks s).testBit t)) := by
  simp only [computeEnemyAttacks, testBit_foldl_or, Nat.zero_testBit, Bool.false_or,
    Bool.or_assoc]

theorem occupiers_unique {pos : Position} {sq : Nat}
    (h : (occupiersAt pos sq).length ≤ 1) {a b : Piece × Color}
    (ha : a ∈ occupiersAt pos sq) (hb : b ∈ occupiersAt pos sq) : a = b := by
  match hl : occupiersAt pos sq with
  | [] =>
    rw [hl] at ha
    cases ha
  | [x] =>
    rw [hl] at ha hb
    rw [List.mem_singleton] at ha hb
    rw [ha, hb]
  | x :: y :: rest =>
    rw [hl] at h
    simp at h

theorem findPieceAt_mem (pos : Position) (c : Color) (f : Nat) (p : Piece)
    (h : (pos.pieces p c).isOccupied f = true) :
    ∃ mp, Position.findPieceAt pos c f = some mp ∧ (pos.pieces mp c).isOccupied f = true := by
  cases hfind : Position.findPieceAt pos c f with
  | none =>
    rw [Position.findPieceAt, List.find?_eq_none] at hfind
    exact absurd h (by simpa using hfind p (by cases p <;> simp [pieceList]))
  | some mp =>
    refine ⟨mp, rfl, ?_⟩
    have := List.find?_some hfind
    simpa using this

theorem findPieceAt_none (pos : Position) (c : Color) (f : Nat)
    (h : ∀ p, (pos.pieces p c).isOccupied f = false) :
    Position.findPieceAt pos c f = none := by
  rw [Position.findPieceAt]
  apply List.find?_eq_none.mpr
  intro x _
  simp [h x]

theorem lsb_isSome_of_testBit (b t : Nat) (ht : t < 64) (hb : b.testBit t = true) :
    ∃ u, Bitboard.lsb b = some u := by
  have hmem : t ∈ Bitboard.squares b := mem_squares.mpr ⟨ht, hb⟩
  cases hsq : Bitboard.squares b with
  | nil =>
    rw [hsq] at hmem
    cases hmem
  | cons a l =>
    exact ⟨a, by rw [Bitboard.lsb, hsq]; rfl⟩

theorem opposite_ne : ∀ c : Color, Color.opposite c ≠ c := by decide

theorem promoEncode_ne_king : ∀ p, promoEncode p ≠ Piece.King := by decide

theorem makeMove_isSome (pos : Position) (mv : Move) (mp : Piece)
    (hfind : Position.findPieceAt pos pos.sideToMove mv.fromSq = some mp) :
    ∃ pr, makeMove pos mv = some pr := by
  simp only [makeMove, hfind]
  exact ⟨_, rfl⟩

theorem makeMove_pieces (pos : Position) (mv : Move) (c : Color) (mp : Piece)
    (capN : Option Piece)
    (hc : pos.sideToMove = c)
    (hfind : Position.findPieceAt pos c mv.fromSq = some mp)
    (hcap : Position.findPieceAt pos c.opposite mv.toSq = capN) :
    ∃ np u, makeMove pos mv = some (np, u) ∧
      np.pieces = (moveStep pos.pieces mv c mp capN).1 := by
  simp only [makeMove, hc, hfind, hcap]
  refine ⟨_, _, rfl, ?_⟩
  rfl

theorem moveStep_king_unchanged (ps : Piece → Color → Bitboard) (mv : Move) (c : Color)
    (mp : Piece) (capN : Option Piece) (hmp : mp ≠ Piece.King)
    (hpp : mv.moveType = MoveType.Promotion → mv.promoPiece ≠ Piece.King) :
    (moveStep ps mv c mp capN).1 Piece.King c = ps Piece.King c := by
  obtain ⟨f, t, mt, pp⟩ := mv
  have h1 : c ≠ Color.opposite c := fun h => opposite_ne c h.symm
  have hmp2 : Piece.King ≠ mp := Ne.symm hmp
  cases mt with
  | Normal =>
    cases capN <;> simp [moveStep, updateBB, hmp2, h1]
  | Promotion =>
    have hpp2 : Piece.King ≠ pp := Ne.symm (hpp rfl)
    cases capN <;> simp [moveStep, updateBB, hmp2, h1, hpp2]
  | EnPassant =>
    cases capN <;> simp [moveStep, updateBB, hmp2, h1]
  | Castling =>
    cases capN <;> (simp only [moveStep]; split_ifs <;> simp [updateBB, hmp2, h1])

theorem moveStep_king_tobit (ps : Piece → Color → Bitboard) (f t : Nat) (mt : MoveType)
    (pp : Piece) (c : Color) (capN : Option Piece) (hmt : mt ≠ MoveType.Promotion) :
    ((moveStep ps ⟨f, t, mt, pp⟩ c Piece.King capN).1 Piece.King c).testBit t = true := by
  have h1 : c ≠ Color.opposite c := fun h => opposite_ne c h.symm
  cases mt with
  | Normal =>
    cases capN <;> simp [moveStep, updateBB, h1, testBit_setBit]
  | Promotion => exact absurd rfl hmt
  | EnPassant =>
    cases capN <;> simp [moveStep, updateBB, h1, testBit_setBit]
  | Castling =>
    cases capN <;> (simp only [moveStep]; split_ifs <;> simp [updateBB, h1, testBit_setBit])

theorem moveStep_king_castling (ps : Piece → Color → Bitboard) (f t : Nat) (c : Color) :
    (moveStep ps ⟨f, t, MoveType.Castling, Piece.Queen⟩ c Piece.King none).1 Piece.King c
      = Bitboard.setBit (Bitboard.clearBit (ps Piece.King c) f) t := by
  simp only [moveStep]
  split_ifs <;> simp [updateBB]

theorem moveStep_castling_other (ps : Piece → Color → Bitboard) (f t : Nat) (c : Color)
    (p : Piece) (c2 : Color) (hp : p ≠ Piece.King) (hr : p ≠ Piece.Rook) :
    (moveStep ps ⟨f, t, MoveType.Castling, Piece.Queen⟩ c Piece.King none).1 p c2 = ps p c2 := by
  simp only [moveStep]
  split_ifs <;> simp [updateBB, hp, hr]

theorem moveStep_castling_king_other (ps : Piece → Color → Bitboard) (f t : Nat) (c : Color)
    (c2 : Color) (hc2 : c2 ≠ c) :
    (moveStep ps ⟨f, t, MoveType.Castling, Piece.Queen⟩ c Piece.King none).1 Piece.King c2
      = ps Piece.King c2 := by
  simp only [moveStep]
  split_ifs <;> simp [updateBB, hc2]

theorem moveStep_rook_WK (ps : Piece → Color → Bitboard) (c : Color) :
    (moveStep ps ⟨4, 6, MoveType.Castling, Piece.Queen⟩ c Piece.King none).1 Piece.Rook Color.White
      = Bitboard.setBit (Bitboard.clearBit (ps Piece.Rook Color.White) 7) 5 := by
  simp only [moveStep]
  rw [if_pos (by simp)]
  simp [updateBB]

theorem moveStep_rook_WQ (ps : Piece → Color → Bitboard) (c : Color) :
    (moveStep ps ⟨4, 2, MoveType.Castling, Piece.Queen⟩ c Piece.King none).1 Piece.Rook Color.White
      = Bitboard.setBit (Bitboard.clearBit (ps Piece.Rook Color.White) 0) 3 := by
  simp only [moveStep]
  rw [if_neg (by simp), if_pos (by simp)]
  simp [updateBB]

theorem moveStep_rook_BK (ps : Piece → Color → Bitboard) (c : Color) :
    (moveStep ps ⟨60, 62, MoveType.Castling, Piece.Queen⟩ c Piece.King none).1 Piece.Rook Color.Black
      = Bitboard.setBit (Bitboard.clearBit (ps Piece.Rook Color.Black) 63) 61 := by
  simp only [moveStep]
  rw [if_neg (by simp), if_neg (by simp), if_pos (by simp)]
  simp [updateBB]

theorem moveStep_rook_BQ (ps : Piece → Color → Bitboard) (c : Color) :
    (moveStep ps ⟨60, 58, MoveType.Castling, Piece.Queen⟩ c Piece.King none).1 Piece.Rook Color.Black
      = Bitboard.setBit (Bitboard.clearBit (ps Piece.Rook Color.Black) 56) 59 := by
  simp only [moveStep]
  rw [if_neg (by simp), if_neg (by simp), if_neg (by simp), if_pos (by simp)]
  simp [updateBB]

theorem moveStep_rook_WK_other (ps : Piece → Color → Bitboard) (c : Color)
    (c2 : Color) (hc2 : c2 ≠ Color.White) :
    (moveStep ps ⟨4, 6, MoveType.Castling, Piece.Queen⟩ c Piece.King none).1 Piece.Rook c2
      = ps Piece.Rook c2 := by
  simp only [moveStep]
  rw [if_pos (by simp)]
  simp [updateBB, hc2]

theorem moveStep_rook_WQ_other (ps : Piece → Color → Bitboard) (c : Color)
    (c2 : Color) (hc2 : c2 ≠ Color.White) :
    (moveStep ps ⟨4, 2, MoveType.Castling, Piece.Queen⟩ c Piece.King none).1 Piece.Rook c2
      = ps Piece.Rook c2 := by
  simp only [moveStep]
  rw [if_neg (by simp), if_pos (by simp)]
  simp [updateBB, hc2]

theorem moveStep_rook_BK_other (ps : Piece → Color → Bitboard) (c : Color)
    (c2 : Color) (hc2 : c2 ≠ Color.Black) :
    (moveStep ps ⟨60, 62, MoveType.Castling, Piece.Queen⟩ c Piece.King none).1 Piece.Rook c2
      = ps Piece.Rook c2 := by
  simp only [moveStep]
  rw [if_neg (by simp), if_neg (by simp), if_pos (by simp)]
  simp [updateBB, hc2]

theorem moveStep_rook_BQ_other (ps : Piece → Color → Bitboard) (c : Color)
    (c2 : Color) (hc2 : c2 ≠ Color.Black) :
    (moveStep ps ⟨60, 58, MoveType.Castling, Piece.Queen⟩ c Piece.King none).1 Piece.Rook c2
      = ps Piece.Rook c2 := by
  simp only [moveStep]
  rw [if_neg (by simp), if_neg (by simp), if_neg (by simp), if_pos (by simp)]
  simp [updateBB, hc2]

theorem moveStep_castling_degenerate_rook (ps : Piece → Color → Bitboard) (f t : Nat)
    (c : Color) (h1 : ¬(f = 4 ∧ t = 6)) (h2 : ¬(f = 4 ∧ t = 2)) (h3 : ¬(f = 60 ∧ t = 62))
    (h4 : ¬(f = 60 ∧ t = 58)) (c2 : Color) :
    (moveStep ps ⟨f, t, MoveType.Castling, Piece.Queen⟩ c Piece.King none).1 Piece.Rook c2
      = ps Piece.Rook c2 := by
  simp only [moveStep]
  rw [if_neg h1, if_neg h2, if_neg h3, if_neg h4]
  simp [updateBB]


theorem occupiedBB_exists (pos : Position) (q : Nat) (h : (occupiedBB pos).testBit q = true) :
    ∃ p c2, (pos.pieces p c2).testBit q = true := by
  rw [occupiedBB] at h
  simp only [pieceList, List.foldl_cons, List.foldl_nil, Nat.testBit_or, Nat.zero_testBit,
    Bool.false_or, Bool.or_eq_true] at h
  rcases h with ((((((((((h | h) | h) | h) | h) | h) | h) | h) | h) | h) | h) | h <;>
    exact ⟨_, _, h⟩

theorem bishopDirs_sub_allDirs :
    ∀ d ∈ [((-1 : Int), (-1 : Int)), (-1, 1), (1, -1), (1, 1)], d ∈ allDirs := by
  decide

theorem rookDirs_sub_allDirs :
    ∀ d ∈ [((-1 : Int), (0 : Int)), (1, 0), (0, -1), (0, 1)], d ∈ allDirs := by
  decide

theorem castle_postSafe (pos np : Position) (c : Color)
    (hbb : ∀ p c2, pos.pieces p c2 < 2 ^ 64)
    (kf t0 rf g : Nat)
    (hk : pos.pieces Piece.King c = 1 <<< kf)
    (hnpR : np.pieces Piece.Rook c
      = Bitboard.setBit (Bitboard.clearBit (pos.pieces Piece.Rook c) rf) g)
    (hother : ∀ p c2, p ≠ Piece.King → p ≠ Piece.Rook → np.pieces p c2 = pos.pieces p c2)
    (hKother : ∀ c2, c2 ≠ c → np.pieces Piece.King c2 = pos.pieces Piece.King c2)
    (hRother : ∀ c2, c2 ≠ c → np.pieces Piece.Rook c2 = pos.pieces Piece.Rook c2)
    (hgeo : ∀ s, s < 64 → ∀ d ∈ allDirs, ∀ k, k < 8 → raySq s d k = some t0 →
      ∀ j, j < k → (raySq s d j = some kf ∨ raySq s d j = some rf) →
      ∃ i, i < k ∧ raySq s d i = some g)
    (heat : (computeEnemyAttacks pos c.opposite).isOccupied t0 = false) :
    (computeEnemyAttacks np c.opposite).isOccupied t0 = false := by
  have hecc : c.opposite ≠ c := opposite_ne c
  have hep : ∀ p, np.pieces p c.opposite = pos.pieces p c.opposite := by
    intro p
    cases p
    case King => exact hKother _ hecc
    case Rook => exact hRother _ hecc
    all_goals exact hother _ _ (by decide) (by decide)
  have hgOcc : Bitboard.isOccupied (occupiedBB np) g = true := by
    rw [isOccupied_eq_testBit]
    apply occupiedBB_of_layer np Piece.Rook c
    rw [hnpR, testBit_setBit]
    simp
  have hmono : ∀ q, Bitboard.isOccupied (occupiedBB pos) q = true →
      Bitboard.isOccupied (occupiedBB np) q = true ∨ q = kf ∨ q = rf := by
    intro q hq
    rw [isOccupied_eq_testBit] at hq
    obtain ⟨p, c2, hl⟩ := occupiedBB_exists pos q hq
    rcases Decidable.em (p = Piece.King) with hpK | hpK
    · subst hpK
      rcases Decidable.em (c2 = c) with hcc | hcc
      · rw [hcc] at hl
        rw [hk, testBit_one_shiftLeft] at hl
        exact Or.inr (Or.inl (of_decide_eq_true hl).symm)
      · left
        rw [isOccupied_eq_testBit]
        exact occupiedBB_of_layer np Piece.King c2 q (by rw [hKother c2 hcc]; exact hl)
    · rcases Decidable.em (p = Piece.Rook) with hpR | hpR
      · subst hpR
        rcases Decidable.em (c2 = c) with hcc | hcc
        · rw [hcc] at hl
          rcases Decidable.em (q = rf) with hqrf | hqrf
          · exact Or.inr (Or.inr hqrf)
          · left
            rw [isOccupied_eq_testBit]
            apply occupiedBB_of_layer np Piece.Rook c
            rw [hnpR, testBit_setBit, testBit_clearBit _ _ _ (hbb Piece.Rook c), hl]
            simp only [Bool.true_and, Bool.or_eq_true, Bool.not_eq_true',
              decide_eq_false_iff_not, decide_eq_true_eq]
            exact Or.inl fun h : rf = q => hqrf h.symm
        · left
          rw [isOccupied_eq_testBit]
          exact occupiedBB_of_layer np Piece.Rook c2 q (by rw [hRother c2 hcc]; exact hl)
      · left
        rw [isOccupied_eq_testBit]
        exact occupiedBB_of_layer np p c2 q (by rw [hother p c2 hpK hpR]; exact hl)
  by_contra hcon
  rw [Bool.not_eq_false, isOccupied_eq_testBit, computeEnemyAttacks_testBit] at hcon
  rw [isOccupied_eq_testBit, computeEnemyAttacks_testBit] at heat
  simp only [hep] at hcon
  simp only [Bool.or_eq_false_iff] at heat
  obtain ⟨⟨⟨⟨⟨hPw, hKn⟩, hBi⟩, hRo⟩, hQu⟩, hKi⟩ := heat
  simp only [Bool.or_eq_true] at hcon
  rcases hcon with ((((h | h) | h) | h) | h) | h
  · rw [hPw] at h
    cases h
  · rw [hKn] at h
    cases h
  · obtain ⟨s, hsmem, hbit⟩ := List.any_eq_true.mp h
    have hs64 : s < 64 := (mem_squares.mp hsmem).1
    rw [bishopAttacks_testBit] at hbit
    obtain ⟨d, hdmem, hray⟩ := List.any_eq_true.mp hbit
    have hray2 := rayFrom_transfer (occupiedBB pos) (occupiedBB np) s t0 g kf rf d
      hgOcc hmono (hgeo s hs64 d (bishopDirs_sub_allDirs d hdmem)) hray
    have hpre : ((Bitboard.squares (pos.pieces .Bishop c.opposite)).any fun s2 =>
        (bishopAttacks s2 (occupiedBB pos)).testBit t0) = true :=
      List.any_eq_true.mpr ⟨s, hsmem, by rw [bishopAttacks_testBit]
                                         exact List.any_eq_true.mpr ⟨d, hdmem, hray2⟩⟩
    rw [hBi] at hpre
    cases hpre
  · obtain ⟨s, hsmem, hbit⟩ := List.any_eq_true.mp h
    have hs64 : s < 64 := (mem_squares.mp hsmem).1
    rw [rookAttacks_testBit] at hbit
    obtain ⟨d, hdmem, hray⟩ := List.any_eq_true.mp hbit
    have hray2 := rayFrom_transfer (occupiedBB pos) (occupiedBB np) s t0 g kf rf d
      hgOcc hmono (hgeo s hs64 d (rookDirs_sub_allDirs d hdmem)) hray
    have hpre : ((Bitboard.squares (pos.pieces .Rook c.opposite)).any fun s2 =>
        (rookAttacks s2 (occupiedBB pos)).testBit t0) = true :=
      List.any_eq_true.mpr ⟨s, hsmem, by rw [rookAttacks_testBit]
                                         exact List.any_eq_true.mpr ⟨d, hdmem, hray2⟩⟩
    rw [hRo] at hpre
    cases hpre
  · obtain ⟨s, hsmem, hbit⟩ := List.any_eq_true.mp h
    have hs64 : s < 64 := (mem_squares.mp hsmem).1
    rw [queenAttacks, Nat.testBit_or, Bool.or_eq_true] at hbit
    have hq2 : (queenAttacks s (occupiedBB pos)).testBit t0 = true := by
      rw [queenAttacks, Nat.testBit_or, Bool.or_eq_true]
      rcases hbit with hb | hb
      · rw [bishopAttacks_testBit] at hb
        obtain ⟨d, hdmem, hray⟩ := List.any_eq_true.mp hb
        have hray2 := rayFrom_transfer (occupiedBB pos) (occupiedBB np) s t0 g kf rf d
          hgOcc hmono (hgeo s hs64 d (bishopDirs_sub_allDirs d hdmem)) hray
        exact Or.inl (by rw [bishopAttacks_testBit]
                         exact List.any_eq_true.mpr ⟨d, hdmem, hray2⟩)
      · rw [rookAttacks_testBit] at hb
        obtain ⟨d, hdmem, hray⟩ := List.any_eq_true.mp hb
        have hray2 := rayFrom_transfer (occupiedBB pos) (occupiedBB np) s t0 g kf rf d
          hgOcc hmono (hgeo s hs64 d (rookDirs_sub_allDirs d hdmem)) hray
        exact Or.inr (by rw [rookAttacks_testBit]
                         exact List.any_eq_true.mpr ⟨d, hdmem, hray2⟩)
    have hpre : ((Bitboard.squares (pos.pieces .Queen c.opposite)).any fun s2 =>
        (queenAttacks s2 (occupiedBB pos)).testBit t0) = true :=
      List.any_eq_true.mpr ⟨s, hsmem, hq2⟩
    rw [hQu] at hpre
    cases hpre
  · rw [hKi] at h
    cases h

theorem moveStep_king_tobit2 (ps : Piece → Color → Bitboard) (mv : Move) (c : Color)
    (capN : Option Piece) (hmt : mv.moveType ≠ MoveType.Promotion) :
    ((moveStep ps mv c Piece.King capN).1 Piece.King c).testBit mv.toSq = true := by
  obtain ⟨f, t, mt, pp⟩ := mv
  exact moveStep_king_tobit ps f t mt pp c capN hmt

theorem mem_ite_list {α : Type} {x : α} {P : Prop} [Decidable P] {l1 l2 : List α}
    (h : x ∈ (if P then l1 else l2)) : x ∈ l1 ∨ x ∈ l2 := by
  split at h
  · exact Or.inl h
  · exact Or.inr h

theorem newMove_facts (f t : Nat) :
    (Move.newMove f t).moveType ≠ MoveType.Castling ∧
    ((Move.newMove f t).moveType = MoveType.Promotion →
      (Move.newMove f t).promoPiece ≠ Piece.King) :=
  ⟨fun h => MoveType.noConfusion h, fun h => MoveType.noConfusion h⟩

theorem promotionMove_facts (f t : Nat) (p : Piece) :
    (Move.promotionMove f t p).moveType ≠ MoveType.Castling ∧
    ((Move.promotionMove f t p).moveType = MoveType.Promotion →
      (Move.promotionMove f t p).promoPiece ≠ Piece.King) :=
  ⟨fun h => MoveType.noConfusion h, fun _ => promoEncode_ne_king p⟩

theorem enPassantMove_facts (f t : Nat) :
    (Move.enPassantMove f t).moveType ≠ MoveType.Castling ∧
    ((Move.enPassantMove f t).moveType = MoveType.Promotion →
      (Move.enPassantMove f t).promoPiece ≠ Piece.King) :=
  ⟨fun h => MoveType.noConfusion h, fun h => MoveType.noConfusion h⟩

theorem generatePawnMoves_facts (pawns occ enem : Bitboard) (c : Color) (ep : Option Nat) :
    ∀ m ∈ generatePawnMoves pawns occ enem c ep,
      pawns.isOccupied m.fromSq = true ∧ m.moveType ≠ MoveType.Castling ∧
      (m.moveType = MoveType.Promotion → m.promoPiece ≠ Piece.King) := by
  intro m hm
  rw [generatePawnMoves] at hm
  simp only [List.mem_flatMap] at hm
  obtain ⟨s, hs, hm⟩ := hm
  have hsOcc : pawns.isOccupied s = true := by
    rw [isOccupied_eq_testBit]
    exact (mem_squares.mp hs).2
  simp only [List.mem_append] at hm
  rcases hm with (hm | hm) | hm
  · rcases mem_ite_list hm with hm | hm
    · simp only [List.mem_append] at hm
      rcases hm with hm | hm
      · rcases mem_ite_list hm with hm | hm
        · simp only [List.mem_cons, List.not_mem_nil, or_false] at hm
          rcases hm with rfl | rfl | rfl | rfl
          all_goals exact ⟨hsOcc, (promotionMove_facts _ _ _).1, (promotionMove_facts _ _ _).2⟩
        · simp only [List.mem_singleton] at hm
          subst hm
          exact ⟨hsOcc, (newMove_facts _ _).1, (newMove_facts _ _).2⟩
      · rcases mem_ite_list hm with hm | hm
        · rcases mem_ite_list hm with hm | hm
          · simp only [List.mem_singleton] at hm
            subst hm
            exact ⟨hsOcc, (newMove_facts _ _).1, (newMove_facts _ _).2⟩
          · cases hm
        · cases hm
    · cases hm
  · simp only [List.mem_flatMap] at hm
    obtain ⟨t, _, hm⟩ := hm
    rcases mem_ite_list hm with hm | hm
    · simp only [List.mem_cons, List.not_mem_nil, or_false] at hm
      rcases hm with rfl | rfl | rfl | rfl
      all_goals exact ⟨hsOcc, (promotionMove_facts _ _ _).1, (promotionMove_facts _ _ _).2⟩
    · simp only [List.mem_singleton] at hm
      subst hm
      exact ⟨hsOcc, (newMove_facts _ _).1, (newMove_facts _ _).2⟩
  · cases ep with
    | none => cases hm
    | some e =>
      rcases mem_ite_list hm with hm | hm
      · simp only [List.mem_singleton] at hm
        subst hm
        exact ⟨hsOcc, (enPassantMove_facts _ _).1, (enPassantMove_facts _ _).2⟩
      · cases hm

theorem generateKnightMoves_facts (kn occ en : Bitboard) :
    ∀ m ∈ generateKnightMoves kn occ en,
      kn.isOccupied m.fromSq = true ∧ m.moveType = MoveType.Normal ∧ m.toSq < 64 := by
  intro m hm
  rw [generateKnightMoves] at hm
  simp only [List.mem_flatMap, List.mem_append, List.mem_map] at hm
  obtain ⟨s, hs, hm⟩ := hm
  have hsOcc : kn.isOccupied s = true := by
    rw [isOccupied_eq_testBit]
    exact (mem_squares.mp hs).2
  rcases hm with ⟨t, ht, rfl⟩ | ⟨t, ht, rfl⟩ <;> exact ⟨hsOcc, rfl, (mem_squares.mp ht).1⟩

theorem generateBishopMoves_facts (bs occ en : Bitboard) :
    ∀ m ∈ generateBishopMoves bs occ en,
      bs.isOccupied m.fromSq = true ∧ m.moveType = MoveType.Normal ∧ m.toSq < 64 := by
  intro m hm
  rw [generateBishopMoves] at hm
  simp only [List.mem_flatMap, List.mem_map] at hm
  obtain ⟨s, hs, t, ht, rfl⟩ := hm
  exact ⟨by rw [isOccupied_eq_testBit]; exact (mem_squares.mp hs).2, rfl, (mem_squares.mp ht).1⟩

theorem generateRookMoves_facts (rs occ en : Bitboard) :
    ∀ m ∈ generateRookMoves rs occ en,
      rs.isOccupied m.fromSq = true ∧ m.moveType = MoveType.Normal ∧ m.toSq < 64 := by
  intro m hm
  rw [generateRookMoves] at hm
  simp only [List.mem_flatMap, List.mem_map] at hm
  obtain ⟨s, hs, t, ht, rfl⟩ := hm
  exact ⟨by rw [isOccupied_eq_testBit]; exact (mem_squares.mp hs).2, rfl, (mem_squares.mp ht).1⟩

theorem generateQueenMoves_facts (qs occ en : Bitboard) :
    ∀ m ∈ generateQueenMoves qs occ en,
      qs.isOccupied m.fromSq = true ∧ m.moveType = MoveType.Normal ∧ m.toSq < 64 := by
  intro m hm
  rw [generateQueenMoves] at hm
  simp only [List.mem_flatMap, List.mem_map] at hm
  obtain ⟨s, hs, t, ht, rfl⟩ := hm
  exact ⟨by rw [isOccupied_eq_testBit]; exact (mem_squares.mp hs).2, rfl, (mem_squares.mp ht).1⟩

theorem generateKingMoves_facts (k : Nat) (occ en : Bitboard) :
    ∀ m ∈ generateKingMoves k occ en,
      m.fromSq = k ∧ m.moveType = MoveType.Normal ∧ m.toSq < 64 := by
  intro m hm
  rw [generateKingMoves] at hm
  simp only [List.mem_append, List.mem_map] at hm
  rcases hm with ⟨t, ht, rfl⟩ | ⟨t, ht, rfl⟩ <;> exact ⟨rfl, rfl, (mem_squares.mp ht).1⟩

theorem searchMoveList_facts (pos : Position) (c : Color) (kSq : Nat)
    (hk : pos.pieces Piece.King c = 1 <<< kSq) (hk64 : kSq < 64) :
    ∀ m ∈ searchMoveList pos c,
      m.moveType ≠ MoveType.Castling ∧
      (∃ p, (pos.pieces p c).isOccupied m.fromSq = true) ∧
      (m.moveType = MoveType.Promotion →
        (pos.pieces Piece.Pawn c).isOccupied m.fromSq = true ∧ m.promoPiece ≠ Piece.King) ∧
      ((pos.pieces Piece.King c).isOccupied m.fromSq = true →
        m.toSq < 64 ∨ (pos.pieces Piece.Pawn c).isOccupied m.fromSq = true) := by
  intro m hm
  rw [searchMoveList] at hm
  simp only [List.mem_append] at hm
  rcases hm with ((((hm | hm) | hm) | hm) | hm) | hm
  · obtain ⟨h1, h2, h3⟩ := generatePawnMoves_facts _ _ _ _ _ m hm
    exact ⟨h2, ⟨Piece.Pawn, h1⟩, fun hmt => ⟨h1, h3 hmt⟩, fun _ => Or.inr h1⟩
  · obtain ⟨h1, h2, h3⟩ := generateKnightMoves_facts _ _ _ m hm
    refine ⟨by rw [h2]; decide, ⟨Piece.Knight, h1⟩, fun hmt => ?_, fun _ => Or.inl h3⟩
    rw [h2] at hmt
    cases hmt
  · obtain ⟨h1, h2, h3⟩ := generateBishopMoves_facts _ _ _ m hm
    refine ⟨by rw [h2]; decide, ⟨Piece.Bishop, h1⟩, fun hmt => ?_, fun _ => Or.inl h3⟩
    rw [h2] at hmt
    cases hmt
  · obtain ⟨h1, h2, h3⟩ := generateRookMoves_facts _ _ _ m hm
    refine ⟨by rw [h2]; decide, ⟨Piece.Rook, h1⟩, fun hmt => ?_, fun _ => Or.inl h3⟩
    rw [h2] at hmt
    cases hmt
  · obtain ⟨h1, h2, h3⟩ := generateQueenMoves_facts _ _ _ m hm
    refine ⟨by rw [h2]; decide, ⟨Piece.Queen, h1⟩, fun hmt => ?_, fun _ => Or.inl h3⟩
    rw [h2] at hmt
    cases hmt
  · rw [hk, lsb_two_pow kSq hk64] at hm
    obtain ⟨h1, h2, h3⟩ := generateKingMoves_facts kSq _ _ m hm
    refine ⟨by rw [h2]; decide, ⟨Piece.King, ?_⟩, fun hmt => ?_, fun _ => Or.inl h3⟩
    · rw [h1, hk, isOccupied_eq_testBit, testBit_one_shiftLeft]
      simp
    · rw [h2] at hmt
      cases hmt

theorem isLegalMove_nonCastle (mv : Move) (pos : Position) (c : Color)
    (h : mv.moveType ≠ MoveType.Castling) :
    isLegalMove mv pos c = simulateMoveAndCheckKing mv pos c := by
  cases hmt : mv.moveType
  case Castling => exact absurd hmt h
  all_goals simp only [isLegalMove, hmt]

theorem filterLegalMoves_spec (pos : Position) (c : Color) :
    ∀ l : List Move,
      (∀ m ∈ l, isLegalMove m pos c = specLegalMove m pos c ∧
        ∃ b, isLegalMove m pos c = some b) →
      ∃ out, filterLegalMoves l pos c = some out ∧
        ∀ x, x ∈ out ↔ x ∈ l ∧ specLegalMove x pos c = some true := by
  intro l
  induction l with
  | nil =>
    intro _
    exact ⟨[], rfl, by simp⟩
  | cons m rest ih =>
    intro h
    obtain ⟨heq, b, hb⟩ := h m (List.mem_cons_self m rest)
    obtain ⟨out, hout, hiff⟩ := ih (fun x hx => h x (List.mem_cons_of_mem m hx))
    refine ⟨if b then m :: out else out, ?_, ?_⟩
    · rw [filterLegalMoves, hb, hout]
      rfl
    · intro x
      cases b with
      | true =>
        simp only [if_pos rfl]
        constructor
        · intro hx
          rcases List.mem_cons.mp hx with rfl | hx
          · exact ⟨List.mem_cons_self _ _, by rw [← heq]; exact hb⟩
          · obtain ⟨h1, h2⟩ := (hiff x).mp hx
            exact ⟨List.mem_cons_of_mem _ h1, h2⟩
        · rintro ⟨hx, hspec⟩
          rcases List.mem_cons.mp hx with rfl | hx
          · exact List.mem_cons_self _ _
          · exact List.mem_cons_of_mem _ ((hiff x).mpr ⟨hx, hspec⟩)
      | false =>
        simp only [if_neg Bool.false_ne_true]
        constructor
        · intro hx
          obtain ⟨h1, h2⟩ := (hiff x).mp hx
          exact ⟨List.mem_cons_of_mem _ h1, h2⟩
        · rintro ⟨hx, hspec⟩
          rcases List.mem_cons.mp hx with rfl | hx
          · rw [← heq, hb] at hspec
            simp at hspec
          · exact (hiff x).mpr ⟨hx, hspec⟩

theorem isLegal_eq_spec_nonCastle (mv : Move) (pos : Position) (c : Color)
    (h : mv.moveType ≠ MoveType.Castling) :
    isLegalMove mv pos c = specLegalMove mv pos c := by
  cases hmt : mv.moveType
  case Castling => exact absurd hmt h
  all_goals
    simp only [isLegalMove, hmt, specLegalMove, specPostMoveKingSafe, simulateMoveAndCheckKing]
  all_goals
    cases hmk : makeMove pos mv with
    | none => rfl
    | some pr =>
      obtain ⟨np2, u2⟩ := pr
      cases hlsb : Bitboard.lsb (np2.pieces Piece.King c) with
      | none => simp [hlsb]
      | some k => simp [hlsb, hmt]

theorem simulate_isSome (pos : Position) (mv : Move) (c : Color) (kSq : Nat)
    (hc : pos.sideToMove = c)
    (hdisj : ∀ sq < 64, (occupiersAt pos sq).length ≤ 1)
    (hk : pos.pieces Piece.King c = 1 <<< kSq) (hk64 : kSq < 64)
    (hfrom : ∃ p, (pos.pieces p c).isOccupied mv.fromSq = true)
    (hpp : mv.moveType = MoveType.Promotion →
      (pos.pieces Piece.Pawn c).isOccupied mv.fromSq = true ∧ mv.promoPiece ≠ Piece.King)
    (hto64 : (pos.pieces Piece.King c).isOccupied mv.fromSq = true →
      mv.toSq < 64 ∨ (pos.pieces Piece.Pawn c).isOccupied mv.fromSq = true) :
    ∃ b, simulateMoveAndCheckKing mv pos c = some b := by
  obtain ⟨p0, hp0⟩ := hfrom
  obtain ⟨mp, hfind, hmpocc⟩ := findPieceAt_mem pos c mv.fromSq p0 hp0
  obtain ⟨np, u, hmk, hnp⟩ :=
    makeMove_pieces pos mv c mp (pos.findPieceAt c.opposite mv.toSq) hc hfind rfl
  have hking : ∃ u2, Bitboard.lsb (np.pieces Piece.King c) = some u2 := by
    rcases Decidable.em (mp = Piece.King) with hmpk | hmpk
    · rw [hmpk] at hmpocc hnp
      have hfrom_eq : mv.fromSq = kSq := by
        rw [hk, isOccupied_eq_testBit, testBit_one_shiftLeft] at hmpocc
        exact (of_decide_eq_true hmpocc).symm
      have hnopawn : ¬(pos.pieces Piece.Pawn c).isOccupied mv.fromSq = true := by
        intro hpawn
        have h1 : (Piece.Pawn, c) ∈ occupiersAt pos mv.fromSq := mem_occupiersAt.mpr hpawn
        have h2 : (Piece.King, c) ∈ occupiersAt pos mv.fromSq := mem_occupiersAt.mpr hmpocc
        have := occupiers_unique (hdisj mv.fromSq (by rw [hfrom_eq]; exact hk64)) h1 h2
        simp at this
      rcases Decidable.em (mv.moveType = MoveType.Promotion) with hmt | hmt
      · exact absurd (hpp hmt).1 hnopawn
      · have hto : mv.toSq < 64 := by
          rcases hto64 hmpocc with hlt | hpawn
          · exact hlt
          · exact absurd hpawn hnopawn
        apply lsb_isSome_of_testBit _ mv.toSq hto
        rw [hnp]
        exact moveStep_king_tobit2 pos.pieces mv c _ hmt
    · apply lsb_isSome_of_testBit _ kSq hk64
      rw [hnp, moveStep_king_unchanged _ _ _ _ _ hmpk (fun hmt => (hpp hmt).2), hk,
        testBit_one_shiftLeft]
      simp
  obtain ⟨u2, hlsb⟩ := hking
  simp only [simulateMoveAndCheckKing, hmk, hlsb]
  exact ⟨_, rfl⟩

theorem isLegal_eq_spec_castle_WK (pos : Position) (kSq : Nat)
    (hW : WellFormed pos) (hc : pos.sideToMove = Color.White)
    (hk : pos.pieces Piece.King Color.White = 1 <<< kSq) (hk64 : kSq < 64)
    (hocc : (occupiedBB pos).isOccupied 6 = false) :
    isLegalMove (Move.castlingMove kSq 6) pos Color.White
      = specLegalMove (Move.castlingMove kSq 6) pos Color.White ∧
    ∃ b, isLegalMove (Move.castlingMove kSq 6) pos Color.White = some b := by
  have hkocc : (pos.pieces Piece.King Color.White).isOccupied kSq = true := by
    rw [hk, isOccupied_eq_testBit, testBit_one_shiftLeft]
    simp
  obtain ⟨mp, hfind, hmpocc⟩ := findPieceAt_mem pos Color.White kSq Piece.King hkocc
  have hmpK : mp = Piece.King := by
    have h1 : (mp, Color.White) ∈ occupiersAt pos kSq := mem_occupiersAt.mpr hmpocc
    have h2 : (Piece.King, Color.White) ∈ occupiersAt pos kSq := mem_occupiersAt.mpr hkocc
    simpa using occupiers_unique (hW.2.1 kSq hk64) h1 h2
  rw [hmpK] at hfind
  have hcap : Position.findPieceAt pos (Color.opposite Color.White) 6 = none :=
    findPieceAt_none _ _ _ (fun p => occupiedBB_free pos 6 hocc p _)
  obtain ⟨np, u, hmk, hnp⟩ := makeMove_pieces pos (Move.castlingMove kSq 6) Color.White
    Piece.King none hc hfind hcap
  have hnpK : np.pieces Piece.King Color.White = 1 <<< 6 := by
    rw [hnp]
    rw [show Move.castlingMove kSq 6 = ⟨kSq, 6, MoveType.Castling, Piece.Queen⟩ from rfl,
      moveStep_king_castling, hk, clearBit_one_shiftLeft_self kSq hk64, setBit_zero]
  have heq : isLegalMove (Move.castlingMove kSq 6) pos Color.White
      = specLegalMove (Move.castlingMove kSq 6) pos Color.White := by
    rw [show isLegalMove (Move.castlingMove kSq 6) pos Color.White
        = isLegalCastling (Move.castlingMove kSq 6) pos Color.White from rfl,
      isLegalCastling, hk, lsb_two_pow kSq hk64, specLegalMove, specPostMoveKingSafe, hmk]
    simp only [hnpK, lsb_two_pow 6 (by norm_num), Option.map_some']
    rcases Decidable.em (kSq = 4) with h4 | h4
    · subst h4
      have hnpR : np.pieces Piece.Rook Color.White
          = Bitboard.setBit (Bitboard.clearBit (pos.pieces Piece.Rook Color.White) 7) 5 := by
        rw [hnp]
        exact moveStep_rook_WK pos.pieces Color.White
      have hother : ∀ p c2, p ≠ Piece.King → p ≠ Piece.Rook →
          np.pieces p c2 = pos.pieces p c2 := by
        intro p c2 hp hr
        rw [hnp]
        exact moveStep_castling_other pos.pieces 4 6 Color.White p c2 hp hr
      have hKother : ∀ c2, c2 ≠ Color.White →
          np.pieces Piece.King c2 = pos.pieces Piece.King c2 := by
        intro c2 hc2
        rw [hnp]
        exact moveStep_castling_king_other pos.pieces 4 6 Color.White c2 hc2
      have hRother : ∀ c2, c2 ≠ Color.White →
          np.pieces Piece.Rook c2 = pos.pieces Piece.Rook c2 := by
        intro c2 hc2
        rw [hnp]
        exact moveStep_rook_WK_other pos.pieces Color.White c2 hc2
      cases hea6 : (computeEnemyAttacks pos (Color.opposite Color.White)).isOccupied 6 with
      | true => simp [hea6, specCastlePathSafe, Move.castlingMove]
      | false =>
        have hpost := castle_postSafe pos np Color.White hW.1 4 6 7 5 hk hnpR hother hKother
          hRother castleGeomWK hea6
        cases hea4 : (computeEnemyAttacks pos (Color.opposite Color.White)).isOccupied 4 <;>
          cases hea5 : (computeEnemyAttacks pos (Color.opposite Color.White)).isOccupied 5 <;>
          simp [hea4, hea5, hea6, hpost, specCastlePathSafe, Move.castlingMove]
    · simp [h4, specCastlePathSafe, Move.castlingMove]
  have hSafe : ∃ b0, specPostMoveKingSafe (Move.castlingMove kSq 6) pos Color.White
      = some b0 := by
    rw [specPostMoveKingSafe, hmk]
    simp only [hnpK, lsb_two_pow 6 (by norm_num), Option.map_some']
    exact ⟨_, rfl⟩
  refine ⟨heq, ?_⟩
  rw [heq, specLegalMove]
  obtain ⟨b0, hb0⟩ := hSafe
  rw [hb0]
  exact ⟨_, rfl⟩

theorem isLegal_eq_spec_castle_WQ (pos : Position) (kSq : Nat)
    (hW : WellFormed pos) (hc : pos.sideToMove = Color.White)
    (hk : pos.pieces Piece.King Color.White = 1 <<< kSq) (hk64 : kSq < 64)
    (hocc : (occupiedBB pos).isOccupied 2 = false) :
    isLegalMove (Move.castlingMove kSq 2) pos Color.White
      = specLegalMove (Move.castlingMove kSq 2) pos Color.White ∧
    ∃ b, isLegalMove (Move.castlingMove kSq 2) pos Color.White = some b := by
  have hkocc : (pos.pieces Piece.King Color.White).isOccupied kSq = true := by
    rw [hk, isOccupied_eq_testBit, testBit_one_shiftLeft]
    simp
  obtain ⟨mp, hfind, hmpocc⟩ := findPieceAt_mem pos Color.White kSq Piece.King hkocc
  have hmpK : mp = Piece.King := by
    have h1 : (mp, Color.White) ∈ occupiersAt pos kSq := mem_occupiersAt.mpr hmpocc
    have h2 : (Piece.King, Color.White) ∈ occupiersAt pos kSq := mem_occupiersAt.mpr hkocc
    simpa using occupiers_unique (hW.2.1 kSq hk64) h1 h2
  rw [hmpK] at hfind
  have hcap : Position.findPieceAt pos (Color.opposite Color.White) 2 = none :=
    findPieceAt_none _ _ _ (fun p => occupiedBB_free pos 2 hocc p _)
  obtain ⟨np, u, hmk, hnp⟩ := makeMove_pieces pos (Move.castlingMove kSq 2) Color.White
    Piece.King none hc hfind hcap
  have hnpK : np.pieces Piece.King Color.White = 1 <<< 2 := by
    rw [hnp]
    rw [show Move.castlingMove kSq 2 = ⟨kSq, 2, MoveType.Castling, Piece.Queen⟩ from rfl,
      moveStep_king_castling, hk, clearBit_one_shiftLeft_self kSq hk64, setBit_zero]
  have heq : isLegalMove (Move.castlingMove kSq 2) pos Color.White
      = specLegalMove (Move.castlingMove kSq 2) pos Color.White := by
    rw [show isLegalMove (Move.castlingMove kSq 2) pos Color.White
        = isLegalCastling (Move.castlingMove kSq 2) pos Color.White from rfl,
      isLegalCastling, hk, lsb_two_pow kSq hk64, specLegalMove, specPostMoveKingSafe, hmk]
    simp only [hnpK, lsb_two_pow 2 (by norm_num), Option.map_some']
    rcases Decidable.em (kSq = 4) with h4 | h4
    · subst h4
      have hnpR : np.pieces Piece.Rook Color.White
          = Bitboard.setBit (Bitboard.clearBit (pos.pieces Piece.Rook Color.White) 0) 3 := by
        rw [hnp]
        exact moveStep_rook_WQ pos.pieces Color.White
      have hother : ∀ p c2, p ≠ Piece.King → p ≠ Piece.Rook →
          np.pieces p c2 = pos.pieces p c2 := by
        intro p c2 hp hr
        rw [hnp]
        exact moveStep_castling_other pos.pieces 4 2 Color.White p c2 hp hr
      have hKother : ∀ c2, c2 ≠ Color.White →
          np.pieces Piece.King c2 = pos.pieces Piece.King c2 := by
        intro c2 hc2
        rw [hnp]
        exact moveStep_castling_king_other pos.pieces 4 2 Color.White c2 hc2
      have hRother : ∀ c2, c2 ≠ Color.White →
          np.pieces Piece.Rook c2 = pos.pieces Piece.Rook c2 := by
        intro c2 hc2
        rw [hnp]
        exact moveStep_rook_WQ_other pos.pieces Color.White c2 hc2
      cases hea2 : (computeEnemyAttacks pos (Color.opposite Color.White)).isOccupied 2 with
      | true => simp [hea2, specCastlePathSafe, Move.castlingMove]
      | false =>
        have hpost := castle_postSafe pos np Color.White hW.1 4 2 0 3 hk hnpR hother hKother
          hRother castleGeomWQ hea2
        cases hea4 : (computeEnemyAttacks pos (Color.opposite Color.White)).isOccupied 4 <;>
          cases hea3 : (computeEnemyAttacks pos (Color.opposite Color.White)).isOccupied 3 <;>
          simp [hea4, hea3, hea2, hpost, specCastlePathSafe, Move.castlingMove]
    · simp [h4, specCastlePathSafe, Move.castlingMove]
  have hSafe : ∃ b0, specPostMoveKingSafe (Move.castlingMove kSq 2) pos Color.White
      = some b0 := by
    rw [specPostMoveKingSafe, hmk]
    simp only [hnpK, lsb_two_pow 2 (by norm_num), Option.map_some']
    exact ⟨_, rfl⟩
  refine ⟨heq, ?_⟩
  rw [heq, specLegalMove]
  obtain ⟨b0, hb0⟩ := hSafe
  rw [hb0]
  exact ⟨_, rfl⟩

theorem isLegal_eq_spec_castle_BK (pos : Position) (kSq : Nat)
    (hW : WellFormed pos) (hc : pos.sideToMove = Color.Black)
    (hk : pos.pieces Piece.King Color.Black = 1 <<< kSq) (hk64 : kSq < 64)
    (hocc : (occupiedBB pos).isOccupied 62 = false) :
    isLegalMove (Move.castlingMove kSq 62) pos Color.Black
      = specLegalMove (Move.castlingMove kSq 62) pos Color.Black ∧
    ∃ b, isLegalMove (Move.castlingMove kSq 62) pos Color.Black = some b := by
  have hkocc : (pos.pieces Piece.King Color.Black).isOccupied kSq = true := by
    rw [hk, isOccupied_eq_testBit, testBit_one_shiftLeft]
    simp
  obtain ⟨mp, hfind, hmpocc⟩ := findPieceAt_mem pos Color.Black kSq Piece.King hkocc
  have hmpK : mp = Piece.King := by
    have h1 : (mp, Color.Black) ∈ occupiersAt pos kSq := mem_occupiersAt.mpr hmpocc
    have h2 : (Piece.King, Color.Black) ∈ occupiersAt pos kSq := mem_occupiersAt.mpr hkocc
    simpa using occupiers_unique (hW.2.1 kSq hk64) h1 h2
  rw [hmpK] at hfind
  have hcap : Position.findPieceAt pos (Color.opposite Color.Black) 62 = none :=
    findPieceAt_none _ _ _ (fun p => occupiedBB_free pos 62 hocc p _)
  obtain ⟨np, u, hmk, hnp⟩ := makeMove_pieces pos (Move.castlingMove kSq 62) Color.Black
    Piece.King none hc hfind hcap
  have hnpK : np.pieces Piece.King Color.Black = 1 <<< 62 := by
    rw [hnp]
    rw [show Move.castlingMove kSq 62 = ⟨kSq, 62, MoveType.Castling, Piece.Queen⟩ from rfl,
      moveStep_king_castling, hk, clearBit_one_shiftLeft_self kSq hk64, setBit_zero]
  have heq : isLegalMove (Move.castlingMove kSq 62) pos Color.Black
      = specLegalMove (Move.castlingMove kSq 62) pos Color.Black := by
    rw [show isLegalMove (Move.castlingMove kSq 62) pos Color.Black
        = isLegalCastling (Move.castlingMove kSq 62) pos Color.Black from rfl,
      isLegalCastling, hk, lsb_two_pow kSq hk64, specLegalMove, specPostMoveKingSafe, hmk]
    simp only [hnpK, lsb_two_pow 62 (by norm_num), Option.map_some']
    rcases Decidable.em (kSq = 60) with h60 | h60
    · subst h60
      have hnpR : np.pieces Piece.Rook Color.Black
          = Bitboard.setBit (Bitboard.clearBit (pos.pieces Piece.Rook Color.Black) 63) 61 := by
        rw [hnp]
        exact moveStep_rook_BK pos.pieces Color.Black
      have hother : ∀ p c2, p ≠ Piece.King → p ≠ Piece.Rook →
          np.pieces p c2 = pos.pieces p c2 := by
        intro p c2 hp hr
        rw [hnp]
        exact moveStep_castling_other pos.pieces 60 62 Color.Black p c2 hp hr
      have hKother : ∀ c2, c2 ≠ Color.Black →
          np.pieces Piece.King c2 = pos.pieces Piece.King c2 := by
        intro c2 hc2
        rw [hnp]
        exact moveStep_castling_king_other pos.pieces 60 62 Color.Black c2 hc2
      have hRother : ∀ c2, c2 ≠ Color.Black →
          np.pieces Piece.Rook c2 = pos.pieces Piece.Rook c2 := by
        intro c2 hc2
        rw [hnp]
        exact moveStep_rook_BK_other pos.pieces Color.Black c2 hc2
      cases hea62 : (computeEnemyAttacks pos (Color.opposite Color.Black)).isOccupied 62 with
      | true => simp [hea62, specCastlePathSafe, Move.castlingMove]
      | false =>
        have hpost := castle_postSafe pos np Color.Black hW.1 60 62 63 61 hk hnpR hother hKother
          hRother castleGeomBK hea62
        cases hea60 : (computeEnemyAttacks pos (Color.opposite Color.Black)).isOccupied 60 <;>
          cases hea61 : (computeEnemyAttacks pos (Color.opposite Color.Black)).isOccupied 61 <;>
          simp [hea60, hea61, hea62, hpost, specCastlePathSafe, Move.castlingMove]
    · simp [h60, specCastlePathSafe, Move.castlingMove]
  have hSafe : ∃ b0, specPostMoveKingSafe (Move.castlingMove kSq 62) pos Color.Black
      = some b0 := by
    rw [specPostMoveKingSafe, hmk]
    simp only [hnpK, lsb_two_pow 62 (by norm_num), Option.map_some']
    exact ⟨_, rfl⟩
  refine ⟨heq, ?_⟩
  rw [heq, specLegalMove]
  obtain ⟨b0, hb0⟩ := hSafe
  rw [hb0]
  exact ⟨_, rfl⟩

theorem isLegal_eq_spec_castle_BQ (pos : Position) (kSq : Nat)
    (hW : WellFormed pos) (hc : pos.sideToMove = Color.Black)
    (hk : pos.pieces Piece.King Color.Black = 1 <<< kSq) (hk64 : kSq < 64)
    (hocc : (occupiedBB pos).isOccupied 58 = false) :
    isLegalMove (Move.castlingMove kSq 58) pos Color.Black
      = specLegalMove (Move.castlingMove kSq 58) pos Color.Black ∧
    ∃ b, isLegalMove (Move.castlingMove kSq 58) pos Color.Black = some b := by
  have hkocc : (pos.pieces Piece.King Color.Black).isOccupied kSq = true := by
    rw [hk, isOccupied_eq_testBit, testBit_one_shiftLeft]
    simp
  obtain ⟨mp, hfind, hmpocc⟩ := findPieceAt_mem pos Color.Black kSq Piece.King hkocc
  have hmpK : mp = Piece.King := by
    have h1 : (mp, Color.Black) ∈ occupiersAt pos kSq := mem_occupiersAt.mpr hmpocc
    have h2 : (Piece.King, Color.Black) ∈ occupiersAt pos kSq := mem_occupiersAt.mpr hkocc
    simpa using occupiers_unique (hW.2.1 kSq hk64) h1 h2
  rw [hmpK] at hfind
  have hcap : Position.findPieceAt pos (Color.opposite Color.Black) 58 = none :=
    findPieceAt_none _ _ _ (fun p => occupiedBB_free pos 58 hocc p _)
  obtain ⟨np, u, hmk, hnp⟩ := makeMove_pieces pos (Move.castlingMove kSq 58) Color.Black
    Piece.King none hc hfind hcap
  have hnpK : np.pieces Piece.King Color.Black = 1 <<< 58 := by
    rw [hnp]
    rw [show Move.castlingMove kSq 58 = ⟨kSq, 58, MoveType.Castling, Piece.Queen⟩ from rfl,
      moveStep_king_castling, hk, clearBit_one_shiftLeft_self kSq hk64, setBit_zero]
  have heq : isLegalMove (Move.castlingMove kSq 58) pos Color.Black
      = specLegalMove (Move.castlingMove kSq 58) pos Color.Black := by
    rw [show isLegalMove (Move.castlingMove kSq 58) pos Color.Black
        = isLegalCastling (Move.castlingMove kSq 58) pos Color.Black from rfl,
      isLegalCastling, hk, lsb_two_pow kSq hk64, specLegalMove, specPostMoveKingSafe, hmk]
    simp only [hnpK, lsb_two_pow 58 (by norm_num), Option.map_some']
    rcases Decidable.em (kSq = 60) with h60 | h60
    · subst h60
      have hnpR : np.pieces Piece.Rook Color.Black
          = Bitboard.setBit (Bitboard.clearBit (pos.pieces Piece.Rook Color.Black) 56) 59 := by
        rw [hnp]
        exact moveStep_rook_BQ pos.pieces Color.Black
      have hother : ∀ p c2, p ≠ Piece.King → p ≠ Piece.Rook →
          np.pieces p c2 = pos.pieces p c2 := by
        intro p c2 hp hr
        rw [hnp]
        exact moveStep_castling_other pos.pieces 60 58 Color.Black p c2 hp hr
      have hKother : ∀ c2, c2 ≠ Color.Black →
          np.pieces Piece.King c2 = pos.pieces Piece.King c2 := by
        intro c2 hc2
        rw [hnp]
        exact moveStep_castling_king_other pos.pieces 60 58 Color.Black c2 hc2
      have hRother : ∀ c2, c2 ≠ Color.Black →
          np.pieces Piece.Rook c2 = pos.pieces Piece.Rook c2 := by
        intro c2 hc2
        rw [hnp]
        exact moveStep_rook_BQ_other pos.pieces Color.Black c2 hc2
      cases hea58 : (computeEnemyAttacks pos (Color.opposite Color.Black)).isOccupied 58 with
      | true => simp [hea58, specCastlePathSafe, Move.castlingMove]
      | false =>
        have hpost := castle_postSafe pos np Color.Black hW.1 60 58 56 59 hk hnpR hother hKother
          hRother castleGeomBQ hea58
        cases hea60 : (computeEnemyAttacks pos (Color.opposite Color.Black)).isOccupied 60 <;>
          cases hea59 : (computeEnemyAttacks pos (Color.opposite Color.Black)).isOccupied 59 <;>
          simp [hea60, hea59, hea58, hpost, specCastlePathSafe, Move.castlingMove]
    · simp [h60, specCastlePathSafe, Move.castlingMove]
  have hSafe : ∃ b0, specPostMoveKingSafe (Move.castlingMove kSq 58) pos Color.Black
      = some b0 := by
    rw [specPostMoveKingSafe, hmk]
    simp only [hnpK, lsb_two_pow 58 (by norm_num), Option.map_some']
    exact ⟨_, rfl⟩
  refine ⟨heq, ?_⟩
  rw [heq, specLegalMove]
  obtain ⟨b0, hb0⟩ := hSafe
  rw [hb0]
  exact ⟨_, rfl⟩

theorem castleMoves_eq_spec (pos : Position) (c : Color) (kSq : Nat)
    (hW : WellFormed pos) (hc : pos.sideToMove = c)
    (hk : pos.pieces Piece.King c = 1 <<< kSq) (hk64 : kSq < 64) :
    ∀ m ∈ generateCastlingMoves kSq pos.castlingRights (occupiedBB pos) c,
      isLegalMove m pos c = specLegalMove m pos c ∧ ∃ b, isLegalMove m pos c = some b := by
  intro m hm
  cases c with
  | White =>
    rw [generateCastlingMoves] at hm
    simp only [List.mem_append] at hm
    rcases hm with hm | hm
    · split at hm
      · rename_i hcond
        simp only [List.mem_singleton] at hm
        subst hm
        have hocc : (occupiedBB pos).isOccupied 6 = false := by
          simpa using hcond.2.2
        exact isLegal_eq_spec_castle_WK pos kSq hW hc hk hk64 hocc
      · cases hm
    · split at hm
      · rename_i hcond
        simp only [List.mem_singleton] at hm
        subst hm
        have hocc : (occupiedBB pos).isOccupied 2 = false := by
          simpa using hcond.2.2.1
        exact isLegal_eq_spec_castle_WQ pos kSq hW hc hk hk64 hocc
      · cases hm
  | Black =>
    rw [generateCastlingMoves] at hm
    simp only [List.mem_append] at hm
    rcases hm with hm | hm
    · split at hm
      · rename_i hcond
        simp only [List.mem_singleton] at hm
        subst hm
        have hocc : (occupiedBB pos).isOccupied 62 = false := by
          simpa using hcond.2.2
        exact isLegal_eq_spec_castle_BK pos kSq hW hc hk hk64 hocc
      · cases hm
    · split at hm
      · rename_i hcond
        simp only [List.mem_singleton] at hm
        subst hm
        have hocc : (occupiedBB pos).isOccupied 58 = false := by
          simpa using hcond.2.2.1
        exact isLegal_eq_spec_castle_BQ pos kSq hW hc hk hk64 hocc
      · cases hm

/-- C3: on a well-formed position whose side to move holds exactly one king
(king layer `1 <<< kSq`), `filter_legal_moves` applied to the full
pseudo-legal enumeration succeeds and keeps exactly the pseudo-legal moves
accepted by the specification's legality predicate: the enemy attack set
computed on the post-move occupancy misses the mover's king square, and a
castling move additionally passes the pre-move path-safety check on its
origin, transit and destination squares. -/
theorem C3_legal_filter_matches_spec (pos : Position) (c : Color) (kSq : Nat)
    (hW : WellFormed pos) (hc : pos.sideToMove = c)
    (hk : pos.pieces Piece.King c = 1 <<< kSq) (hk64 : kSq < 64) :
    ∃ l, filterLegalMoves (pseudoLegalMoves pos c) pos c = some l ∧
      ∀ m, m ∈ l ↔ m ∈ pseudoLegalMoves pos c ∧ specLegalMove m pos c = some true := by
  have hall : ∀ m ∈ pseudoLegalMoves pos c,
      isLegalMove m pos c = specLegalMove m pos c ∧ ∃ b, isLegalMove m pos c = some b := by
    intro m hm
    rw [pseudoLegalMoves] at hm
    simp only [List.mem_append] at hm
    rcases hm with hm | hm
    · obtain ⟨hnc, hfrom, hprom, hto⟩ := searchMoveList_facts pos c kSq hk hk64 m hm
      refine ⟨isLegal_eq_spec_nonCastle m pos c hnc, ?_⟩
      rw [isLegalMove_nonCastle m pos c hnc]
      exact simulate_isSome pos m c kSq hc hW.2.1 hk hk64 hfrom hprom hto
    · rw [hk, lsb_two_pow kSq hk64] at hm
      exact castleMoves_eq_spec pos c kSq hW hc hk hk64 m hm
  exact filterLegalMoves_spec pos c (pseudoLegalMoves pos c) hall

theorem C3_legal_filter_matches_spec_witness :
    WellFormed Position.startpos ∧ Position.startpos.sideToMove = Color.White ∧
    Position.startpos.pieces Piece.King Color.White = 1 <<< 4 ∧ 4 < 64 ∧
    ∃ l, filterLegalMoves (pseudoLegalMoves Position.startpos Color.White)
        Position.startpos Color.White = some l ∧
      ∀ m, m ∈ l ↔ m ∈ pseudoLegalMoves Position.startpos Color.White ∧
        specLegalMove m Position.startpos Color.White = some true :=
  ⟨by decide, rfl, by decide, by decide,
   C3_legal_filter_matches_spec Position.startpos Color.White 4 (by decide) rfl (by decide)
     (by decide)⟩

/-- C1: the round-trip property `undo(apply(P, m)) == P` fails on the code at
the en-passant capture e5xf6 of position `epPos` (FEN
`rnbqkbnr/ppp1p1pp/8/3pPp2/8/8/PPPP1PPP/RNBQKBNR w KQkq f6 0 3`): the move is
legal and applies, yet the undone position is not the original — the
captured pawn is restored both on f6 (from the generic captured-piece
restore at the to-square) and on f5 (from the en-passant branch) — and the
recomputed fingerprint differs under keys observing the black-pawn layer at
f6. -/
theorem C1_en_passant_undo_not_identity :
    isLegalMove epMove epPos Color.White = some true ∧
    ((makeMove epPos epMove).bind fun r => unmakeMove r.1 r.2) ≠ some epPos ∧
    ((makeMove epPos epMove).bind fun r => unmakeMove r.1 r.2).map
        (fun q => (q.pieces Piece.Pawn Color.Black).isOccupied 45) = some true ∧
    ((makeMove epPos epMove).bind fun r => unmakeMove r.1 r.2).map
        (fun q => zobristHash keysF6 q) ≠ some (zobristHash keysF6 epPos) := by
  decide

/-- C2: at the stalemate position of FEN `7k/5Q2/6K1/8/8/8/8/8 b - - 0 1`
(no legal moves, black king not attacked), `alpha_beta_search` at remaining
depth 1 does not return the specified stalemate score 0: the move loop never
runs, so the returned score is the untouched best-score seed `i32::MIN` with
no best move — the function has no mate/stalemate scoring at all. -/
theorem C2_stalemate_node_returns_min :
    filterLegalMoves (searchMoveList stalematePos Color.Black) stalematePos Color.Black
        = some [] ∧
    Bitboard.lsb (stalematePos.pieces Piece.King Color.Black) = some 63 ∧
    isInCheck 63 (computeEnemyAttacks stalematePos Color.White) = false ∧
    (alphaBeta keys0 evalZero 64 false false 1 alphaFull betaFull Color.Black
        (TranspositionTable.mkEmpty 1048576) stalematePos).map (fun r => r.1)
      = some { bestMove := none, score := i32MIN, nodesSearched := 1 } ∧
    i32MIN ≠ 0 := by
  decide

/-- C4: in the position of FEN `r3k2r/8/8/8/8/8/8/R3K2R w KQkq - 0 1` white
holds both castle rights and the king paths are empty, yet the move list
built by `alpha_beta_search` (the same list `generate_fallback_move` and
`generate_emergency_move` build) contains no castling move, while
`generate_castling_moves` — which no search code invokes — produces both. -/
theorem C4_search_move_list_omits_castling :
    crHas castlePos.castlingRights WHITE_KING = true ∧
    crHas castlePos.castlingRights WHITE_QUEEN = true ∧
    (occupiedBB castlePos).isOccupied 5 = false ∧
    (occupiedBB castlePos).isOccupied 6 = false ∧
    (occupiedBB castlePos).isOccupied 1 = false ∧
    (occupiedBB castlePos).isOccupied 2 = false ∧
    (occupiedBB castlePos).isOccupied 3 = false ∧
    (∀ m ∈ searchMoveList castlePos Color.White, m.moveType ≠ MoveType.Castling) ∧
    generateCastlingMoves 4 castlePos.castlingRights (occupiedBB castlePos) Color.White
      = [Move.castlingMove 4 6, Move.castlingMove 4 2] := by
  decide

/-- C5: a session holding the stalemate position that receives `go depth 1`
followed by `quit` emits no `bestmove` line at all: the worker posts a
result with no best move, the Quit branch consumes it, and — unlike the
main-loop poll — that branch has no `bestmove 0000` fallback, so the one
`go` produces zero `bestmove` lines. -/
theorem C5_go_then_quit_emits_no_bestmove :
    runUci cfg0 UciEngine.init
      [("position fen " ++ stalemateFen, false), ("go depth 1", false), ("quit", false)]
      = some [] := by
  decide

/-- C6: the transposition table verifies no fingerprint: for the aliasing
fingerprints 0 and 4 over capacity 4, a store under 0 followed by a probe
under 4 returns the stored entry, the entry type carries no fingerprint to
check, and `alpha_beta_search` on a position whose fingerprint is 4 acts on
the aliased entry as an exact depth-sufficient hit, returning its score and
move. -/
theorem C6_probe_acts_on_aliased_entry :
    (0 : Nat) ≠ 4 ∧ 0 % 4 = 4 % 4 ∧
    ((TranspositionTable.mkEmpty 4).store 0 aliasEntry).probe 4 = some aliasEntry ∧
    zobristHash aliasKeys emptyBlackPos = 4 ∧
    (alphaBeta aliasKeys evalZero 64 false false 1 alphaFull betaFull Color.Black
        ((TranspositionTable.mkEmpty 4).store 0 aliasEntry) emptyBlackPos).map (fun r => r.1)
      = some { bestMove := some aliasEntry.bestMove, score := 777, nodesSearched := 1 } := by
  decide

/-- C7: `make_move` does not fail with a recoverable InvalidMove error when
no own piece sits on the from square — it panics (modelled by `none`), and
`handle_position` calls it unguarded, so the protocol session aborts instead
of emitting a diagnostic and continuing: the token e3e4 on the start position
parses, no white piece sits on e3, and the session crashes. -/
theorem C7_make_move_panics_on_missing_piece :
    parseUciMove "e3e4" = some (Move.newMove 20 28) ∧
    Position.findPieceAt Position.startpos Color.White 20 = none ∧
    makeMove Position.startpos (Move.newMove 20 28) = none ∧
    runUci cfg0 UciEngine.init [("position startpos moves e3e4", false)] = none := by
  decide

/-- C10: every accepted move token builds a move whose tag is Normal (four
characters) or Promotion (five characters), never EnPassant or Castling;
consequently the castling token e1g1 applied through `make_move` moves only
the king and leaves the rook on h1, and the en-passant token e5f6 leaves the
captured pawn standing on f5 (nothing is captured). -/
theorem C10_parsed_moves_normal_or_promotion :
    (∀ (s : String) (m : Move), parseUciMove s = some m →
        m.moveType = MoveType.Normal ∨ m.moveType = MoveType.Promotion) ∧
    parseUciMove "e1g1" = some (Move.newMove 4 6) ∧
    (makeMove castlePos (Move.newMove 4 6)).map
        (fun r => (r.1.pieces Piece.King Color.White, r.1.pieces Piece.Rook Color.White))
      = some (1 <<< 6, 0x81) ∧
    parseUciMove "e5f6" = some (Move.newMove 36 45) ∧
    (makeMove epPos (Move.newMove 36 45)).map
        (fun r => ((r.1.pieces Piece.Pawn Color.Black).isOccupied 37, r.2.captured))
      = some (true, none) := by
  refine ⟨?_, by decide, by decide, by decide, by decide⟩
  intro s m h
  revert h
  unfold parseUciMove
  generalize s.toList = l
  intro h
  rcases l with _ | ⟨c0, l⟩
  · exact Option.noConfusion h
  rcases l with _ | ⟨c1, l⟩
  · exact Option.noConfusion h
  rcases l with _ | ⟨c2, l⟩
  · exact Option.noConfusion h
  rcases l with _ | ⟨c3, rest⟩
  · exact Option.noConfusion h
  dsimp only at h
  cases hc0 : charSub c0 'a' <;> rw [hc0] at h
  · exact Option.noConfusion h
  cases hc1 : charSub c1 '1' <;> rw [hc1] at h
  · exact Option.noConfusion h
  cases hc2 : charSub c2 'a' <;> rw [hc2] at h
  · exact Option.noConfusion h
  cases hc3 : charSub c3 '1' <;> rw [hc3] at h
  · exact Option.noConfusion h
  dsimp only at h
  split at h
  · exact Option.noConfusion h
  split at h
  · split at h <;> first
      | exact Option.noConfusion h
      | (cases h; right; rfl)
  · cases h; left; rfl

/-- C10 witness: the theorem applied to the concrete token e1g1. -/
theorem C10_parsed_moves_witness :
    (Move.newMove 4 6).moveType = MoveType.Normal ∨
    (Move.newMove 4 6).moveType = MoveType.Promotion :=
  C10_parsed_moves_normal_or_promotion.1 "e1g1" (Move.newMove 4 6) (by decide)

end M4K
